import Mathlib

/-!
# Mython lexer (`src/mython/lexer.cpp`)

A shallow embedding of the lexer and theorems about it.

Modelling conventions.

* The input stream `std::istream& input_` is the list of characters that are
  still unread.  `peek()` is the head of the list, `get()` removes the head,
  end of input (`EOF`) is the empty list.  Once a read has hit the end of the
  stream the C++ stream stays at its end (`eofbit`/`failbit` are sticky, and a
  `putback` on a failed stream does nothing), which is exactly the behaviour of
  the empty list.  The input is text: no character of it is read as `EOF`.
* `putback(c)` is only ever called with the character that was just read, so
  it is modelled by not removing that character.
* A `throw` is the `Except.error` result; the lexer state after a throw is
  not observable.
* `lexer.h` is not part of the sources.  The two character sets
  `special_symbols` and `comparison_symbols` it declares are parameters
  (`Tables`); the keyword table and the initial value `0` of the two
  indentation counters are taken from the specification.  The counters are
  mathematical integers.
-/

namespace parse

/-! ## The program -/

/-- The closed set of token variants (`token_type::*`). -/
inductive Token where
  | Number (value : Int)
  | Id (value : List Char)
  | Char (value : Char)
  | String (value : List Char)
  | Class
  | Return
  | If
  | Else
  | Def
  | Newline
  | Print
  | Indent
  | Dedent
  | And
  | Or
  | Not
  | Eq
  | NotEq
  | LessOrEq
  | GreaterOrEq
  | None
  | True
  | False
  | Eof
  deriving DecidableEq

/-- The position of the active alternative in the variant (`Token::index()`). -/
def Token.index : Token → Nat
  | .Number _ => 0
  | .Id _ => 1
  | .Char _ => 2
  | .String _ => 3
  | .Class => 4
  | .Return => 5
  | .If => 6
  | .Else => 7
  | .Def => 8
  | .Newline => 9
  | .Print => 10
  | .Indent => 11
  | .Dedent => 12
  | .And => 13
  | .Or => 14
  | .Not => 15
  | .Eq => 16
  | .NotEq => 17
  | .LessOrEq => 18
  | .GreaterOrEq => 19
  | .None => 20
  | .True => 21
  | .False => 22
  | .Eof => 23

/-- The comparison `bool operator==(const Token& lhs, const Token& rhs)`. -/
def operator_eq (lhs rhs : Token) : Bool :=
  if lhs.index ≠ rhs.index then false
  else
    match lhs, rhs with
    | .Char a, .Char b => a == b
    | .Number a, .Number b => a == b
    | .String a, .String b => a == b
    | .Id a, .Id b => a == b
    | _, _ => true

/-- The comparison `bool operator!=(const Token& lhs, const Token& rhs)`. -/
def operator_ne (lhs rhs : Token) : Bool :=
  !(operator_eq lhs rhs)

/-- The exceptions the lexer can raise: `LexerError` with its message, and the
`std::out_of_range` of `stoi`. -/
inductive LexerError where
  /-- `LexerError("parsing error")` -/
  | parsing_error
  /-- `LexerError("invalid indent")` -/
  | invalid_indent
  /-- `LexerError("expected number")` -/
  | expected_number
  /-- `LexerError("expected space/new line/end/file/special symbol")` -/
  | expected_terminator
  /-- `LexerError("expected opening quote")` -/
  | expected_opening_quote
  /-- `LexerError("expected closing quote")` -/
  | expected_closing_quote
  /-- `LexerError("invalid symbol/id")` -/
  | invalid_symbol_id
  /-- `LexerError("expected comparison operation")` -/
  | expected_comparison_operation
  /-- `LexerError("no indent/dedent")` -/
  | no_indent_dedent
  /-- `std::out_of_range` thrown by `stoi` -/
  | stoi_out_of_range
  deriving DecidableEq

/-- Whether the exception is a `LexerError` of the program; the
`std::out_of_range` of `stoi` is not. -/
def LexerError.lexical : LexerError → Bool
  | .stoi_out_of_range => false
  | _ => true

/-- The character sets declared in `lexer.h`. -/
structure Tables where
  special_symbols : Char → Bool
  comparison_symbols : Char → Bool

/-- Modelled from the spec: the table `token_type::keyword_to_token` of `lexer.h`,
one keyword token per reserved word. -/
def keyword_to_token (name : List Char) : Option Token :=
  if name = ['c', 'l', 'a', 's', 's'] then some .Class
  else if name = ['r', 'e', 't', 'u', 'r', 'n'] then some .Return
  else if name = ['i', 'f'] then some .If
  else if name = ['e', 'l', 's', 'e'] then some .Else
  else if name = ['d', 'e', 'f'] then some .Def
  else if name = ['p', 'r', 'i', 'n', 't'] then some .Print
  else if name = ['a', 'n', 'd'] then some .And
  else if name = ['o', 'r'] then some .Or
  else if name = ['n', 'o', 't'] then some .Not
  else if name = ['N', 'o', 'n', 'e'] then some .None
  else if name = ['T', 'r', 'u', 'e'] then some .True
  else if name = ['F', 'a', 'l', 's', 'e'] then some .False
  else none

/-- The lexer object: the unread input and the three data members. -/
structure Lexer where
  input_ : List Char
  current_token_ : Token
  current_indent_ : Int
  difference_previous_current_indents_ : Int
  deriving DecidableEq

/-- The call `getline(input_, str)` with the line thrown away: reads up to and
including the next newline, or to the end of input. -/
def getline (input : List Char) : List Char :=
  (input.dropWhile (fun c => c != '\n')).drop 1

/-- The loop of `Lexer::SkipSpaces`. -/
def SkipSpaces (input : List Char) : List Char :=
  input.dropWhile (fun c => c == ' ')

/-- The conversion `stoi(number)` on a string of decimal digits: its decimal value. -/
def decimalValue (number : List Char) : Nat :=
  number.foldl (fun acc d => 10 * acc + (d.toNat - '0'.toNat)) 0

/-- The call `stoi(number)`: the decimal value when it fits in `int`. -/
def stoi (number : List Char) : Except LexerError Int :=
  if decimalValue number ≤ 2147483647 then .ok (decimalValue number)
  else .error .stoi_out_of_range

/-- The function `Lexer::SkipEmptyLinesAndComments`.  The number `count_spaces`
is the length of the run of spaces the first loop reads. -/
def SkipEmptyLinesAndComments (s : Lexer) : Except LexerError Lexer :=
  if (SkipSpaces s.input_).head? = some '\n' then
    SkipEmptyLinesAndComments { s with input_ := (SkipSpaces s.input_).tail }
  else if (SkipSpaces s.input_).head? = some '#' then
    SkipEmptyLinesAndComments { s with input_ := getline (SkipSpaces s.input_) }
  else if (s.input_.takeWhile (fun c => c == ' ')).length % 2 = 1 then .error .invalid_indent
  else .ok { s with
    input_ := SkipSpaces s.input_
    difference_previous_current_indents_ :=
      ((s.input_.takeWhile (fun c => c == ' ')).length / 2 : Nat) - s.current_indent_
    current_indent_ := ((s.input_.takeWhile (fun c => c == ' ')).length / 2 : Nat) }
termination_by s.input_.length
decreasing_by
  · rename_i h
    have h1 := (List.dropWhile_suffix (l := s.input_) (fun c => c == ' ')).length_le
    unfold SkipSpaces at h ⊢
    cases hd : List.dropWhile (fun c => c == ' ') s.input_ with
    | nil => rw [hd] at h; simp at h
    | cons c rest =>
      rw [hd] at h1
      simp only [List.tail_cons, List.length_cons] at h1 ⊢
      omega
  · rename_i _ h
    have h1 := (List.dropWhile_suffix (l := s.input_) (fun c => c == ' ')).length_le
    unfold SkipSpaces at h ⊢
    cases hd : List.dropWhile (fun c => c == ' ') s.input_ with
    | nil => rw [hd] at h; simp at h
    | cons c rest =>
      rw [hd] at h1 h
      simp only [List.head?_cons, Option.some.injEq] at h
      subst h
      have h2 : (getline ('#' :: rest)).length ≤ rest.length := by
        simp only [getline]
        rw [List.dropWhile_cons_of_pos (by decide)]
        have := (List.dropWhile_suffix (l := rest) (fun c => c != '\n')).length_le
        simp only [List.length_drop]
        omega
      simp only [List.length_cons] at h1
      omega

/-- The number of activations of `Lexer::SkipEmptyLinesAndComments` on the call
stack at the deepest point of one call: the function calls itself once for
every blank or comment-only line it passes. -/
def SkipDepth (s : Lexer) : Nat :=
  if (SkipSpaces s.input_).head? = some '\n' then
    SkipDepth { s with input_ := (SkipSpaces s.input_).tail } + 1
  else if (SkipSpaces s.input_).head? = some '#' then
    SkipDepth { s with input_ := getline (SkipSpaces s.input_) } + 1
  else 1
termination_by s.input_.length
decreasing_by
  · rename_i h
    have h1 := (List.dropWhile_suffix (l := s.input_) (fun c => c == ' ')).length_le
    unfold SkipSpaces at h ⊢
    cases hd : List.dropWhile (fun c => c == ' ') s.input_ with
    | nil => rw [hd] at h; simp at h
    | cons c rest =>
      rw [hd] at h1
      simp only [List.tail_cons, List.length_cons] at h1 ⊢
      omega
  · rename_i _ h
    have h1 := (List.dropWhile_suffix (l := s.input_) (fun c => c == ' ')).length_le
    unfold SkipSpaces at h ⊢
    cases hd : List.dropWhile (fun c => c == ' ') s.input_ with
    | nil => rw [hd] at h; simp at h
    | cons c rest =>
      rw [hd] at h1 h
      simp only [List.head?_cons, Option.some.injEq] at h
      subst h
      have h2 : (getline ('#' :: rest)).length ≤ rest.length := by
        simp only [getline]
        rw [List.dropWhile_cons_of_pos (by decide)]
        have := (List.dropWhile_suffix (l := rest) (fun c => c != '\n')).length_le
        simp only [List.length_drop]
        omega
      simp only [List.length_cons] at h1
      omega

/-- The function `Lexer::ParseNumber`, on the unread input: the token and the
input left.  The character after the digits is held in a `char` and compared
with `EOF`; with a signed `char` the byte `0xFF` equals `EOF` there, so it is
accepted like the end of input (and put back). -/
def ParseNumber (T : Tables) (input : List Char) : Except LexerError (Token × List Char) :=
  match input with
  | [] => .error .expected_number
  | c :: _ =>
    if !c.isDigit then .error .expected_number
    else
      let number := input.takeWhile Char.isDigit
      match input.dropWhile Char.isDigit with
      | [] =>
        match stoi number with
        | .error e => .error e
        | .ok v => .ok (.Number v, [])
      | c :: rest =>
        if c ≠ ' ' ∧ c ≠ '\n' ∧ c ≠ '\xff' ∧ T.special_symbols c = false then
          .error .expected_terminator
        else
          match stoi number with
          | .error e => .error e
          | .ok v => .ok (.Number v, c :: rest)

/-- The `while (true)` loop of `Lexer::ParseStringConstant`: `str` is the text
collected so far. -/
def ParseStringConstant.loop (initial_quote : Char) :
    List Char → List Char → Except LexerError (Token × List Char)
  | [], _ => .error .expected_closing_quote
  | c :: rest, str =>
    if c ≠ initial_quote ∧ c ≠ '\\' then ParseStringConstant.loop initial_quote rest (str ++ [c])
    else if c = '\\' then
      match rest with
      | [] => .error .expected_closing_quote
      | e :: rest2 =>
        if e = 't' then ParseStringConstant.loop initial_quote rest2 (str ++ ['\t'])
        else if e = 'n' then ParseStringConstant.loop initial_quote rest2 (str ++ ['\n'])
        else ParseStringConstant.loop initial_quote rest2 (str ++ [e])
    else .ok (.String str, rest)

/-- The function `Lexer::ParseStringConstant`, on the unread input. -/
def ParseStringConstant (input : List Char) : Except LexerError (Token × List Char) :=
  match input with
  | [] => .error .expected_opening_quote
  | initial_quote :: rest =>
    if initial_quote ≠ '\'' ∧ initial_quote ≠ '\"' then .error .expected_opening_quote
    else ParseStringConstant.loop initial_quote rest []

/-- The test `c == '_' || isdigit(c) || isalpha(c)` of `Lexer::ParseName`. -/
def isNameChar (c : Char) : Bool :=
  c == '_' || c.isDigit || c.isAlpha

/-- The function `Lexer::ParseName`, on the unread input. -/
def ParseName (input : List Char) : Except LexerError (Token × List Char) :=
  match input with
  | [] => .error .invalid_symbol_id
  | c :: rest =>
    if !c.isAlpha ∧ c ≠ '_' then .error .invalid_symbol_id
    else
      let name := c :: rest.takeWhile isNameChar
      match keyword_to_token name with
      | some t => .ok (t, rest.dropWhile isNameChar)
      | none => .ok (.Id name, rest.dropWhile isNameChar)

/-- The function `Lexer::ParseComparisonOperator`, on the unread input. -/
def ParseComparisonOperator (input : List Char) : Except LexerError (Token × List Char) :=
  match input with
  | a :: b :: rest =>
    if a = '=' ∧ b = '=' then .ok (.Eq, rest)
    else if a = '!' ∧ b = '=' then .ok (.NotEq, rest)
    else if a = '<' ∧ b = '=' then .ok (.LessOrEq, rest)
    else if a = '>' ∧ b = '=' then .ok (.GreaterOrEq, rest)
    else .error .expected_comparison_operation
  | _ => .error .expected_comparison_operation

/-- The function `Lexer::ParseIndentOrDedent`: the token and the updated lexer. -/
def ParseIndentOrDedent (s : Lexer) : Except LexerError (Token × Lexer) :=
  if s.difference_previous_current_indents_ > 0 then
    .ok (.Indent,
      { s with difference_previous_current_indents_ := s.difference_previous_current_indents_ - 1 })
  else if s.difference_previous_current_indents_ < 0 then
    .ok (.Dedent,
      { s with difference_previous_current_indents_ := s.difference_previous_current_indents_ + 1 })
  else .error .no_indent_dedent

/-- Records the token a scan produced as the current token
(`return current_token_ = ...`). -/
def setCurrent (s : Lexer) (r : Except LexerError (Token × List Char)) :
    Except LexerError (Token × Lexer) :=
  match r with
  | .error e => .error e
  | .ok (t, input) => .ok (t, { s with input_ := input, current_token_ := t })

/-- The function `Lexer::NextToken`: the token returned and the lexer after the
call.  The character read by `get()`, and the one seen by `peek()` in the `#`
branch, is held in a `char` and compared with `EOF`; with a signed `char` the
byte `0xFF` equals `EOF` there, so it takes the end-of-input branch (in the
dispatch the byte has been read, in the `#` branch it has not). -/
def NextToken (T : Tables) (s : Lexer) : Except LexerError (Token × Lexer) :=
  if operator_eq s.current_token_ .Eof then .ok (.Eof, s)
  else
    match h1 : (if operator_eq s.current_token_ .Newline then SkipEmptyLinesAndComments s
      else .ok s) with
    | .error e => .error e
    | .ok s1 =>
      if s1.difference_previous_current_indents_ ≠ 0 then
        match ParseIndentOrDedent s1 with
        | .error e => .error e
        | .ok (t, s2) => .ok (t, { s2 with current_token_ := t })
      else
        match h2 : SkipSpaces s1.input_ with
        | [] =>
          if operator_eq s1.current_token_ .Newline ∨ operator_eq s1.current_token_ .Indent ∨
              operator_eq s1.current_token_ .Dedent then
            .ok (.Eof, { s1 with input_ := [], current_token_ := .Eof })
          else .ok (.Newline, { s1 with input_ := [], current_token_ := .Newline })
        | c :: rest =>
          if c.isDigit then setCurrent s1 (ParseNumber T (c :: rest))
          else if c = '\'' ∨ c = '\"' then setCurrent s1 (ParseStringConstant (c :: rest))
          else if c = '\n' then
            .ok (.Newline, { s1 with input_ := rest, current_token_ := .Newline })
          else if c = '\xff' then
            if operator_eq s1.current_token_ .Newline ∨ operator_eq s1.current_token_ .Indent ∨
                operator_eq s1.current_token_ .Dedent then
              .ok (.Eof, { s1 with input_ := rest, current_token_ := .Eof })
            else .ok (.Newline, { s1 with input_ := rest, current_token_ := .Newline })
          else if c = '#' then
            match h3 : SkipEmptyLinesAndComments { s1 with input_ := getline rest } with
            | .error e => .error e
            | .ok s2 =>
              if s2.input_.head? = some '#' then
                match NextToken T s2 with
                | .error e => .error e
                | .ok (t, s3) => .ok (t, { s3 with current_token_ := t })
              else if s2.input_.head? = none ∨ s2.input_.head? = some '\xff' then
                .ok (.Eof, { s2 with current_token_ := .Eof })
              else .ok (.Newline, { s2 with current_token_ := .Newline })
          else if c = '=' ∧ rest.head? ≠ some '=' then
            .ok (.Char '=', { s1 with input_ := rest, current_token_ := .Char '=' })
          else if T.comparison_symbols c = true ∧ rest.head? = some '=' then
            setCurrent s1 (ParseComparisonOperator (c :: rest))
          else if T.special_symbols c = true then
            .ok (.Char c, { s1 with input_ := rest, current_token_ := .Char c })
          else if c.isAlpha ∨ c = '_' then setCurrent s1 (ParseName (c :: rest))
          else .error .parsing_error
termination_by s.input_.length
decreasing_by
  have getline_le : ∀ input : List Char, (getline input).length ≤ input.length := by
    intro input
    have := (List.dropWhile_suffix (l := input) (fun c => c != '\n')).length_le
    simp only [getline, List.length_drop]
    omega
  have skip_le : ∀ a b : Lexer, SkipEmptyLinesAndComments a = .ok b →
      b.input_.length ≤ a.input_.length := by
    intro a
    induction a using SkipEmptyLinesAndComments.induct with
    | case1 a hd ih =>
      intro b hb
      rw [SkipEmptyLinesAndComments] at hb
      simp only [hd, if_true] at hb
      have := ih b hb
      have := (List.dropWhile_suffix (l := a.input_) (fun c => c == ' ')).length_le
      simp only [List.length_tail, SkipSpaces] at *
      omega
    | case2 a hd1 hd ih =>
      intro b hb
      rw [SkipEmptyLinesAndComments] at hb
      simp only [hd1, hd, if_true, if_false] at hb
      have := ih b hb
      have := (List.dropWhile_suffix (l := a.input_) (fun c => c == ' ')).length_le
      have := getline_le (SkipSpaces a.input_)
      simp only [SkipSpaces] at *
      omega
    | case3 a hd1 hd hodd =>
      intro b hb
      rw [SkipEmptyLinesAndComments] at hb
      simp only [hd1, hd, if_false, hodd, if_true] at hb
      cases hb
    | case4 a hd1 hd hodd =>
      intro b hb
      rw [SkipEmptyLinesAndComments] at hb
      simp only [hd1, hd, if_false, hodd] at hb
      cases hb
      exact (List.dropWhile_suffix (l := a.input_) (fun c => c == ' ')).length_le
  have l1 : s1.input_.length ≤ s.input_.length := by
    split at h1
    · exact skip_le _ _ h1
    · cases h1; exact Nat.le_refl _
  have l2 := (List.dropWhile_suffix (l := s1.input_) (fun c => c == ' ')).length_le
  unfold SkipSpaces at h2
  rw [h2] at l2
  have l3 := skip_le _ _ h3
  have l4 := getline_le rest
  simp only [List.length_cons] at l2 l3
  omega

/-- The loop at the start of the constructor `Lexer::Lexer`, which drops the
comment lines at the beginning of the input. -/
def skipLeadingComments (input : List Char) : List Char :=
  if input.head? = some '#' then skipLeadingComments (getline (SkipSpaces input))
  else input
termination_by input.length
decreasing_by
  rename_i h
  cases input with
  | nil => simp at h
  | cons c rest =>
    simp only [List.head?_cons, Option.some.injEq] at h
    subst h
    have h2 : (getline ('#' :: rest)).length ≤ rest.length := by
      simp only [getline]
      rw [List.dropWhile_cons_of_pos (by decide)]
      have := (List.dropWhile_suffix (l := rest) (fun c => c != '\n')).length_le
      simp only [List.length_drop]
      omega
    have h3 : SkipSpaces ('#' :: rest) = '#' :: rest := by
      simp [SkipSpaces]
    rw [h3]
    simp only [List.length_cons]
    omega

/-- The constructor `Lexer::Lexer(std::istream& input)`.  The two indentation
counters start at `0`. -/
def Lexer.new (T : Tables) (input : List Char) : Except LexerError Lexer :=
  match NextToken T
    { input_ := skipLeadingComments input
      current_token_ := .Newline
      current_indent_ := 0
      difference_previous_current_indents_ := 0 } with
  | .error e => .error e
  | .ok (t, s) => .ok { s with current_token_ := t }

/-- The function `Lexer::CurrentToken`. -/
def CurrentToken (s : Lexer) : Token :=
  s.current_token_

/-! ## Running the lexer -/

/-- The results of `n` successive calls of `Lexer::NextToken`, in order, and
the lexer after them. -/
def calls (T : Tables) : Nat → Lexer → Except LexerError (List Token × Lexer)
  | 0, s => .ok ([], s)
  | n + 1, s =>
    match NextToken T s with
    | .error e => .error e
    | .ok (t, s1) =>
      match calls T n s1 with
      | .error e => .error e
      | .ok (ts, s2) => .ok (t :: ts, s2)

/-- The consumer loop: the current token, then the results of `NextToken` up
to and including the first `Eof`, with at most `n` calls. -/
def drain (T : Tables) : Nat → Lexer → Except LexerError (List Token)
  | 0, s => .ok [s.current_token_]
  | n + 1, s =>
    if s.current_token_ = .Eof then .ok [.Eof]
    else
      match NextToken T s with
      | .error e => .error e
      | .ok (_, s1) =>
        match drain T n s1 with
        | .error e => .error e
        | .ok ts => .ok (s.current_token_ :: ts)

/-- The rank of the current token in the progress measure: `Eof` is final, a
line-boundary token can be followed by `Eof`, any other token by `Newline`. -/
def rank : Token → Nat
  | .Eof => 0
  | .Newline => 1
  | .Indent => 1
  | .Dedent => 1
  | _ => 2

/-- A bound on the number of calls of `NextToken` before `Eof` is returned. -/
def budget (s : Lexer) : Nat :=
  2 * s.input_.length + s.current_indent_.natAbs +
    s.difference_previous_current_indents_.natAbs + rank s.current_token_

/-- The complete result of tokenizing an input: the token of the constructor
followed by the results of `NextToken` up to `Eof`, or the error raised. -/
def Tokenize (T : Tables) (input : List Char) : Except LexerError (List Token) :=
  match Lexer.new T input with
  | .error e => .error e
  | .ok s => drain T (budget s) s

/-! ## Notions used to state the claims -/

/-- The number of `Indent` tokens minus the number of `Dedent` tokens of a
token sequence. -/
def balance (ts : List Token) : Int :=
  (ts.count .Indent : Int) - (ts.count .Dedent : Int)

/-- A line that carries no content: `blank n` is `n` spaces and a newline,
`comment n text` is `n` spaces, `#`, the text of the comment and a newline. -/
inductive SkippedLine where
  | blank (spaces : Nat)
  | comment (spaces : Nat) (text : List Char)

/-- The characters of a blank or comment-only line. -/
def SkippedLine.chars : SkippedLine → List Char
  | .blank n => List.replicate n ' ' ++ ['\n']
  | .comment n text => List.replicate n ' ' ++ '#' :: text ++ ['\n']

/-- The text of a comment holds no newline. -/
def SkippedLine.wellFormed : SkippedLine → Prop
  | .blank _ => True
  | .comment _ text => '\n' ∉ text

/-- The characters of a sequence of blank and comment-only lines. -/
def skippedLines (ls : List SkippedLine) : List Char :=
  (ls.map SkippedLine.chars).flatten

/-- The character an escape sequence stands for: backslash-`t` is TAB,
backslash-`n` is LF, backslash followed by any other character is that character. -/
def unescapeChar (c : Char) : Char :=
  if c = 't' then '\t' else if c = 'n' then '\n' else c

/-- The text a literal body stands for: every two-character escape is replaced
by the character it stands for, every other character is copied. -/
def unescape : List Char → List Char
  | [] => []
  | c :: rest =>
    if c = '\\' then
      match rest with
      | [] => []
      | e :: rest2 => unescapeChar e :: unescape rest2
    else c :: unescape rest

/-- A body for the quote `q`: every occurrence of `q` in it is escaped by a
backslash, and it does not end in a backslash that escapes nothing. -/
def closedBody (q : Char) : List Char → Bool
  | [] => true
  | c :: rest =>
    if c = '\\' then
      match rest with
      | [] => false
      | _ :: rest2 => closedBody q rest2
    else c != q && closedBody q rest

/-- Where a left-to-right reading of the source text stands: in code, inside a
string literal opened by the quote `q`, right after a backslash inside such a
literal, or inside a comment. -/
inductive Mode where
  | code
  | str (q : Char)
  | esc (q : Char)
  | comment
  deriving DecidableEq

/-- The mode after one more character. -/
def Mode.step : Mode → Char → Mode
  | .code, c => if c = '\'' ∨ c = '\"' then .str c else if c = '#' then .comment else .code
  | .str q, c => if c = q then .code else if c = '\\' then .esc q else .str q
  | .esc q, _ => .str q
  | .comment, c => if c = '\n' then .code else .comment

/-- The mode at the end of a text that is read from its start. -/
def modeAfter (a : List Char) : Mode :=
  a.foldl Mode.step .code

/-- The position after the text `a` is the start of a logical line: `a` is
empty, or `a` ends with a newline that is not inside a string literal. -/
def lineStart (a : List Char) : Prop :=
  a = [] ∨ ∃ a1, a = a1 ++ ['\n'] ∧ (modeAfter a1 = .code ∨ modeAfter a1 = .comment)

/-- A sample instance of the character sets, for evaluating the lexer on
concrete inputs. -/
def sampleTables : Tables where
  special_symbols := fun c => c ∈ ['.', ',', '(', ')', '+', '-', '*', '/', ':', '<', '>', '=', '!']
  comparison_symbols := fun c => c ∈ ['=', '!', '<', '>']

/-- The input of the example of C4: `if x:`, a comment line indented by four
spaces, an empty line, and `pass` indented by four spaces. -/
def exampleSource : List Char :=
  ['i', 'f', ' ', 'x', ':', '\n', ' ', ' ', ' ', ' ', '#', ' ', 'n', 'o', 't', 'e', '\n', '\n',
    ' ', ' ', ' ', ' ', 'p', 'a', 's', 's', '\n']

/-- The payload of a token that carries a value: the number, or the characters
of the name, of the string or of the symbol. -/
def payload : Token → Option (Int ⊕ List Char)
  | .Number v => some (.inl v)
  | .Id v => some (.inr v)
  | .String v => some (.inr v)
  | .Char v => some (.inr [v])
  | _ => none

/-- Modelled from the spec: the shape of two adjacent tokens `p`, `t` of the
stream at a line boundary: a `Newline` does not follow a `Newline`, and an
`Indent` or `Dedent` follows a `Newline` or a token of its own kind. -/
def boundaryShape (p t : Token) : Prop :=
  (t = .Newline → p ≠ .Newline) ∧ (t = .Indent → p = .Newline ∨ p = .Indent) ∧
    (t = .Dedent → p = .Newline ∨ p = .Dedent)

/-- Modelled from the spec: the input ends with a run of one or more spaces
that begins at a line start, that is, at the start of the input or right after
a newline. -/
def endsWithIndentOnly (input : List Char) : Prop :=
  ∃ pre n, input = pre ++ List.replicate (n + 1) ' ' ∧ (pre = [] ∨ pre.getLast? = some '\n')

/-- The last character of a text that is no space, if there is one. -/
def lastNonSpace : List Char → Option Char
  | [] => none
  | c :: r =>
    match lastNonSpace r with
    | some d => some d
    | none => if c = ' ' then none else some c

/-- Modelled from the spec: the input does not end with a newline and its last
line ends with content, possibly followed by spaces: the last character that is
no space exists and is neither a newline nor the byte `0xFF`, which the code
reads as the end of input and which is no part of a token. -/
def endsWithContent (s : List Char) : Bool :=
  match lastNonSpace s with
  | some c => c != '\n' && c != '\xff'
  | none => false

/-! ## Parts of `NextToken`, named for the proofs -/

/-- The dispatch of `NextToken` on the next character, after indentation has
been handled; the recursive call of the `#` branch is left out (it is never
taken).  The byte `0xFF` takes the end-of-input branches, as in `NextToken`. -/
def scan (T : Tables) (s1 : Lexer) : Except LexerError (Token × Lexer) :=
  match SkipSpaces s1.input_ with
  | [] =>
    if s1.current_token_ = .Newline ∨ s1.current_token_ = .Indent ∨
        s1.current_token_ = .Dedent then
      .ok (.Eof, { s1 with input_ := [], current_token_ := .Eof })
    else .ok (.Newline, { s1 with input_ := [], current_token_ := .Newline })
  | c :: rest =>
    if c.isDigit then setCurrent s1 (ParseNumber T (c :: rest))
    else if c = '\'' ∨ c = '\"' then setCurrent s1 (ParseStringConstant (c :: rest))
    else if c = '\n' then
      .ok (.Newline, { s1 with input_ := rest, current_token_ := .Newline })
    else if c = '\xff' then
      if s1.current_token_ = .Newline ∨ s1.current_token_ = .Indent ∨
          s1.current_token_ = .Dedent then
        .ok (.Eof, { s1 with input_ := rest, current_token_ := .Eof })
      else .ok (.Newline, { s1 with input_ := rest, current_token_ := .Newline })
    else if c = '#' then
      match SkipEmptyLinesAndComments { s1 with input_ := getline rest } with
      | .error e => .error e
      | .ok s2 =>
        if s2.input_.head? = none ∨ s2.input_.head? = some '\xff' then
          .ok (.Eof, { s2 with current_token_ := .Eof })
        else .ok (.Newline, { s2 with current_token_ := .Newline })
    else if c = '=' ∧ rest.head? ≠ some '=' then
      .ok (.Char '=', { s1 with input_ := rest, current_token_ := .Char '=' })
    else if T.comparison_symbols c = true ∧ rest.head? = some '=' then
      setCurrent s1 (ParseComparisonOperator (c :: rest))
    else if T.special_symbols c = true then
      .ok (.Char c, { s1 with input_ := rest, current_token_ := .Char c })
    else if c.isAlpha ∨ c = '_' then setCurrent s1 (ParseName (c :: rest))
    else .error .parsing_error

/-- The part of `NextToken` after the indentation of the line has been measured. -/
def afterIndent (T : Tables) (s1 : Lexer) : Except LexerError (Token × Lexer) :=
  if s1.difference_previous_current_indents_ ≠ 0 then
    match ParseIndentOrDedent s1 with
    | .error e => .error e
    | .ok (t, s2) => .ok (t, { s2 with current_token_ := t })
  else scan T s1

/-- The end of the `#` branch of `NextToken`, as a function of the result of
`SkipEmptyLinesAndComments`. -/
def commentEnd (r : Except LexerError Lexer) : Except LexerError (Token × Lexer) :=
  match r with
  | .error e => .error e
  | .ok s2 =>
    if s2.input_.head? = none ∨ s2.input_.head? = some '\xff' then
      .ok (.Eof, { s2 with current_token_ := .Eof })
    else .ok (.Newline, { s2 with current_token_ := .Newline })

/-- The rest of `NextToken` at a line start, as a function of the result of
`SkipEmptyLinesAndComments`. -/
def afterSkip (T : Tables) (r : Except LexerError Lexer) : Except LexerError (Token × Lexer) :=
  match r with
  | .error e => .error e
  | .ok s1 => afterIndent T s1

/-- The text `a`, read from mode `m`, ends with a newline outside a string literal. -/
def endsLine (m : Mode) (a : List Char) : Prop :=
  ∃ a1, a = a1 ++ ['\n'] ∧ (a1.foldl Mode.step m = .code ∨ a1.foldl Mode.step m = .comment)

/-- Two lexers that differ only by a blank or comment-only line `l` inserted at
the start of a logical line that is still to be read. -/
def Rel (l b : List Char) (s s2 : Lexer) : Prop :=
  s = s2 ∨ ∃ a t m d, (endsLine .code a ∨ (a = [] ∧ t = .Newline)) ∧
    s = ⟨a ++ b, t, m, d⟩ ∧ s2 = ⟨a ++ (l ++ b), t, m, d⟩

/-- The owed indentation agrees with the current token: after `Indent` the
owed number is not negative, after `Dedent` not positive, and after a content
token nothing is owed. -/
def owedAgrees (s : Lexer) : Prop :=
  (s.current_token_ = .Indent → 0 ≤ s.difference_previous_current_indents_) ∧
    (s.current_token_ = .Dedent → s.difference_previous_current_indents_ ≤ 0) ∧
    (rank s.current_token_ = 2 → s.difference_previous_current_indents_ = 0)

/-- The change of the balance of `Indent` and `Dedent` by one token. -/
def shift : Token → Int
  | .Indent => 1
  | .Dedent => -1
  | _ => 0

/-- The level the tokens returned so far have reached: the level of the current
line less the owed indentation. -/
def reached (s : Lexer) : Int :=
  s.current_indent_ - s.difference_previous_current_indents_

/-- No newline of the text is followed by spaces only, up to the end of the text. -/
def noSpacesAfterNewline (a : List Char) : Prop :=
  ∀ pre n, a = pre ++ List.replicate n ' ' → pre.getLast? = some '\n' → n = 0

/-- The text is empty or holds a character that is no space. -/
def notOnlySpaces (a : List Char) : Prop :=
  ∀ n, a = List.replicate n ' ' → n = 0

/-- The state in which `NextToken` looks at the owed indentation, on an input
without `#`, without the byte `0xFF` and without a final line of spaces. -/
structure Measured (s : Lexer) : Prop where
  spaces : noSpacesAfterNewline s.input_
  hash : '#' ∉ s.input_
  level : 0 ≤ s.current_indent_
  owed : s.difference_previous_current_indents_ ≤ s.current_indent_
  boundary : rank s.current_token_ = 1 →
    s.input_.head? ≠ some ' ' ∧ (s.input_ = [] → s.current_indent_ = 0)
  content : rank s.current_token_ = 2 → s.difference_previous_current_indents_ = 0
  live : s.current_token_ ≠ .Eof
  byte : '\xff' ∉ s.input_

/-- The state between two calls of `NextToken`, on an input without `#`,
without the byte `0xFF` and without a final line of spaces. -/
structure Closing (s : Lexer) : Prop where
  spaces : noSpacesAfterNewline s.input_
  hash : '#' ∉ s.input_
  level : 0 ≤ s.current_indent_
  owed : s.difference_previous_current_indents_ ≤ s.current_indent_
  newline : s.current_token_ = .Newline →
    s.difference_previous_current_indents_ = 0 ∧ notOnlySpaces s.input_
  boundary : s.current_token_ = .Indent ∨ s.current_token_ = .Dedent →
    s.input_.head? ≠ some ' ' ∧ (s.input_ = [] → s.current_indent_ = 0)
  content : rank s.current_token_ = 2 → s.difference_previous_current_indents_ = 0
  eof : s.current_token_ = .Eof → reached s = 0
  byte : '\xff' ∉ s.input_

/-- The result of a scan with a newline added to the input that is left. -/
def withNewline (r : Except LexerError (Token × List Char)) :
    Except LexerError (Token × List Char) :=
  match r with
  | .error e => .error e
  | .ok (t, rest) => .ok (t, rest ++ ['\n'])

/-- The lexer `s2` is the lexer `s1` with a newline added at the end of the
input, where the input of `s1` ends with content, or is what follows the last
content token; or the two lexers are the same. -/
def Ends (s1 s2 : Lexer) : Prop :=
  s1 = s2 ∨ (s2 = { s1 with input_ := s1.input_ ++ ['\n'] } ∧
    (endsWithContent s1.input_ = true ∨
      ((∀ y ∈ s1.input_, y = ' ') ∧ rank s1.current_token_ = 2 ∧
        s1.difference_previous_current_indents_ = 0)))

/-! ## Auxiliary facts -/

/-- The call `getline` never moves the stream backwards. -/
theorem getline_length_le (input : List Char) : (getline input).length ≤ input.length := by
  have := (List.dropWhile_suffix (l := input) (fun c => c != '\n')).length_le
  simp only [getline, List.length_drop]
  omega

/-- A call of `Lexer::SkipEmptyLinesAndComments` never moves the stream backwards. -/
theorem SkipEmptyLinesAndComments_length_le (s s2 : Lexer)
    (h : SkipEmptyLinesAndComments s = .ok s2) : s2.input_.length ≤ s.input_.length := by
  induction s using SkipEmptyLinesAndComments.induct with
  | case1 s hd ih =>
    rw [SkipEmptyLinesAndComments] at h
    simp only [hd, if_true] at h
    have := ih h
    have h1 := (List.dropWhile_suffix (l := s.input_) (fun c => c == ' ')).length_le
    simp only [List.length_tail, SkipSpaces] at this
    omega
  | case2 s hd1 hd ih =>
    rw [SkipEmptyLinesAndComments] at h
    simp only [hd1, hd, if_true, if_false] at h
    have := ih h
    have h1 := (List.dropWhile_suffix (l := s.input_) (fun c => c == ' ')).length_le
    have h2 := getline_length_le (SkipSpaces s.input_)
    simp only [SkipSpaces] at this h2
    omega
  | case3 s hd1 hd hodd =>
    rw [SkipEmptyLinesAndComments] at h
    simp only [hd1, hd, if_false, hodd, if_true] at h
    cases h
  | case4 s hd1 hd hodd =>
    rw [SkipEmptyLinesAndComments] at h
    simp only [hd1, hd, if_false, hodd] at h
    cases h
    exact (List.dropWhile_suffix (l := s.input_) (fun c => c == ' ')).length_le

/-- The comparison `operator==` decides equality of tokens. -/
theorem operator_eq_eq_decide (a b : Token) : operator_eq a b = decide (a = b) := by
  cases a <;> cases b <;> simp [operator_eq, Token.index, beq_eq_decide]

/-- Unfolding of `SkipEmptyLinesAndComments` at a blank line. -/
theorem Skip_blank (s : Lexer) (h : (SkipSpaces s.input_).head? = some '\n') :
    SkipEmptyLinesAndComments s =
      SkipEmptyLinesAndComments { s with input_ := (SkipSpaces s.input_).tail } := by
  rw [SkipEmptyLinesAndComments]
  simp only [h, if_true]

/-- Unfolding of `SkipEmptyLinesAndComments` at a comment line. -/
theorem Skip_comment (s : Lexer) (h : (SkipSpaces s.input_).head? = some '#') :
    SkipEmptyLinesAndComments s =
      SkipEmptyLinesAndComments { s with input_ := getline (SkipSpaces s.input_) } := by
  rw [SkipEmptyLinesAndComments]
  simp [h]

/-- Unfolding of `SkipEmptyLinesAndComments` at a line with content, or at the end of input. -/
theorem Skip_content (s : Lexer) (h1 : (SkipSpaces s.input_).head? ≠ some '\n')
    (h2 : (SkipSpaces s.input_).head? ≠ some '#') :
    SkipEmptyLinesAndComments s =
      if (s.input_.takeWhile (fun c => c == ' ')).length % 2 = 1 then .error .invalid_indent
      else .ok { s with
        input_ := SkipSpaces s.input_
        difference_previous_current_indents_ :=
          ((s.input_.takeWhile (fun c => c == ' ')).length / 2 : Nat) - s.current_indent_
        current_indent_ := ((s.input_.takeWhile (fun c => c == ' ')).length / 2 : Nat) } := by
  rw [SkipEmptyLinesAndComments]
  simp only [h1, h2, if_false]

/-- The loop of `SkipSpaces` stops in front of a character that is not a space. -/
theorem SkipSpaces_head (input : List Char) : (SkipSpaces input).head? ≠ some ' ' := by
  induction input with
  | nil => simp [SkipSpaces]
  | cons c rest ih =>
    by_cases hc : c = ' '
    · subst hc
      simpa [SkipSpaces] using ih
    · simp [SkipSpaces, List.dropWhile_cons, hc]

/-- After `SkipEmptyLinesAndComments` the next character is no space, newline or `#`. -/
theorem Skip_head (s s2 : Lexer) (h : SkipEmptyLinesAndComments s = .ok s2) :
    s2.input_.head? ≠ some ' ' ∧ s2.input_.head? ≠ some '\n' ∧ s2.input_.head? ≠ some '#' := by
  induction s using SkipEmptyLinesAndComments.induct with
  | case1 s hd ih =>
    rw [Skip_blank s hd] at h
    exact ih h
  | case2 s hd1 hd ih =>
    rw [Skip_comment s hd] at h
    exact ih h
  | case3 s hd1 hd hodd =>
    rw [Skip_content s hd1 hd] at h
    simp only [hodd, if_true] at h
    cases h
  | case4 s hd1 hd hodd =>
    rw [Skip_content s hd1 hd] at h
    simp only [hodd, if_false] at h
    cases h
    exact ⟨SkipSpaces_head _, hd1, hd⟩

/-- A form of `NextToken` without recursion. -/
theorem NextToken_eq (T : Tables) (s : Lexer) :
    NextToken T s =
      if s.current_token_ = .Eof then .ok (.Eof, s)
      else if s.current_token_ = .Newline then
        match SkipEmptyLinesAndComments s with
        | .error e => .error e
        | .ok s1 => afterIndent T s1
      else afterIndent T s := by
  rw [NextToken]
  by_cases he : s.current_token_ = .Eof
  · simp only [operator_eq_eq_decide, decide_eq_true_eq, he, if_true]
  simp only [operator_eq_eq_decide, decide_eq_true_eq, he, if_false]
  split
  · next e h =>
    by_cases hn : s.current_token_ = .Newline
    · simp only [hn, operator_eq_eq_decide, decide_True, if_true] at h ⊢
      rw [h]
    · simp [hn, operator_eq_eq_decide] at h
  · next s1 h =>
    have h4 : (if s.current_token_ = .Newline then
        (match SkipEmptyLinesAndComments s with
          | .error e => .error e
          | .ok s1 => afterIndent T s1)
        else afterIndent T s) = afterIndent T s1 := by
      by_cases hn : s.current_token_ = .Newline
      · simp only [hn, operator_eq_eq_decide, decide_True, if_true] at h ⊢
        rw [h]
      · simp only [hn, operator_eq_eq_decide, decide_False, if_false, Bool.false_eq_true] at h ⊢
        cases h
        rfl
    rw [h4]
    by_cases hz : s1.difference_previous_current_indents_ = 0
    · have h5 : afterIndent T s1 = scan T s1 := by
        simp only [afterIndent, hz, ne_eq, not_true_eq_false, if_false]
      rw [h5, if_neg (by simpa using hz)]
      unfold scan
      split
      · next h2 => simp only [h2]
      · next c rest h2 =>
        simp only [h2]
        by_cases hc : c = '#'
        · subst hc
          have d1 : '#'.isDigit = false := by decide
          simp only [d1, Bool.false_eq_true, if_false, Char.reduceEq, or_self, if_true]
          split
          · next e h3 => simp only [h3]
          · next s2 h3 =>
            simp only [h3, (Skip_head _ _ h3).2.2, if_false]
        · simp only [hc, if_false]
    · simp only [afterIndent, hz, ne_eq, not_false_eq_true, if_true]

/-- `NextToken` stores the token it returns as the current token. -/
theorem NextToken_current (T : Tables) (s s1 : Lexer) (t : Token)
    (h : NextToken T s = .ok (t, s1)) : s1.current_token_ = t := by
  have hset : ∀ (s0 : Lexer) (r : Except LexerError (Token × List Char)),
      setCurrent s0 r = .ok (t, s1) → s1.current_token_ = t := by
    intro s0 r hr
    unfold setCurrent at hr
    split at hr
    · cases hr
    · cases hr; rfl
  have hafter : ∀ s0 : Lexer, afterIndent T s0 = .ok (t, s1) → s1.current_token_ = t := by
    intro s0 h0
    unfold afterIndent at h0
    split at h0
    · split at h0
      · cases h0
      · cases h0; rfl
    · unfold scan at h0
      split at h0
      · split at h0 <;> (cases h0; rfl)
      · repeat' split at h0
        all_goals first
          | exact hset _ _ h0
          | (cases h0; rfl)
          | cases h0
  rw [NextToken_eq] at h
  split at h
  · next he => cases h; exact he
  · split at h
    · split at h
      · cases h
      · exact hafter _ h
    · exact hafter _ h

/-- The loop of `SkipSpaces` reads a run of spaces up to the first other character. -/
theorem SkipSpaces_replicate (n : Nat) (r : List Char) (hr : r.head? ≠ some ' ') :
    SkipSpaces (List.replicate n ' ' ++ r) = r := by
  induction n with
  | zero =>
    cases r with
    | nil => rfl
    | cons c rest =>
      have hc : c ≠ ' ' := by simpa using hr
      simp [SkipSpaces, List.dropWhile_cons, hc]
  | succ k ih =>
    simpa [SkipSpaces, List.replicate_succ] using ih

/-- The number of spaces the first loop of `SkipEmptyLinesAndComments` counts. -/
theorem count_spaces_replicate (n : Nat) (r : List Char) (hr : r.head? ≠ some ' ') :
    ((List.replicate n ' ' ++ r).takeWhile (fun c => c == ' ')).length = n := by
  induction n with
  | zero =>
    cases r with
    | nil => rfl
    | cons c rest =>
      have hc : c ≠ ' ' := by simpa using hr
      simp [List.takeWhile_cons, hc]
  | succ k ih =>
    simpa [List.replicate_succ] using ih

/-- The call `getline` reads a line up to and including its newline. -/
theorem getline_line (text rest : List Char) (h : '\n' ∉ text) :
    getline (text ++ '\n' :: rest) = rest := by
  induction text with
  | nil => simp [getline]
  | cons c t ih =>
    have hc : c ≠ '\n' := fun e => h (by simp [e])
    have ht : '\n' ∉ t := fun e => h (by simp [e])
    have := ih ht
    simp only [getline] at this ⊢
    simpa [List.dropWhile_cons, hc] using this

/-- Indentation measurement at a line with `n` leading spaces followed by
content or by the end of input. -/
theorem Skip_measure (n : Nat) (r : List Char) (t : Token) (m d : Int)
    (h1 : r.head? ≠ some ' ') (h2 : r.head? ≠ some '\n') (h3 : r.head? ≠ some '#') :
    SkipEmptyLinesAndComments ⟨List.replicate n ' ' ++ r, t, m, d⟩ =
      if n % 2 = 1 then .error .invalid_indent
      else .ok ⟨r, t, (n / 2 : Nat), (n / 2 : Nat) - m⟩ := by
  rw [Skip_content]
  · simp only [count_spaces_replicate n r h1, SkipSpaces_replicate n r h1]
  · simpa only [SkipSpaces_replicate n r h1] using h2
  · simpa only [SkipSpaces_replicate n r h1] using h3

/-- Indentation measurement passes over a blank or comment-only line. -/
theorem Skip_line (l : SkippedLine) (hl : l.wellFormed) (rest : List Char) (t : Token)
    (m d : Int) :
    SkipEmptyLinesAndComments ⟨l.chars ++ rest, t, m, d⟩ =
      SkipEmptyLinesAndComments ⟨rest, t, m, d⟩ := by
  cases l with
  | blank n =>
    have e : (SkippedLine.blank n).chars ++ rest = List.replicate n ' ' ++ '\n' :: rest := by
      simp [SkippedLine.chars]
    rw [e, Skip_blank]
    · simp only [SkipSpaces_replicate n ('\n' :: rest) (by simp), List.tail_cons]
    · simp only [SkipSpaces_replicate n ('\n' :: rest) (by simp), List.head?_cons]
  | comment n text =>
    have e : (SkippedLine.comment n text).chars ++ rest =
        List.replicate n ' ' ++ '#' :: (text ++ '\n' :: rest) := by
      simp [SkippedLine.chars]
    have hg : getline ('#' :: (text ++ '\n' :: rest)) = rest := by
      have := getline_line ('#' :: text) rest (by
        simp only [List.mem_cons, not_or]
        exact ⟨by decide, hl⟩)
      simpa using this
    rw [e, Skip_comment]
    · simp only [SkipSpaces_replicate n ('#' :: (text ++ '\n' :: rest)) (by simp), hg]
    · simp only [SkipSpaces_replicate n ('#' :: (text ++ '\n' :: rest)) (by simp),
        List.head?_cons]

/-- Indentation measurement passes over any sequence of blank and comment-only lines. -/
theorem Skip_lines (ls : List SkippedLine) (hls : ∀ l ∈ ls, l.wellFormed) (rest : List Char)
    (t : Token) (m d : Int) :
    SkipEmptyLinesAndComments ⟨skippedLines ls ++ rest, t, m, d⟩ =
      SkipEmptyLinesAndComments ⟨rest, t, m, d⟩ := by
  induction ls with
  | nil => simp [skippedLines]
  | cons l ls ih =>
    have e : skippedLines (l :: ls) ++ rest = l.chars ++ (skippedLines ls ++ rest) := by
      simp [skippedLines]
    rw [e, Skip_line l (hls l (by simp)), ih (fun x hx => hls x (by simp [hx]))]

/-- One round of the loop of `ParseStringConstant`. -/
theorem loop_cons (q c : Char) (rest str : List Char) :
    ParseStringConstant.loop q (c :: rest) str =
      if c ≠ q ∧ c ≠ '\\' then ParseStringConstant.loop q rest (str ++ [c])
      else if c = '\\' then
        match rest with
        | [] => .error .expected_closing_quote
        | e :: rest2 => ParseStringConstant.loop q rest2 (str ++ [unescapeChar e])
      else .ok (.String str, rest) := by
  cases rest with
  | nil => simp [ParseStringConstant.loop]
  | cons e rest2 =>
    by_cases het : e = 't'
    · simp [ParseStringConstant.loop, unescapeChar, het]
    · by_cases hen : e = 'n'
      · simp [ParseStringConstant.loop, unescapeChar, hen]
      · simp [ParseStringConstant.loop, unescapeChar, het, hen]

/-- Unfolding of `closedBody`. -/
theorem closedBody_cons (q c : Char) (rest : List Char) :
    closedBody q (c :: rest) =
      if c = '\\' then
        match rest with
        | [] => false
        | _ :: rest2 => closedBody q rest2
      else c != q && closedBody q rest := by
  cases rest <;> simp [closedBody]

/-- Unfolding of `unescape`. -/
theorem unescape_cons (c : Char) (rest : List Char) :
    unescape (c :: rest) =
      if c = '\\' then
        match rest with
        | [] => []
        | e :: rest2 => unescapeChar e :: unescape rest2
      else c :: unescape rest := by
  cases rest <;> simp [unescape]

/-- The loop of `ParseStringConstant` on a body followed by the closing quote. -/
theorem loop_closedBody (q : Char) (hq : q ≠ '\\') (rest : List Char) :
    ∀ (n : Nat) (b : List Char), b.length ≤ n → closedBody q b = true → ∀ str : List Char,
      ParseStringConstant.loop q (b ++ q :: rest) str = .ok (.String (str ++ unescape b), rest) := by
  intro n
  induction n with
  | zero =>
    intro b hb _ str
    have : b = [] := List.length_eq_zero.mp (Nat.le_zero.mp hb)
    subst this
    simp [loop_cons, unescape, hq]
  | succ k ih =>
    intro b hb hc str
    match b, hb, hc with
    | [], _, _ => simp [loop_cons, unescape, hq]
    | c :: b1, hb, hc =>
      by_cases hbs : c = '\\'
      · subst hbs
        match b1, hb, hc with
        | [], _, hc => simp [closedBody_cons] at hc
        | e :: b2, hb, hc =>
          have hc2 : closedBody q b2 = true := by simpa [closedBody_cons] using hc
          have hl : b2.length ≤ k := by
            simp only [List.length_cons] at hb
            omega
          have := ih b2 hl hc2
          simp [loop_cons, unescape_cons, this]
      · have hc2 : c ≠ q ∧ closedBody q b1 = true := by
          simpa [closedBody_cons, hbs] using hc
        have hl : b1.length ≤ k := by
          simp only [List.length_cons] at hb
          omega
        have := ih b1 hl hc2.2
        simp [loop_cons, unescape_cons, hbs, hc2.1, this]

/-- The outcome of the loop of `ParseStringConstant`: either the input ends
before an unescaped quote and the error is raised, or the loop stops at the
first unescaped quote. -/
theorem loop_result (q : Char) (hq : q ≠ '\\') :
    ∀ (n : Nat) (b : List Char), b.length ≤ n → ∀ str : List Char,
      (ParseStringConstant.loop q b str = .error .expected_closing_quote ∧
          ∀ b1 rest, b = b1 ++ q :: rest → closedBody q b1 = false) ∨
        ∃ b1 rest, b = b1 ++ q :: rest ∧ closedBody q b1 = true ∧
          ParseStringConstant.loop q b str = .ok (.String (str ++ unescape b1), rest) := by
  intro n
  induction n with
  | zero =>
    intro b hb str
    have : b = [] := List.length_eq_zero.mp (Nat.le_zero.mp hb)
    subst this
    left
    refine ⟨by simp [ParseStringConstant.loop], ?_⟩
    intro b1 rest h
    simp at h
  | succ k ih =>
    intro b hb str
    match b, hb with
    | [], _ =>
      left
      refine ⟨by simp [ParseStringConstant.loop], ?_⟩
      intro b1 rest h
      simp at h
    | c :: b2, hb =>
      by_cases hbs : c = '\\'
      · subst hbs
        match b2, hb with
        | [], _ =>
          left
          refine ⟨by simp [loop_cons, hq], ?_⟩
          intro b1 rest h
          match b1, h with
          | [], h =>
            simp only [List.nil_append, List.cons.injEq] at h
            exact absurd h.1.symm hq
          | [x], h =>
            simp at h
          | x :: y :: b1, h =>
            simp at h
        | e :: b3, hb =>
          have hl : b3.length ≤ k := by
            simp only [List.length_cons] at hb
            omega
          rcases ih b3 hl (str ++ [unescapeChar e]) with ⟨he, hno⟩ | ⟨b1, rest, hd, hc, hok⟩
          · left
            refine ⟨by simp [loop_cons, hq, he], ?_⟩
            intro b1 rest h
            match b1, h with
            | [], h =>
              simp only [List.nil_append, List.cons.injEq] at h
              exact absurd h.1.symm hq
            | [x], h =>
              simp only [List.cons_append, List.nil_append, List.cons.injEq] at h
              rw [← h.1]
              simp [closedBody_cons]
            | x :: y :: b1, h =>
              simp only [List.cons_append, List.cons.injEq] at h
              rw [← h.1]
              simpa [closedBody_cons] using hno b1 rest h.2.2
          · right
            refine ⟨'\\' :: e :: b1, rest, by simp [hd], by simpa [closedBody_cons] using hc, ?_⟩
            simp [loop_cons, hq, hok, unescape_cons]
      · by_cases hcq : c = q
        · subst hcq
          right
          exact ⟨[], b2, by simp, by simp [closedBody], by simp [loop_cons, hbs, unescape]⟩
        · have hl : b2.length ≤ k := by
            simp only [List.length_cons] at hb
            omega
          rcases ih b2 hl (str ++ [c]) with ⟨he, hno⟩ | ⟨b1, rest, hd, hc, hok⟩
          · left
            refine ⟨by simp [loop_cons, hbs, hcq, he], ?_⟩
            intro b1 rest h
            match b1, h with
            | [], h =>
              simp only [List.nil_append, List.cons.injEq] at h
              exact absurd h.1 hcq
            | x :: b1, h =>
              simp only [List.cons_append, List.cons.injEq] at h
              rw [← h.1]
              simp [closedBody_cons, hbs, hno b1 rest h.2]
          · right
            refine ⟨c :: b1, rest, by simp [hd], by simp [closedBody_cons, hbs, hcq, hc], ?_⟩
            simp [loop_cons, hbs, hcq, hok, unescape_cons]

/-- In the middle of a line, with nothing owed, `NextToken` is the dispatch on
the next character. -/
theorem NextToken_scan (T : Tables) (s : Lexer) (he : s.current_token_ ≠ .Eof)
    (hn : s.current_token_ ≠ .Newline) (hd : s.difference_previous_current_indents_ = 0) :
    NextToken T s = scan T s := by
  rw [NextToken_eq]
  simp only [he, hn, if_false, afterIndent, hd, ne_eq, not_true_eq_false]

/-- The quote characters are not the backslash. -/
theorem quote_ne_backslash (q : Char) (hq : q = '\'' ∨ q = '\"') : q ≠ '\\' := by
  rcases hq with rfl | rfl <;> decide

/-- `ParseStringConstant` enters its loop after an opening quote. -/
theorem ParseStringConstant_quote (q : Char) (hq : q = '\'' ∨ q = '\"') (b : List Char) :
    ParseStringConstant (q :: b) = ParseStringConstant.loop q b [] := by
  rcases hq with rfl | rfl <;> simp [ParseStringConstant]

/-- The dispatch of `NextToken` at a quote. -/
theorem scan_quote (T : Tables) (q : Char) (hq : q = '\'' ∨ q = '\"') (b : List Char)
    (t : Token) (m d : Int) :
    scan T ⟨q :: b, t, m, d⟩ = setCurrent ⟨q :: b, t, m, d⟩ (ParseStringConstant (q :: b)) := by
  rcases hq with rfl | rfl <;> simp [scan, SkipSpaces]

/-- A run of digits followed by a character that is no digit is read whole. -/
theorem takeWhile_digits (d rest : List Char) (hall : ∀ c ∈ d, c.isDigit = true)
    (hmax : ∀ c, rest.head? = some c → c.isDigit = false) :
    (d ++ rest).takeWhile Char.isDigit = d ∧ (d ++ rest).dropWhile Char.isDigit = rest := by
  induction d with
  | nil =>
    cases rest with
    | nil => simp
    | cons c r =>
      have := hmax c rfl
      simp [List.takeWhile_cons, List.dropWhile_cons, this]
  | cons x d ih =>
    have hx := hall x (by simp)
    have := ih (fun c hc => hall c (by simp [hc]))
    simp [List.takeWhile_cons, List.dropWhile_cons, hx, this]

/-- The dispatch of `NextToken` at a digit, after any number of spaces. -/
theorem scan_digit (T : Tables) (k : Nat) (c : Char) (r : List Char) (hc : c.isDigit = true)
    (t : Token) (m d : Int) :
    scan T ⟨List.replicate k ' ' ++ c :: r, t, m, d⟩ =
      setCurrent ⟨List.replicate k ' ' ++ c :: r, t, m, d⟩ (ParseNumber T (c :: r)) := by
  have hsp : c ≠ ' ' := by
    rintro rfl
    exact absurd hc (by decide)
  have := SkipSpaces_replicate k (c :: r) (by simpa using hsp)
  simp only [scan, this, hc, if_true]

/-- The loop at the start of the constructor stops at once when the input does
not start with `#`. -/
theorem skipLeadingComments_of_ne (input : List Char) (h : input.head? ≠ some '#') :
    skipLeadingComments input = input := by
  rw [skipLeadingComments]
  simp only [h, if_false]

/-- The consumer loop starts with the current token. -/
theorem drain_head (T : Tables) (n : Nat) (s : Lexer) (t : Token) (ts : List Token)
    (h : drain T n s = .ok (t :: ts)) : s.current_token_ = t := by
  cases n with
  | zero =>
    simp only [drain, Except.ok.injEq, List.cons.injEq] at h
    exact h.1
  | succ n =>
    rw [drain] at h
    split at h
    · next he =>
      simp only [Except.ok.injEq, List.cons.injEq] at h
      rw [he]
      exact h.1
    · split at h
      · cases h
      · split at h
        · cases h
        · simp only [Except.ok.injEq, List.cons.injEq] at h
          exact h.1

/-- The consumer loop, when it returns more than one token, has called `NextToken`. -/
theorem drain_step (T : Tables) (n : Nat) (s : Lexer) (t t2 : Token) (ts : List Token)
    (h : drain T n s = .ok (t :: t2 :: ts)) :
    ∃ t1 s1, NextToken T s = .ok (t1, s1) ∧ drain T (n - 1) s1 = .ok (t2 :: ts) := by
  cases n with
  | zero => simp [drain] at h
  | succ n =>
    rw [drain] at h
    split at h
    · simp at h
    · split at h
      · cases h
      · next t1 s1 hn =>
        split at h
        · cases h
        · next ts2 hd =>
          simp only [Except.ok.injEq, List.cons.injEq] at h
          refine ⟨t1, s1, hn, ?_⟩
          rw [Nat.add_sub_cancel, hd, h.2]

/-- No letter is in the punctuation set of the sample tables. -/
theorem sampleTables_letter (c : Char) (h : c.isAlpha = true) :
    sampleTables.special_symbols c = false := by
  by_contra hc
  simp only [sampleTables, List.mem_cons, List.mem_singleton, List.not_mem_nil, or_false,
    Bool.not_eq_false, decide_eq_true_eq] at hc
  rcases hc with rfl | rfl | rfl | rfl | rfl | rfl | rfl | rfl | rfl | rfl | rfl | rfl | rfl <;>
    exact absurd h (by decide)

/-- A call of `NextToken` that is owed an `Indent`. -/
theorem NextToken_indent (T : Tables) (inp : List Char) (t : Token) (ind dd : Int)
    (h1 : t ≠ .Eof) (h2 : t ≠ .Newline) (hdd : 0 < dd) :
    NextToken T ⟨inp, t, ind, dd⟩ = .ok (.Indent, ⟨inp, .Indent, ind, dd - 1⟩) := by
  have : dd ≠ 0 := by omega
  rw [NextToken_eq]
  simp [h1, h2, afterIndent, this, ParseIndentOrDedent, hdd]

/-- A call of `NextToken` that is owed a `Dedent`. -/
theorem NextToken_dedent (T : Tables) (inp : List Char) (t : Token) (ind dd : Int)
    (h1 : t ≠ .Eof) (h2 : t ≠ .Newline) (hdd : dd < 0) :
    NextToken T ⟨inp, t, ind, dd⟩ = .ok (.Dedent, ⟨inp, .Dedent, ind, dd + 1⟩) := by
  have h0 : dd ≠ 0 := by omega
  have h3 : ¬ 0 < dd := by omega
  rw [NextToken_eq]
  simp [h1, h2, afterIndent, h0, ParseIndentOrDedent, hdd, h3]

/-- Successive calls of `NextToken` hand out the owed `Indent` tokens one by one. -/
theorem calls_indent (T : Tables) (inp : List Char) (ind : Int) :
    ∀ (i : Nat) (t : Token) (dd : Int), t ≠ .Eof → t ≠ .Newline → (i : Int) ≤ dd →
      calls T i ⟨inp, t, ind, dd⟩ =
        .ok (List.replicate i .Indent, ⟨inp, if i = 0 then t else .Indent, ind, dd - i⟩) := by
  intro i
  induction i with
  | zero => intro t dd _ _ _; simp [calls]
  | succ i ih =>
    intro t dd h1 h2 h3
    have hdd : 0 < dd := by omega
    rw [calls, NextToken_indent T inp t ind dd h1 h2 hdd]
    simp only
    rw [ih .Indent (dd - 1) (by decide) (by decide) (by omega)]
    have e : dd - 1 - (i : Int) = dd - ((i + 1 : Nat) : Int) := by omega
    by_cases hi : i = 0 <;> simp [hi, List.replicate_succ, e]

/-- Successive calls of `NextToken` hand out the owed `Dedent` tokens one by one. -/
theorem calls_dedent (T : Tables) (inp : List Char) (ind : Int) :
    ∀ (i : Nat) (t : Token) (dd : Int), t ≠ .Eof → t ≠ .Newline → dd ≤ -(i : Int) →
      calls T i ⟨inp, t, ind, dd⟩ =
        .ok (List.replicate i .Dedent, ⟨inp, if i = 0 then t else .Dedent, ind, dd + i⟩) := by
  intro i
  induction i with
  | zero => intro t dd _ _ _; simp [calls]
  | succ i ih =>
    intro t dd h1 h2 h3
    have hdd : dd < 0 := by omega
    rw [calls, NextToken_dedent T inp t ind dd h1 h2 hdd]
    simp only
    rw [ih .Dedent (dd + 1) (by decide) (by decide) (by omega)]
    have e : dd + 1 + (i : Int) = dd + ((i + 1 : Nat) : Int) := by omega
    by_cases hi : i = 0 <;> simp [hi, List.replicate_succ, e]

/-- A successful `ParseNumber` returns a `Number` and reads at least one character. -/
theorem ParseNumber_ok (T : Tables) (c : Char) (r r2 : List Char) (t : Token)
    (h : ParseNumber T (c :: r) = .ok (t, r2)) : rank t = 2 ∧ r2.length ≤ r.length := by
  unfold ParseNumber at h
  by_cases hc : c.isDigit = true
  · have hl : ((c :: r).dropWhile Char.isDigit).length ≤ r.length := by
      rw [List.dropWhile_cons_of_pos hc]
      exact (List.dropWhile_suffix _).length_le
    simp only [hc, Bool.not_true, Bool.false_eq_true, if_false] at h
    split at h
    · next hd =>
      split at h
      · cases h
      · cases h
        exact ⟨rfl, by simp⟩
    · next c2 rest hd =>
      rw [hd] at hl
      split at h
      · cases h
      · split at h
        · cases h
        · cases h
          exact ⟨rfl, hl⟩
  · simp [hc] at h

/-- A successful loop of `ParseStringConstant` returns a `String` and reads at
least one character. -/
theorem loop_ok (q : Char) : ∀ (n : Nat) (b str r2 : List Char) (t : Token), b.length ≤ n →
    ParseStringConstant.loop q b str = .ok (t, r2) → rank t = 2 ∧ r2.length < b.length := by
  intro n
  induction n with
  | zero =>
    intro b str r2 t hb h
    have : b = [] := List.length_eq_zero.mp (Nat.le_zero.mp hb)
    subst this
    simp [ParseStringConstant.loop] at h
  | succ k ih =>
    intro b str r2 t hb h
    match b, hb, h with
    | [], _, h => simp [ParseStringConstant.loop] at h
    | c :: b2, hb, h =>
      rw [loop_cons] at h
      simp only [List.length_cons] at hb ⊢
      split at h
      · have := ih b2 _ r2 t (by omega) h
        exact ⟨this.1, by omega⟩
      · split at h
        · split at h
          · cases h
          · next e b3 =>
            simp only [List.length_cons] at hb ⊢
            have := ih b3 _ r2 t (by omega) h
            exact ⟨this.1, by omega⟩
        · cases h
          exact ⟨rfl, by omega⟩

/-- A successful `ParseStringConstant` returns a `String` and reads at least two characters. -/
theorem ParseStringConstant_ok (c : Char) (r r2 : List Char) (t : Token)
    (h : ParseStringConstant (c :: r) = .ok (t, r2)) : rank t = 2 ∧ r2.length < r.length := by
  simp only [ParseStringConstant] at h
  split_ifs at h
  exact loop_ok c r.length r [] r2 t (Nat.le_refl _) h

/-- One entry of the keyword table. -/
theorem ite_some_rank (c : Prop) [Decidable c] (a t : Token) (r : Option Token)
    (h : (if c then some a else r) = some t) (ha : rank a = 2)
    (hr : r = some t → rank t = 2) : rank t = 2 := by
  by_cases hc : c
  · rw [if_pos hc] at h
    cases h
    exact ha
  · rw [if_neg hc] at h
    exact hr h

/-- A keyword token is a content token. -/
theorem keyword_rank (name : List Char) (t : Token) (h : keyword_to_token name = some t) :
    rank t = 2 := by
  unfold keyword_to_token at h
  iterate 12 (refine ite_some_rank _ _ _ _ h rfl ?_; clear h; intro h)
  cases h

/-- A successful `ParseName` returns a keyword or an `Id` and reads at least one character. -/
theorem ParseName_ok (c : Char) (r r2 : List Char) (t : Token)
    (h : ParseName (c :: r) = .ok (t, r2)) : rank t = 2 ∧ r2.length ≤ r.length := by
  simp only [ParseName] at h
  have hl : (r.dropWhile isNameChar).length ≤ r.length := (List.dropWhile_suffix _).length_le
  split_ifs at h
  split at h
  · next t2 hk =>
    cases h
    exact ⟨keyword_rank _ _ hk, hl⟩
  · cases h
    exact ⟨rfl, hl⟩

/-- A successful `ParseComparisonOperator` returns a comparison token and reads
two characters. -/
theorem ParseComparisonOperator_ok (c : Char) (r r2 : List Char) (t : Token)
    (h : ParseComparisonOperator (c :: r) = .ok (t, r2)) : rank t = 2 ∧ r2.length < r.length := by
  cases r with
  | nil => simp [ParseComparisonOperator] at h
  | cons b rest =>
    simp only [ParseComparisonOperator] at h
    split_ifs at h <;> cases h <;> exact ⟨rfl, by simp⟩

/-- What `setCurrent` records. -/
theorem setCurrent_ok (s s2 : Lexer) (r : Except LexerError (Token × List Char)) (t : Token)
    (h : setCurrent s r = .ok (t, s2)) :
    r = .ok (t, s2.input_) ∧ s2 = { s with input_ := s2.input_, current_token_ := t } := by
  unfold setCurrent at h
  split at h
  · cases h
  · cases h
    exact ⟨rfl, rfl⟩

/-- The dispatch of `NextToken` at a character that is no space, newline, `#`
or byte `0xFF` returns a content token, reads at least that character and leaves
the indentation counters alone. -/
theorem scan_content (T : Tables) (c : Char) (rest : List Char) (t0 : Token) (ind dd : Int)
    (hc1 : c ≠ ' ') (hc2 : c ≠ '\n') (hc3 : c ≠ '#') (hc4 : c ≠ '\xff') (t : Token)
    (s2 : Lexer) (h : scan T ⟨c :: rest, t0, ind, dd⟩ = .ok (t, s2)) :
    rank t = 2 ∧ s2.input_.length ≤ rest.length ∧ s2.current_token_ = t ∧
      s2.current_indent_ = ind ∧ s2.difference_previous_current_indents_ = dd := by
  have hsp : SkipSpaces (c :: rest) = c :: rest := by
    simp [SkipSpaces, List.dropWhile_cons, hc1]
  unfold scan at h
  simp only [hsp, hc2, hc3, hc4, if_false] at h
  repeat' split at h
  all_goals first
    | (cases h; done)
    | (cases h; exact ⟨rfl, Nat.le_refl _, rfl, rfl, rfl⟩)
    | (obtain ⟨hr, hs⟩ := setCurrent_ok _ _ _ _ h
       rw [hs]
       first
         | exact ⟨(ParseNumber_ok T _ _ _ _ hr).1, (ParseNumber_ok T _ _ _ _ hr).2, rfl, rfl, rfl⟩
         | exact ⟨(ParseStringConstant_ok _ _ _ _ hr).1,
             Nat.le_of_lt (ParseStringConstant_ok _ _ _ _ hr).2, rfl, rfl, rfl⟩
         | exact ⟨(ParseComparisonOperator_ok _ _ _ _ hr).1,
             Nat.le_of_lt (ParseComparisonOperator_ok _ _ _ _ hr).2, rfl, rfl, rfl⟩
         | exact ⟨(ParseName_ok _ _ _ _ hr).1, (ParseName_ok _ _ _ _ hr).2, rfl, rfl, rfl⟩)

/-- The last of `n + 1` successive calls. -/
theorem calls_succ_last (T : Tables) : ∀ (n : Nat) (s : Lexer),
    calls T (n + 1) s =
      match calls T n s with
      | .error e => .error e
      | .ok (ts, s1) =>
        match NextToken T s1 with
        | .error e => .error e
        | .ok (t, s2) => .ok (ts ++ [t], s2) := by
  intro n
  induction n with
  | zero =>
    intro s
    simp only [calls]
    cases NextToken T s with
    | error e => rfl
    | ok p => rfl
  | succ n ih =>
    intro s
    rw [calls]
    cases h : NextToken T s with
    | error e => simp only [calls, h]
    | ok p =>
      obtain ⟨t, s1⟩ := p
      simp only
      rw [ih s1]
      conv_rhs => rw [calls]
      simp only [h]
      cases calls T n s1 with
      | error e => rfl
      | ok q =>
        obtain ⟨ts, s2⟩ := q
        simp only
        cases NextToken T s2 with
        | error e => rfl
        | ok r => rfl

/-- The first call of `NextToken` at a line start: lines are skipped, the
indentation is measured and the rest of the call works on the measured state. -/
theorem NextToken_line_start (T : Tables) (ls : List SkippedLine) (n : Nat) (r : List Char)
    (m d : Int) (hls : ∀ l ∈ ls, l.wellFormed) (h1 : r.head? ≠ some ' ')
    (h2 : r.head? ≠ some '\n') (h3 : r.head? ≠ some '#') (hn : n % 2 = 0) :
    NextToken T ⟨skippedLines ls ++ (List.replicate n ' ' ++ r), .Newline, m, d⟩ =
      afterIndent T ⟨r, .Newline, (n / 2 : Nat), (n / 2 : Nat) - m⟩ := by
  have hodd : ¬ n % 2 = 1 := by omega
  rw [NextToken_eq]
  simp [Skip_lines ls hls, Skip_measure n r .Newline m d h1 h2 h3, hodd]

/-- The input splits into the spaces `SkipSpaces` reads and the rest. -/
theorem length_spaces (input : List Char) :
    (input.takeWhile (fun c => c == ' ')).length + (SkipSpaces input).length = input.length := by
  rw [SkipSpaces, ← List.length_append, List.takeWhile_append_dropWhile]

/-- The progress measure after indentation measurement is bounded by the input
and the level before it. -/
theorem Skip_budget (s s1 : Lexer) (h : SkipEmptyLinesAndComments s = .ok s1) :
    2 * s1.input_.length + s1.current_indent_.natAbs +
        s1.difference_previous_current_indents_.natAbs ≤
      2 * s.input_.length + s.current_indent_.natAbs ∧
      s1.current_token_ = s.current_token_ := by
  induction s using SkipEmptyLinesAndComments.induct with
  | case1 s hd ih =>
    rw [Skip_blank s hd] at h
    have := ih h
    have hl := length_spaces s.input_
    simp only [List.length_tail] at this
    exact ⟨by omega, this.2⟩
  | case2 s hd1 hd ih =>
    rw [Skip_comment s hd] at h
    have := ih h
    have hl := length_spaces s.input_
    have hg := getline_length_le (SkipSpaces s.input_)
    simp only at this
    exact ⟨by omega, this.2⟩
  | case3 s hd1 hd hodd =>
    rw [Skip_content s hd1 hd] at h
    simp only [hodd, if_true] at h
    cases h
  | case4 s hd1 hd hodd =>
    rw [Skip_content s hd1 hd] at h
    simp only [hodd, if_false] at h
    cases h
    have hl := length_spaces s.input_
    refine ⟨?_, rfl⟩
    show 2 * (SkipSpaces s.input_).length +
        (((s.input_.takeWhile (fun c => c == ' ')).length / 2 : Nat) : Int).natAbs +
        ((((s.input_.takeWhile (fun c => c == ' ')).length / 2 : Nat) : Int) -
          s.current_indent_).natAbs ≤ _
    omega

/-- The rank of `Eof`. -/
theorem rank_Eof : rank .Eof = 0 := rfl

/-- The rank of `Newline`. -/
theorem rank_Newline : rank .Newline = 1 := rfl

/-- The rank of `Indent`. -/
theorem rank_Indent : rank .Indent = 1 := rfl

/-- The rank of `Dedent`. -/
theorem rank_Dedent : rank .Dedent = 1 := rfl

/-- The rank of a `Char` token. -/
theorem rank_Char (c : Char) : rank (.Char c) = 2 := rfl

/-- A token other than `Eof` has positive rank. -/
theorem rank_pos (t : Token) (h : t ≠ .Eof) : 1 ≤ rank t := by
  cases t <;> simp [rank] at h ⊢

/-- Every token has rank at most two. -/
theorem rank_le (t : Token) : rank t ≤ 2 := by
  cases t <;> simp [rank]

/-- The dispatch of `NextToken` makes progress. -/
theorem scan_budget (T : Tables) (s s1 : Lexer) (t : Token) (h : scan T s = .ok (t, s1))
    (he : s.current_token_ ≠ .Eof) : budget s1 < budget s := by
  have hr := rank_pos _ he
  have hl := length_spaces s.input_
  unfold scan at h
  split at h
  · next hd =>
    split at h
    · next hb =>
      cases h
      have : rank s.current_token_ = 1 := by
        rcases hb with hb | hb | hb <;> rw [hb] <;> rfl
      simp only [budget, List.length_nil, rank_Eof, rank_Newline]
      omega
    · next hb =>
      cases h
      have : rank s.current_token_ = 2 := by
        have h1 : s.current_token_ ≠ .Newline := fun e => hb (Or.inl e)
        have h2 : s.current_token_ ≠ .Indent := fun e => hb (Or.inr (Or.inl e))
        have h3 : s.current_token_ ≠ .Dedent := fun e => hb (Or.inr (Or.inr e))
        revert he h1 h2 h3
        cases s.current_token_ <;> simp [rank]
      simp only [budget, List.length_nil, rank_Eof, rank_Newline]
      omega
  · next c rest hd =>
    rw [hd] at hl
    simp only [List.length_cons] at hl
    split at h
    · obtain ⟨hp, hs⟩ := setCurrent_ok _ _ _ _ h
      have := ParseNumber_ok T _ _ _ _ hp
      rw [hs]
      simp only [budget]
      omega
    · split at h
      · obtain ⟨hp, hs⟩ := setCurrent_ok _ _ _ _ h
        have := ParseStringConstant_ok _ _ _ _ hp
        rw [hs]
        simp only [budget]
        omega
      · split at h
        · cases h
          simp only [budget, rank_Eof, rank_Newline, rank_Indent, rank_Dedent, rank_Char]
          omega
        · split at h
          · split at h <;> cases h <;>
              simp only [budget, rank_Eof, rank_Newline, rank_Indent, rank_Dedent, rank_Char] <;>
              omega
          · split at h
            · split at h
              · cases h
              · next s2 hs2 =>
                have hb := Skip_budget _ _ hs2
                have hg := getline_length_le rest
                simp only at hb
                split at h <;> cases h <;> simp only [budget, rank_Eof, rank_Newline, rank_Indent, rank_Dedent, rank_Char] <;> omega
            · split at h
              · cases h
                simp only [budget, rank_Eof, rank_Newline, rank_Indent, rank_Dedent, rank_Char]
                omega
              · split at h
                · obtain ⟨hp, hs⟩ := setCurrent_ok _ _ _ _ h
                  have := ParseComparisonOperator_ok _ _ _ _ hp
                  rw [hs]
                  simp only [budget]
                  omega
                · split at h
                  · cases h
                    simp only [budget, rank_Eof, rank_Newline, rank_Indent, rank_Dedent, rank_Char]
                    omega
                  · split at h
                    · obtain ⟨hp, hs⟩ := setCurrent_ok _ _ _ _ h
                      have := ParseName_ok _ _ _ _ hp
                      rw [hs]
                      simp only [budget]
                      omega
                    · cases h

/-- The part of `NextToken` after indentation measurement makes progress. -/
theorem afterIndent_budget (T : Tables) (s s1 : Lexer) (t : Token)
    (h : afterIndent T s = .ok (t, s1)) (he : s.current_token_ ≠ .Eof) :
    budget s1 < budget s := by
  have hr := rank_pos _ he
  unfold afterIndent at h
  split at h
  · split at h
    · cases h
    · next t2 s2 hp =>
      cases h
      unfold ParseIndentOrDedent at hp
      split at hp
      · cases hp
        simp only [budget, rank_Eof, rank_Newline, rank_Indent, rank_Dedent, rank_Char]
        omega
      · split at hp
        · cases hp
          simp only [budget, rank_Eof, rank_Newline, rank_Indent, rank_Dedent, rank_Char]
          omega
        · cases hp
  · exact scan_budget T s s1 t h he

/-- Every call of `NextToken` before `Eof` makes progress. -/
theorem NextToken_budget (T : Tables) (s s1 : Lexer) (t : Token)
    (h : NextToken T s = .ok (t, s1)) (he : s.current_token_ ≠ .Eof) :
    budget s1 < budget s := by
  rw [NextToken_eq] at h
  simp only [he, if_false] at h
  split at h
  · next hn =>
    split at h
    · cases h
    · next s2 hs2 =>
      obtain ⟨hb, hc⟩ := Skip_budget _ _ hs2
      have := afterIndent_budget T s2 s1 t h (by rw [hc]; exact he)
      have hr : rank s.current_token_ = 1 := by rw [hn]; rfl
      simp only [budget, hc, hr] at this ⊢
      omega
  · exact afterIndent_budget T s s1 t h he

/-- A lexer whose measure is zero has reached `Eof`. -/
theorem budget_zero (s : Lexer) (h : budget s = 0) : s.current_token_ = .Eof := by
  have : rank s.current_token_ = 0 := by
    simp only [budget] at h
    omega
  revert this
  cases s.current_token_ <;> simp [rank]

/-- With enough calls allowed, the consumer loop ends with `Eof` or with an error. -/
theorem drain_ends (T : Tables) : ∀ (n : Nat) (s : Lexer), budget s ≤ n →
    (∃ e, drain T n s = .error e) ∨
      ∃ ts, drain T n s = .ok (ts ++ [.Eof]) ∧ Token.Eof ∉ ts := by
  intro n
  induction n with
  | zero =>
    intro s hs
    right
    have := budget_zero s (by omega)
    exact ⟨[], by simp [drain, this], by simp⟩
  | succ n ih =>
    intro s hs
    by_cases he : s.current_token_ = .Eof
    · right
      exact ⟨[], by simp [drain, he], by simp⟩
    · cases hn : NextToken T s with
      | error e =>
        left
        exact ⟨e, by simp [drain, he, hn]⟩
      | ok p =>
        obtain ⟨t, s1⟩ := p
        have hb := NextToken_budget T s s1 t hn he
        rcases ih s1 (by omega) with ⟨e, h1⟩ | ⟨ts, h1, h2⟩
        · left
          exact ⟨e, by simp [drain, he, hn, h1]⟩
        · right
          refine ⟨s.current_token_ :: ts, by simp [drain, he, hn, h1], ?_⟩
          simp only [List.mem_cons, not_or]
          exact ⟨fun e => he e.symm, h2⟩

/-- Allowing more calls than the measure does not change the result of the
consumer loop. -/
theorem drain_fuel (T : Tables) : ∀ (n : Nat) (s : Lexer), budget s ≤ n →
    ∀ n2, n ≤ n2 → drain T n2 s = drain T n s := by
  intro n
  induction n with
  | zero =>
    intro s hs n2 _
    have := budget_zero s (by omega)
    cases n2 <;> simp [drain, this]
  | succ n ih =>
    intro s hs n2 hn2
    obtain ⟨k, rfl⟩ : ∃ k, n2 = k + 1 := ⟨n2 - 1, by omega⟩
    by_cases he : s.current_token_ = .Eof
    · simp [drain, he]
    · cases hn : NextToken T s with
      | error e => simp [drain, he, hn]
      | ok p =>
        obtain ⟨t, s1⟩ := p
        have hb := NextToken_budget T s s1 t hn he
        have := ih s1 (by omega) k (by omega)
        simp [drain, he, hn, this]

/-- Successive calls of `NextToken` reach `Eof` or an error within the measure. -/
theorem calls_end (T : Tables) : ∀ (b : Nat) (s : Lexer), budget s ≤ b →
    ∃ n, n ≤ b + 1 ∧ ((∃ e, calls T n s = .error e) ∨
      ∃ ts s1, calls T n s = .ok (ts ++ [.Eof], s1) ∧ Token.Eof ∉ ts) := by
  intro b
  induction b with
  | zero =>
    intro s hs
    have he := budget_zero s (by omega)
    have h1 : NextToken T s = .ok (.Eof, s) := by
      rw [NextToken_eq]
      simp only [he, if_true]
    exact ⟨1, by omega, Or.inr ⟨[], s, by simp [calls, h1], by simp⟩⟩
  | succ b ih =>
    intro s hs
    by_cases he : s.current_token_ = .Eof
    · have h1 : NextToken T s = .ok (.Eof, s) := by
        rw [NextToken_eq]
        simp only [he, if_true]
      exact ⟨1, by omega, Or.inr ⟨[], s, by simp [calls, h1], by simp⟩⟩
    · cases hn : NextToken T s with
      | error e => exact ⟨1, by omega, Or.inl ⟨e, by simp [calls, hn]⟩⟩
      | ok p =>
        obtain ⟨t, s1⟩ := p
        have hb := NextToken_budget T s s1 t hn he
        by_cases ht : t = .Eof
        · subst ht
          exact ⟨1, by omega, Or.inr ⟨[], s1, by simp [calls, hn], by simp⟩⟩
        · obtain ⟨n, hn1, hres⟩ := ih s1 (by omega)
          refine ⟨n + 1, by omega, ?_⟩
          rcases hres with ⟨e, h1⟩ | ⟨ts, s2, h1, h2⟩
          · exact Or.inl ⟨e, by simp [calls, hn, h1]⟩
          · refine Or.inr ⟨t :: ts, s2, by simp [calls, hn, h1], ?_⟩
            simp only [List.mem_cons, not_or]
            exact ⟨fun e => ht e.symm, h2⟩

/-- A text that ends a line is not empty. -/
theorem endsLine_ne_nil (m : Mode) (a : List Char) (h : endsLine m a) : a ≠ [] := by
  obtain ⟨a1, rfl, _⟩ := h
  simp

/-- A one-character text that ends a line is a newline read in code or in a comment. -/
theorem endsLine_singleton (m : Mode) (c : Char) (h : endsLine m [c]) :
    c = '\n' ∧ (m = .code ∨ m = .comment) := by
  obtain ⟨a1, h1, h2⟩ := h
  cases a1 with
  | nil =>
    simp only [List.nil_append, List.cons.injEq, and_true] at h1
    exact ⟨h1, h2⟩
  | cons x r =>
    have := congrArg List.length h1
    simp at this

/-- Reading the first character of a longer text that ends a line. -/
theorem endsLine_cons (m : Mode) (c : Char) (r : List Char) (h : endsLine m (c :: r))
    (hr : r ≠ []) : endsLine (m.step c) r := by
  obtain ⟨a1, h1, h2⟩ := h
  cases a1 with
  | nil =>
    simp only [List.nil_append, List.cons.injEq] at h1
    exact absurd h1.2 hr
  | cons x a2 =>
    simp only [List.cons_append, List.cons.injEq] at h1
    obtain ⟨rfl, rfl⟩ := h1
    exact ⟨a2, rfl, h2⟩

/-- In a string literal the text cannot end a line with the next character. -/
theorem endsLine_str_tail (q c : Char) (r : List Char) (h : endsLine (.str q) (c :: r)) :
    r ≠ [] := by
  rintro rfl
  have := (endsLine_singleton _ _ h).2
  rcases this with h | h <;> cases h

/-- After a backslash in a string literal the text cannot end a line with the
next character. -/
theorem endsLine_esc_tail (q c : Char) (r : List Char) (h : endsLine (.esc q) (c :: r)) :
    r ≠ [] := by
  rintro rfl
  have := (endsLine_singleton _ _ h).2
  rcases this with h | h <;> cases h

/-- A character other than the newline does not end a line. -/
theorem endsLine_tail (m : Mode) (c : Char) (r : List Char) (h : endsLine m (c :: r))
    (hc : c ≠ '\n') : r ≠ [] := by
  rintro rfl
  exact hc (endsLine_singleton _ _ h).1

/-- A loop that reads characters which keep the code mode and are no newline
stops inside a text that ends a line, whatever follows the text. -/
theorem dropWhile_uniform (p : Char → Bool) (hp : p '\n' = false)
    (hm : ∀ c, p c = true → Mode.step .code c = .code) :
    ∀ a : List Char, endsLine .code a →
      endsLine .code (a.dropWhile p) ∧
        ∀ X : List Char, (a ++ X).dropWhile p = a.dropWhile p ++ X ∧
          (a ++ X).takeWhile p = a.takeWhile p := by
  intro a
  induction a with
  | nil => intro h; exact absurd rfl (endsLine_ne_nil _ _ h)
  | cons c r ih =>
    intro h
    by_cases hc : p c = true
    · have hn : c ≠ '\n' := by
        rintro rfl
        rw [hp] at hc
        cases hc
      have hr := endsLine_tail _ _ _ h hn
      have h2 := endsLine_cons _ _ _ h hr
      rw [hm c hc] at h2
      obtain ⟨g, u⟩ := ih h2
      refine ⟨by simpa [List.dropWhile_cons, hc] using g, ?_⟩
      intro X
      simp [List.dropWhile_cons, List.takeWhile_cons, hc, u X]
    · refine ⟨by simpa [List.dropWhile_cons, hc] using h, ?_⟩
      intro X
      simp [List.dropWhile_cons, List.takeWhile_cons, hc]

/-- `SkipSpaces` stops inside a text that ends a line. -/
theorem SkipSpaces_uniform (a : List Char) (h : endsLine .code a) :
    endsLine .code (SkipSpaces a) ∧
      ∀ X : List Char, SkipSpaces (a ++ X) = SkipSpaces a ++ X ∧
        (a ++ X).takeWhile (fun c => c == ' ') = a.takeWhile (fun c => c == ' ') := by
  refine dropWhile_uniform (fun c => c == ' ') (by decide) ?_ a h
  intro c hc
  have : c = ' ' := by simpa using hc
  subst this
  decide

/-- In a comment, `getline` stops inside a text that ends a line, at its end
or in front of a rest that ends a line. -/
theorem getline_uniform : ∀ y : List Char, endsLine .comment y →
    ∃ y2, (y2 = [] ∨ endsLine .code y2) ∧ y2.length < y.length ∧
      ∀ X : List Char, getline (y ++ X) = y2 ++ X := by
  intro y
  induction y with
  | nil => intro h; exact absurd rfl (endsLine_ne_nil _ _ h)
  | cons c r ih =>
    intro h
    by_cases hc : c = '\n'
    · subst hc
      refine ⟨r, ?_, by simp, fun X => by simp [getline]⟩
      by_cases hr : r = []
      · exact Or.inl hr
      · right
        have := endsLine_cons _ _ _ h hr
        simpa [Mode.step] using this
    · have hr := endsLine_tail _ _ _ h hc
      have h2 := endsLine_cons _ _ _ h hr
      simp only [Mode.step, hc, if_false] at h2
      obtain ⟨y2, g, hl, u⟩ := ih h2
      refine ⟨y2, g, by simp only [List.length_cons]; omega, ?_⟩
      intro X
      have := u X
      simp only [getline] at this ⊢
      simpa [List.dropWhile_cons, hc] using this

/-- `SkipSpaces` reads no more than the whole input. -/
theorem SkipSpaces_length_le (a : List Char) : (SkipSpaces a).length ≤ a.length :=
  (List.dropWhile_suffix _).length_le

/-- Indentation measurement in a text `a` that ends a line behaves in the same
way whatever follows `a`: it raises an error, or it stops at content inside
`a`, or it passes over the whole of `a` and goes on behind it. -/
theorem Skip_uniform (t : Token) (m d : Int) : ∀ (n : Nat) (a : List Char), a.length ≤ n →
    endsLine .code a →
      (∃ e, ∀ X, SkipEmptyLinesAndComments ⟨a ++ X, t, m, d⟩ = .error e) ∨
      (∃ a2 m2 d2, endsLine .code a2 ∧ a2.length ≤ a.length ∧
        ∀ X, SkipEmptyLinesAndComments ⟨a ++ X, t, m, d⟩ = .ok ⟨a2 ++ X, t, m2, d2⟩) ∨
      (∀ X, SkipEmptyLinesAndComments ⟨a ++ X, t, m, d⟩ =
        SkipEmptyLinesAndComments ⟨X, t, m, d⟩) := by
  intro n
  induction n with
  | zero =>
    intro a ha h
    have : a = [] := List.length_eq_zero.mp (Nat.le_zero.mp ha)
    exact absurd this (endsLine_ne_nil _ _ h)
  | succ n ih =>
    intro a ha h
    obtain ⟨g1, u⟩ := SkipSpaces_uniform a h
    have hlen := SkipSpaces_length_le a
    cases ha1 : SkipSpaces a with
    | nil => exact absurd ha1 (endsLine_ne_nil _ _ g1)
    | cons c r =>
      rw [ha1] at g1 hlen
      simp only [List.length_cons] at hlen
      have hsk : ∀ X, SkipSpaces (a ++ X) = c :: (r ++ X) := by
        intro X
        rw [(u X).1, ha1]
        rfl
      by_cases hc : c = '\n'
      · subst hc
        have hstep : ∀ X, SkipEmptyLinesAndComments ⟨a ++ X, t, m, d⟩ =
            SkipEmptyLinesAndComments ⟨r ++ X, t, m, d⟩ := by
          intro X
          rw [Skip_blank _ (by simp only [hsk X, List.head?_cons])]
          simp only [hsk X, List.tail_cons]
        by_cases hr : r = []
        · subst hr
          right; right
          intro X
          simpa using hstep X
        · have g2 := endsLine_cons _ _ _ g1 hr
          have g3 : endsLine .code r := by simpa [Mode.step] using g2
          rcases ih r (by omega) g3 with ⟨e, he⟩ | ⟨a2, m2, d2, ga, hl, hok⟩ | hthru
          · exact Or.inl ⟨e, fun X => by rw [hstep X, he X]⟩
          · exact Or.inr (Or.inl ⟨a2, m2, d2, ga, by omega, fun X => by rw [hstep X, hok X]⟩)
          · exact Or.inr (Or.inr (fun X => by rw [hstep X, hthru X]))
      · by_cases hh : c = '#'
        · subst hh
          have hr := endsLine_tail _ _ _ g1 (by decide)
          have g2 := endsLine_cons _ _ _ g1 hr
          have g3 : endsLine .comment r := by simpa [Mode.step] using g2
          obtain ⟨y2, gy, hly, uy⟩ := getline_uniform r g3
          have hstep : ∀ X, SkipEmptyLinesAndComments ⟨a ++ X, t, m, d⟩ =
              SkipEmptyLinesAndComments ⟨y2 ++ X, t, m, d⟩ := by
            intro X
            rw [Skip_comment _ (by simp only [hsk X, List.head?_cons])]
            have : getline ('#' :: (r ++ X)) = y2 ++ X := by
              rw [← uy X]
              simp [getline, List.dropWhile_cons]
            simp only [hsk X, this]
          rcases gy with rfl | gy
          · right; right
            intro X
            simpa using hstep X
          · rcases ih y2 (by omega) gy with ⟨e, he⟩ | ⟨a2, m2, d2, ga, hl, hok⟩ | hthru
            · exact Or.inl ⟨e, fun X => by rw [hstep X, he X]⟩
            · exact Or.inr (Or.inl ⟨a2, m2, d2, ga, by omega, fun X => by rw [hstep X, hok X]⟩)
            · exact Or.inr (Or.inr (fun X => by rw [hstep X, hthru X]))
        · have hres : ∀ X, SkipEmptyLinesAndComments ⟨a ++ X, t, m, d⟩ =
              if (a.takeWhile (fun c => c == ' ')).length % 2 = 1 then .error .invalid_indent
              else .ok ⟨(c :: r) ++ X, t, ((a.takeWhile (fun c => c == ' ')).length / 2 : Nat),
                ((a.takeWhile (fun c => c == ' ')).length / 2 : Nat) - m⟩ := by
            intro X
            rw [Skip_content _ (by simp only [hsk X, List.head?_cons]; simpa using hc)
              (by simp only [hsk X, List.head?_cons]; simpa using hh)]
            simp only [hsk X, (u X).2, List.cons_append]
          by_cases hodd : (a.takeWhile (fun c => c == ' ')).length % 2 = 1
          · exact Or.inl ⟨.invalid_indent, fun X => by rw [hres X, if_pos hodd]⟩
          · exact Or.inr (Or.inl ⟨c :: r, _, _, g1, by simp only [List.length_cons]; omega,
              fun X => by rw [hres X, if_neg hodd]⟩)

/-- A digit keeps the code mode. -/
theorem step_code_digit (c : Char) (h : c.isDigit = true) : Mode.step .code c = .code := by
  have h1 : c ≠ '\'' := by rintro rfl; exact absurd h (by decide)
  have h2 : c ≠ '\"' := by rintro rfl; exact absurd h (by decide)
  have h3 : c ≠ '#' := by rintro rfl; exact absurd h (by decide)
  simp [Mode.step, h1, h2, h3]

/-- A character of a name keeps the code mode. -/
theorem step_code_name (c : Char) (h : isNameChar c = true) : Mode.step .code c = .code := by
  have h1 : c ≠ '\'' := by rintro rfl; exact absurd h (by decide)
  have h2 : c ≠ '\"' := by rintro rfl; exact absurd h (by decide)
  have h3 : c ≠ '#' := by rintro rfl; exact absurd h (by decide)
  simp [Mode.step, h1, h2, h3]

/-- `ParseNumber` in a text that ends a line behaves in the same way whatever
follows the text. -/
theorem ParseNumber_uniform (T : Tables) (a : List Char) (h : endsLine .code a) :
    (∃ e, ∀ X, ParseNumber T (a ++ X) = .error e) ∨
      ∃ tk a2, endsLine .code a2 ∧ ∀ X, ParseNumber T (a ++ X) = .ok (tk, a2 ++ X) := by
  obtain ⟨g, u⟩ := dropWhile_uniform Char.isDigit (by decide) step_code_digit a h
  cases a with
  | nil => exact absurd rfl (endsLine_ne_nil _ _ h)
  | cons c r =>
    by_cases hc : c.isDigit = true
    · cases hd : (c :: r).dropWhile Char.isDigit with
      | nil => exact absurd hd (endsLine_ne_nil _ _ g)
      | cons c2 r2 =>
        rw [hd] at g
        have hform : ∀ X, ParseNumber T (c :: r ++ X) =
            if c2 ≠ ' ' ∧ c2 ≠ '\n' ∧ c2 ≠ '\xff' ∧ T.special_symbols c2 = false then
              .error .expected_terminator
            else
              match stoi ((c :: r).takeWhile Char.isDigit) with
              | .error e => .error e
              | .ok v => .ok (.Number v, c2 :: r2 ++ X) := by
          intro X
          have h1 := (u X).1
          have h2 := (u X).2
          rw [hd] at h1
          simp only [List.cons_append] at h1 h2 ⊢
          simp only [ParseNumber, hc, Bool.not_true, Bool.false_eq_true, if_false, h1, h2]
        by_cases ht : c2 ≠ ' ' ∧ c2 ≠ '\n' ∧ c2 ≠ '\xff' ∧ T.special_symbols c2 = false
        · exact Or.inl ⟨_, fun X => by rw [hform X, if_pos ht]⟩
        · cases hs : stoi ((c :: r).takeWhile Char.isDigit) with
          | error e => exact Or.inl ⟨e, fun X => by rw [hform X, if_neg ht, hs]⟩
          | ok v => exact Or.inr ⟨.Number v, c2 :: r2, g, fun X => by rw [hform X, if_neg ht, hs]⟩
    · exact Or.inl ⟨.expected_number, fun X => by simp [ParseNumber, hc]⟩

/-- The loop of `ParseStringConstant` in a text that ends a line outside the
literal stops at the closing quote inside the text. -/
theorem loop_uniform (q : Char) (hq : q ≠ '\\') : ∀ (n : Nat) (y : List Char), y.length ≤ n →
    endsLine (.str q) y → ∀ str : List Char,
      ∃ v r, endsLine .code r ∧ ∀ X, ParseStringConstant.loop q (y ++ X) str =
        .ok (.String v, r ++ X) := by
  intro n
  induction n with
  | zero =>
    intro y hy h
    have : y = [] := List.length_eq_zero.mp (Nat.le_zero.mp hy)
    exact absurd this (endsLine_ne_nil _ _ h)
  | succ n ih =>
    intro y hy h str
    cases y with
    | nil => exact absurd rfl (endsLine_ne_nil _ _ h)
    | cons c r =>
      have hr := endsLine_str_tail _ _ _ h
      have g := endsLine_cons _ _ _ h hr
      simp only [List.length_cons] at hy
      by_cases hcq : c = q
      · subst hcq
        have g2 : endsLine .code r := by simpa [Mode.step] using g
        exact ⟨str, r, g2, fun X => by simp [loop_cons, hq]⟩
      · by_cases hcb : c = '\\'
        · subst hcb
          have g2 : endsLine (.esc q) r := by simpa [Mode.step, hcq] using g
          cases r with
          | nil => exact absurd rfl hr
          | cons e r2 =>
            have hr2 := endsLine_esc_tail _ _ _ g2
            have g3 : endsLine (.str q) r2 := by
              simpa [Mode.step] using endsLine_cons _ _ _ g2 hr2
            simp only [List.length_cons] at hy
            obtain ⟨v, r3, g4, hu⟩ := ih r2 (by omega) g3 (str ++ [unescapeChar e])
            exact ⟨v, r3, g4, fun X => by simp [loop_cons, hcq, hu X]⟩
        · have g2 : endsLine (.str q) r := by simpa [Mode.step, hcq, hcb] using g
          obtain ⟨v, r3, g4, hu⟩ := ih r (by omega) g2 (str ++ [c])
          exact ⟨v, r3, g4, fun X => by simp [loop_cons, hcq, hcb, hu X]⟩

/-- `ParseName` in a text that ends a line behaves in the same way whatever
follows the text. -/
theorem ParseName_uniform (c : Char) (r : List Char) (hc : c.isAlpha = true ∨ c = '_')
    (h : endsLine .code (c :: r)) :
    ∃ tk a2, endsLine .code a2 ∧ ∀ X, ParseName (c :: r ++ X) = .ok (tk, a2 ++ X) := by
  have hn : isNameChar c = true := by
    rcases hc with hc | hc <;> simp [isNameChar, hc]
  have hnl : c ≠ '\n' := by rintro rfl; exact absurd hn (by decide)
  have hr := endsLine_tail _ _ _ h hnl
  have g := endsLine_cons _ _ _ h hr
  rw [step_code_name c hn] at g
  obtain ⟨g2, u⟩ := dropWhile_uniform isNameChar (by decide) step_code_name r g
  have hcond : ¬ ((!c.isAlpha) = true ∧ c ≠ '_') := by
    rcases hc with hc | hc <;> simp [hc]
  cases hk : keyword_to_token (c :: r.takeWhile isNameChar) with
  | none =>
    refine ⟨.Id (c :: r.takeWhile isNameChar), r.dropWhile isNameChar, g2, ?_⟩
    intro X
    simp only [List.cons_append, ParseName, hcond, if_false, (u X).1, (u X).2, hk]
  | some tk =>
    refine ⟨tk, r.dropWhile isNameChar, g2, ?_⟩
    intro X
    simp only [List.cons_append, ParseName, hcond, if_false, (u X).1, (u X).2, hk]

/-- `ParseComparisonOperator` in front of `=` inside a text that ends a line
behaves in the same way whatever follows the text. -/
theorem ParseComparisonOperator_uniform (c : Char) (r : List Char)
    (hstep : Mode.step .code c = .code) (h : endsLine .code (c :: '=' :: r)) :
    (∃ e, ∀ X, ParseComparisonOperator (c :: '=' :: r ++ X) = .error e) ∨
      ∃ tk, endsLine .code r ∧ ∀ X, ParseComparisonOperator (c :: '=' :: r ++ X) =
        .ok (tk, r ++ X) := by
  have g := endsLine_cons _ _ _ h (by simp)
  rw [hstep] at g
  have hr := endsLine_tail _ _ _ g (by decide)
  have g2 : endsLine .code r := by simpa [Mode.step] using endsLine_cons _ _ _ g hr
  by_cases h1 : c = '='
  · exact Or.inr ⟨.Eq, g2, fun X => by simp [ParseComparisonOperator, h1]⟩
  · by_cases h2 : c = '!'
    · exact Or.inr ⟨.NotEq, g2, fun X => by simp [ParseComparisonOperator, h2]⟩
    · by_cases h3 : c = '<'
      · exact Or.inr ⟨.LessOrEq, g2, fun X => by simp [ParseComparisonOperator, h3]⟩
      · by_cases h4 : c = '>'
        · exact Or.inr ⟨.GreaterOrEq, g2, fun X => by simp [ParseComparisonOperator, h4]⟩
        · exact Or.inl ⟨.expected_comparison_operation,
            fun X => by simp [ParseComparisonOperator, h1, h2, h3, h4]⟩

/-- The first character of a text followed by another text. -/
theorem head?_append_ne_nil (r X : List Char) (hr : r ≠ []) : (r ++ X).head? = r.head? := by
  cases r with
  | nil => exact absurd rfl hr
  | cons c r => rfl

/-- The dispatch of `NextToken` in a text `a` that ends a line behaves in the
same way whatever follows `a`: it raises an error, or it returns a token and
stops inside `a` or at its end after a newline, or it reads a comment up to the
end of `a` and goes on with indentation measurement behind it. -/
theorem scan_uniform (T : Tables) (t : Token) (m d : Int) (a : List Char)
    (h : endsLine .code a) :
    (∃ e, ∀ X, scan T ⟨a ++ X, t, m, d⟩ = .error e) ∨
      (∃ tk a2 m2 d2, (endsLine .code a2 ∨ (a2 = [] ∧ tk = .Newline)) ∧
        ∀ X, scan T ⟨a ++ X, t, m, d⟩ = .ok (tk, ⟨a2 ++ X, tk, m2, d2⟩)) ∨
      (∃ (G : Except LexerError Lexer → Except LexerError (Token × Lexer)) (t2 : Token)
          (m2 d2 : Int),
        ∀ X, scan T ⟨a ++ X, t, m, d⟩ = G (SkipEmptyLinesAndComments ⟨X, t2, m2, d2⟩)) := by
  obtain ⟨g1, u⟩ := SkipSpaces_uniform a h
  cases ha1 : SkipSpaces a with
  | nil => exact absurd ha1 (endsLine_ne_nil _ _ g1)
  | cons c r =>
    rw [ha1] at g1
    have hsk : ∀ X, SkipSpaces (a ++ X) = c :: (r ++ X) := by
      intro X
      rw [(u X).1, ha1]
      rfl
    by_cases hff : c = '\xff'
    · -- the byte that is read as the end of input
      subst hff
      have hr := endsLine_tail _ _ _ g1 (by decide)
      have g3 : endsLine .code r := by simpa [Mode.step] using endsLine_cons _ _ _ g1 hr
      by_cases hb : t = .Newline ∨ t = .Indent ∨ t = .Dedent
      · exact Or.inr (Or.inl ⟨.Eof, r, m, d, Or.inl g3, fun X => by simp [scan, hsk X, hb]⟩)
      · exact Or.inr (Or.inl ⟨.Newline, r, m, d, Or.inl g3,
          fun X => by simp [scan, hsk X, hb]⟩)
    by_cases hdig : c.isDigit = true
    · -- a number
      have hform : ∀ X, scan T ⟨a ++ X, t, m, d⟩ =
          setCurrent ⟨a ++ X, t, m, d⟩ (ParseNumber T (c :: r ++ X)) := by
        intro X
        simp only [scan, hsk X, hdig, if_true, List.cons_append]
      rcases ParseNumber_uniform T (c :: r) g1 with ⟨e, he⟩ | ⟨tk, a2, ga, hok⟩
      · exact Or.inl ⟨e, fun X => by rw [hform X, he X]; rfl⟩
      · exact Or.inr (Or.inl ⟨tk, a2, m, d, Or.inl ga, fun X => by rw [hform X, hok X]; rfl⟩)
    · by_cases hquo : c = '\'' ∨ c = '\"'
      · -- a string literal
        have hnl : c ≠ '\n' := by rcases hquo with rfl | rfl <;> decide
        have hr := endsLine_tail _ _ _ g1 hnl
        have g2 : endsLine (.str c) r := by
          simpa [Mode.step, hquo] using endsLine_cons _ _ _ g1 hr
        obtain ⟨v, r3, g3, hu⟩ := loop_uniform c (quote_ne_backslash c hquo) r.length r
          (Nat.le_refl _) g2 []
        refine Or.inr (Or.inl ⟨.String v, r3, m, d, Or.inl g3, fun X => ?_⟩)
        simp only [scan, hsk X, hdig, hquo, if_true, if_false, Bool.false_eq_true]
        rw [ParseStringConstant_quote c hquo, hu X]
        rfl
      · by_cases hnl : c = '\n'
        · -- the end of the line
          subst hnl
          refine Or.inr (Or.inl ⟨.Newline, r, m, d, ?_, fun X => ?_⟩)
          · by_cases hr : r = []
            · exact Or.inr ⟨hr, rfl⟩
            · left
              simpa [Mode.step] using endsLine_cons _ _ _ g1 hr
          · simp [scan, hsk X]
        · have hr := endsLine_tail _ _ _ g1 hnl
          have g2 := endsLine_cons _ _ _ g1 hr
          by_cases hcom : c = '#'
          · -- a trailing comment
            subst hcom
            have g3 : endsLine .comment r := by simpa [Mode.step] using g2
            obtain ⟨y2, gy, hly, uy⟩ := getline_uniform r g3
            have hform : ∀ X, scan T ⟨a ++ X, t, m, d⟩ =
                commentEnd (SkipEmptyLinesAndComments ⟨y2 ++ X, t, m, d⟩) := by
              intro X
              simp only [scan, hsk X, uy X, commentEnd]
              simp
            rcases gy with rfl | gy
            · exact Or.inr (Or.inr ⟨commentEnd, t, m, d, fun X => by simpa using hform X⟩)
            · rcases Skip_uniform t m d y2.length y2 (Nat.le_refl _) gy with
                ⟨e, he⟩ | ⟨a2, m2, d2, ga, _, hok⟩ | hthru
              · exact Or.inl ⟨e, fun X => by rw [hform X, he X]; rfl⟩
              · have hhd : ∀ X, (a2 ++ X).head? = a2.head? :=
                  fun X => head?_append_ne_nil a2 X (endsLine_ne_nil _ _ ga)
                have hne : a2.head? ≠ none := by
                  cases a2 with
                  | nil => exact absurd rfl (endsLine_ne_nil _ _ ga)
                  | cons x r => simp
                by_cases hx : a2.head? = some '\xff'
                · refine Or.inr (Or.inl ⟨.Eof, a2, m2, d2, Or.inl ga, fun X => ?_⟩)
                  rw [hform X, hok X]
                  simp only [commentEnd, hhd X, hx, or_true, if_true]
                · refine Or.inr (Or.inl ⟨.Newline, a2, m2, d2, Or.inl ga, fun X => ?_⟩)
                  rw [hform X, hok X]
                  simp only [commentEnd, hhd X, hne, hx, or_self, if_false]
              · exact Or.inr (Or.inr ⟨commentEnd, t, m, d, fun X => by rw [hform X, hthru X]⟩)
          · have hq1 : c ≠ '\'' := fun e => hquo (Or.inl e)
            have hq2 : c ≠ '\"' := fun e => hquo (Or.inr e)
            have g3 : endsLine .code r := by
              simpa [Mode.step, hq1, hq2, hcom] using g2
            have hstep : Mode.step .code c = .code := by simp [Mode.step, hq1, hq2, hcom]
            have hhead : ∀ X, (r ++ X).head? = r.head? := fun X => head?_append_ne_nil r X hr
            by_cases hassign : c = '=' ∧ r.head? ≠ some '='
            · -- an assignment sign
              obtain ⟨hc, hne⟩ := hassign
              subst hc
              refine Or.inr (Or.inl ⟨.Char '=', r, m, d, Or.inl g3, fun X => ?_⟩)
              simp [scan, hsk X, hhead X, hne]
            · by_cases hcmp : T.comparison_symbols c = true ∧ r.head? = some '='
              · -- a comparison operator
                have hform : ∀ X, scan T ⟨a ++ X, t, m, d⟩ =
                    setCurrent ⟨a ++ X, t, m, d⟩ (ParseComparisonOperator (c :: (r ++ X))) := by
                  intro X
                  simp only [scan, hsk X]
                  rw [if_neg hdig, if_neg hquo, if_neg hnl, if_neg hff, if_neg hcom,
                    if_neg (by rw [hhead X]; exact hassign), if_pos (by rw [hhead X]; exact hcmp)]
                cases r with
                | nil => exact absurd rfl hr
                | cons e r2 =>
                  have he : e = '=' := by simpa using hcmp.2
                  subst he
                  rcases ParseComparisonOperator_uniform c r2 hstep g1 with
                    ⟨e, he⟩ | ⟨tk, ga, hok⟩
                  · exact Or.inl ⟨e, fun X => by rw [hform X]; erw [he X]; rfl⟩
                  · exact Or.inr (Or.inl ⟨tk, r2, m, d, Or.inl ga,
                      fun X => by rw [hform X]; erw [hok X]; rfl⟩)
              · by_cases hspec : T.special_symbols c = true
                · -- a punctuation character
                  refine Or.inr (Or.inl ⟨.Char c, r, m, d, Or.inl g3, fun X => ?_⟩)
                  simp only [scan, hsk X]
                  rw [if_neg hdig, if_neg hquo, if_neg hnl, if_neg hff, if_neg hcom,
                    if_neg (by rw [hhead X]; exact hassign), if_neg (by rw [hhead X]; exact hcmp),
                    if_pos hspec]
                · by_cases hname : c.isAlpha = true ∨ c = '_'
                  · -- a name
                    obtain ⟨tk, a2, ga, hok⟩ := ParseName_uniform c r hname g1
                    refine Or.inr (Or.inl ⟨tk, a2, m, d, Or.inl ga, fun X => ?_⟩)
                    simp only [scan, hsk X]
                    rw [if_neg hdig, if_neg hquo, if_neg hnl, if_neg hff, if_neg hcom,
                      if_neg (by rw [hhead X]; exact hassign),
                      if_neg (by rw [hhead X]; exact hcmp), if_neg hspec, if_pos hname]
                    erw [hok X]
                    rfl
                  · refine Or.inl ⟨.parsing_error, fun X => ?_⟩
                    simp only [scan, hsk X]
                    rw [if_neg hdig, if_neg hquo, if_neg hnl, if_neg hff, if_neg hcom,
                      if_neg (by rw [hhead X]; exact hassign),
                      if_neg (by rw [hhead X]; exact hcmp), if_neg hspec, if_neg hname]

/-- A call of `NextToken` after `Newline` measures the indentation first. -/
theorem NextToken_newline (T : Tables) (inp : List Char) (m d : Int) :
    NextToken T ⟨inp, .Newline, m, d⟩ =
      afterSkip T (SkipEmptyLinesAndComments ⟨inp, .Newline, m, d⟩) := by
  rw [NextToken_eq, if_neg (by simp), if_pos rfl]
  cases SkipEmptyLinesAndComments ⟨inp, .Newline, m, d⟩ <;> rfl

/-- The part of `NextToken` after indentation measurement, in a text that ends
a line, behaves in the same way whatever follows the text. -/
theorem afterIndent_uniform (T : Tables) (t : Token) (m d : Int) (a : List Char)
    (h : endsLine .code a) :
    (∃ e, ∀ X, afterIndent T ⟨a ++ X, t, m, d⟩ = .error e) ∨
      (∃ tk a2 m2 d2, (endsLine .code a2 ∨ (a2 = [] ∧ tk = .Newline)) ∧
        ∀ X, afterIndent T ⟨a ++ X, t, m, d⟩ = .ok (tk, ⟨a2 ++ X, tk, m2, d2⟩)) ∨
      (∃ (G : Except LexerError Lexer → Except LexerError (Token × Lexer)) (t2 : Token)
          (m2 d2 : Int),
        ∀ X, afterIndent T ⟨a ++ X, t, m, d⟩ = G (SkipEmptyLinesAndComments ⟨X, t2, m2, d2⟩)) := by
  by_cases hd : d = 0
  · subst hd
    have e : ∀ X, afterIndent T ⟨a ++ X, t, m, 0⟩ = scan T ⟨a ++ X, t, m, 0⟩ := by
      intro X
      simp [afterIndent]
    simp only [e]
    exact scan_uniform T t m 0 a h
  · by_cases hpos : 0 < d
    · exact Or.inr (Or.inl ⟨.Indent, a, m, d - 1, Or.inl h, fun X => by
        simp [afterIndent, hd, ParseIndentOrDedent, hpos]⟩)
    · have hneg : d < 0 := by omega
      exact Or.inr (Or.inl ⟨.Dedent, a, m, d + 1, Or.inl h, fun X => by
        simp [afterIndent, hd, ParseIndentOrDedent, hpos, hneg]⟩)

/-- A call of `NextToken` in a text that ends a line behaves in the same way
whatever follows the text. -/
theorem NextToken_uniform (T : Tables) (t : Token) (m d : Int) (a : List Char)
    (h : endsLine .code a) :
    (∃ e, ∀ X, NextToken T ⟨a ++ X, t, m, d⟩ = .error e) ∨
      (∃ tk a2 m2 d2, (endsLine .code a2 ∨ (a2 = [] ∧ tk = .Newline)) ∧
        ∀ X, NextToken T ⟨a ++ X, t, m, d⟩ = .ok (tk, ⟨a2 ++ X, tk, m2, d2⟩)) ∨
      (∃ (G : Except LexerError Lexer → Except LexerError (Token × Lexer)) (t2 : Token)
          (m2 d2 : Int),
        ∀ X, NextToken T ⟨a ++ X, t, m, d⟩ = G (SkipEmptyLinesAndComments ⟨X, t2, m2, d2⟩)) := by
  by_cases he : t = .Eof
  · subst he
    exact Or.inr (Or.inl ⟨.Eof, a, m, d, Or.inl h, fun X => by simp [NextToken_eq]⟩)
  · by_cases hn : t = .Newline
    · subst hn
      have e : ∀ X, NextToken T ⟨a ++ X, .Newline, m, d⟩ =
          afterSkip T (SkipEmptyLinesAndComments ⟨a ++ X, .Newline, m, d⟩) :=
        fun X => NextToken_newline T (a ++ X) m d
      rcases Skip_uniform .Newline m d a.length a (Nat.le_refl _) h with
        ⟨e1, he1⟩ | ⟨a2, m2, d2, ga, _, hok⟩ | hthru
      · exact Or.inl ⟨e1, fun X => by rw [e X, he1 X]; rfl⟩
      · rcases afterIndent_uniform T .Newline m2 d2 a2 ga with
          ⟨e1, he1⟩ | ⟨tk, a3, m3, d3, g3, hok3⟩ | ⟨G, t3, m3, d3, hG⟩
        · exact Or.inl ⟨e1, fun X => by rw [e X, hok X]; exact he1 X⟩
        · exact Or.inr (Or.inl ⟨tk, a3, m3, d3, g3, fun X => by rw [e X, hok X]; exact hok3 X⟩)
        · exact Or.inr (Or.inr ⟨G, t3, m3, d3, fun X => by rw [e X, hok X]; exact hG X⟩)
      · exact Or.inr (Or.inr ⟨afterSkip T, .Newline, m, d, fun X => by rw [e X, hthru X]⟩)
    · have e : ∀ X, NextToken T ⟨a ++ X, t, m, d⟩ = afterIndent T ⟨a ++ X, t, m, d⟩ := by
        intro X
        simp [NextToken_eq, he, hn]
      simp only [e]
      exact afterIndent_uniform T t m d a h

/-- Related lexers have the same current token. -/
theorem Rel_current (l b : List Char) (s s2 : Lexer) (h : Rel l b s s2) :
    s.current_token_ = s2.current_token_ := by
  rcases h with rfl | ⟨a, t, m, d, _, rfl, rfl⟩ <;> rfl

/-- A call of `NextToken` on related lexers gives the same error, or the same
token and related lexers. -/
theorem NextToken_Rel (T : Tables) (l : SkippedLine) (hl : l.wellFormed) (b : List Char)
    (s s2 : Lexer) (h : Rel l.chars b s s2) :
    (∃ e, NextToken T s = .error e ∧ NextToken T s2 = .error e) ∨
      ∃ tk s1 s3, NextToken T s = .ok (tk, s1) ∧ NextToken T s2 = .ok (tk, s3) ∧
        Rel l.chars b s1 s3 := by
  have hrefl : ∀ r : Except LexerError (Token × Lexer),
      (∃ e, r = .error e ∧ r = .error e) ∨
        ∃ tk s1 s3, r = .ok (tk, s1) ∧ r = .ok (tk, s3) ∧ Rel l.chars b s1 s3 := by
    intro r
    cases r with
    | error e => exact Or.inl ⟨e, rfl, rfl⟩
    | ok p => exact Or.inr ⟨p.1, p.2, p.2, rfl, rfl, Or.inl rfl⟩
  rcases h with rfl | ⟨a, t, m, d, ha, rfl, rfl⟩
  · exact hrefl _
  · rcases ha with ha | ⟨rfl, rfl⟩
    · rcases NextToken_uniform T t m d a ha with
        ⟨e, he⟩ | ⟨tk, a2, m2, d2, g, hok⟩ | ⟨G, t2, m2, d2, hG⟩
      · exact Or.inl ⟨e, he b, he (l.chars ++ b)⟩
      · exact Or.inr ⟨tk, _, _, hok b, hok (l.chars ++ b), Or.inr ⟨a2, tk, m2, d2, g, rfl, rfl⟩⟩
      · have := hrefl (G (SkipEmptyLinesAndComments ⟨b, t2, m2, d2⟩))
        rw [hG b, hG (l.chars ++ b), Skip_line l hl b t2 m2 d2]
        exact this
    · have e : NextToken T ⟨[] ++ (l.chars ++ b), .Newline, m, d⟩ =
          NextToken T ⟨[] ++ b, .Newline, m, d⟩ := by
        simp only [List.nil_append, NextToken_newline, Skip_line l hl b .Newline m d]
      rw [e]
      exact hrefl _

/-- The consumer loop gives the same result on related lexers. -/
theorem drain_Rel (T : Tables) (l : SkippedLine) (hl : l.wellFormed) (b : List Char) :
    ∀ (n : Nat) (s s2 : Lexer), Rel l.chars b s s2 → drain T n s = drain T n s2 := by
  intro n
  induction n with
  | zero =>
    intro s s2 h
    simp only [drain, Rel_current _ _ _ _ h]
  | succ n ih =>
    intro s s2 h
    have hc := Rel_current _ _ _ _ h
    rcases NextToken_Rel T l hl b s s2 h with ⟨e, h1, h2⟩ | ⟨tk, s1, s3, h1, h2, hr⟩
    · simp only [drain, hc, h1, h2]
    · simp only [drain, hc, h1, h2, ih s1 s3 hr]

/-- Indentation measurement after the loop of the constructor is indentation
measurement on the whole input. -/
theorem Skip_skipLeadingComments (t : Token) (m d : Int) : ∀ (n : Nat) (x : List Char),
    x.length ≤ n →
      SkipEmptyLinesAndComments ⟨skipLeadingComments x, t, m, d⟩ =
        SkipEmptyLinesAndComments ⟨x, t, m, d⟩ := by
  intro n
  induction n with
  | zero =>
    intro x hx
    have : x = [] := List.length_eq_zero.mp (Nat.le_zero.mp hx)
    subst this
    rw [skipLeadingComments_of_ne [] (by simp)]
  | succ n ih =>
    intro x hx
    by_cases hh : x.head? = some '#'
    · cases x with
      | nil => simp at hh
      | cons c r =>
        have hc : c = '#' := by simpa using hh
        subst hc
        have hs : SkipSpaces ('#' :: r) = '#' :: r := by simp [SkipSpaces]
        have hg : (getline ('#' :: r)).length ≤ r.length := by
          have := getline_length_le r
          simpa [getline, List.dropWhile_cons] using this
        simp only [List.length_cons] at hx
        rw [skipLeadingComments, if_pos hh, hs, ih _ (by omega),
          Skip_comment ⟨'#' :: r, t, m, d⟩ (by simp only [hs, List.head?_cons])]
        simp only [hs]
    · rw [skipLeadingComments_of_ne x hh]

/-- The dispatch of `NextToken` in front of a character that is no space, after
any number of spaces: the chain of tests on that character. -/
theorem scan_chain (T : Tables) (k : Nat) (c : Char) (r : List Char) (t : Token) (m d : Int)
    (hc : c ≠ ' ') :
    scan T ⟨List.replicate k ' ' ++ c :: r, t, m, d⟩ =
      if c.isDigit = true then
        setCurrent ⟨List.replicate k ' ' ++ c :: r, t, m, d⟩ (ParseNumber T (c :: r))
      else if c = '\'' ∨ c = '\"' then
        setCurrent ⟨List.replicate k ' ' ++ c :: r, t, m, d⟩ (ParseStringConstant (c :: r))
      else if c = '\n' then .ok (.Newline, ⟨r, .Newline, m, d⟩)
      else if c = '\xff' then
        if t = .Newline ∨ t = .Indent ∨ t = .Dedent then .ok (.Eof, ⟨r, .Eof, m, d⟩)
        else .ok (.Newline, ⟨r, .Newline, m, d⟩)
      else if c = '#' then commentEnd (SkipEmptyLinesAndComments ⟨getline r, t, m, d⟩)
      else if c = '=' ∧ r.head? ≠ some '=' then .ok (.Char '=', ⟨r, .Char '=', m, d⟩)
      else if T.comparison_symbols c = true ∧ r.head? = some '=' then
        setCurrent ⟨List.replicate k ' ' ++ c :: r, t, m, d⟩ (ParseComparisonOperator (c :: r))
      else if T.special_symbols c = true then .ok (.Char c, ⟨r, .Char c, m, d⟩)
      else if c.isAlpha = true ∨ c = '_' then
        setCurrent ⟨List.replicate k ' ' ++ c :: r, t, m, d⟩ (ParseName (c :: r))
      else .error .parsing_error := by
  have hsk := SkipSpaces_replicate k (c :: r) (by simpa using hc)
  simp only [scan, hsk, commentEnd]

/-- The dispatch of `NextToken` at the end of input, after any number of spaces. -/
theorem scan_end (T : Tables) (k : Nat) (t : Token) (m d : Int) :
    scan T ⟨List.replicate k ' ', t, m, d⟩ =
      if t = .Newline ∨ t = .Indent ∨ t = .Dedent then .ok (.Eof, ⟨[], .Eof, m, d⟩)
      else .ok (.Newline, ⟨[], .Newline, m, d⟩) := by
  have hsk := SkipSpaces_replicate k [] (by simp)
  simp only [List.append_nil] at hsk
  simp only [scan, hsk]

/-- The only error of `SkipEmptyLinesAndComments` is `invalid indent`. -/
theorem Skip_error (s : Lexer) (e : LexerError) (h : SkipEmptyLinesAndComments s = .error e) :
    e = .invalid_indent := by
  induction s using SkipEmptyLinesAndComments.induct with
  | case1 s hd ih =>
    rw [Skip_blank s hd] at h
    exact ih h
  | case2 s hd1 hd ih =>
    rw [Skip_comment s hd] at h
    exact ih h
  | case3 s hd1 hd hodd =>
    rw [Skip_content s hd1 hd] at h
    simp only [hodd, if_true] at h
    cases h
    rfl
  | case4 s hd1 hd hodd =>
    rw [Skip_content s hd1 hd] at h
    simp only [hodd, if_false] at h
    cases h

/-- The form of `ParseNumber` on a maximal run of digits. -/
theorem ParseNumber_run (T : Tables) (d rest : List Char) (hd : d ≠ [])
    (hall : ∀ c ∈ d, c.isDigit = true)
    (hmax : ∀ c, rest.head? = some c → c.isDigit = false) :
    ParseNumber T (d ++ rest) =
      if ∃ c, rest.head? = some c ∧ c ≠ ' ' ∧ c ≠ '\n' ∧ c ≠ '\xff' ∧
          T.special_symbols c = false then
        .error .expected_terminator
      else if decimalValue d ≤ 2147483647 then .ok (.Number (decimalValue d), rest)
      else .error .stoi_out_of_range := by
  obtain ⟨ht, hdr⟩ := takeWhile_digits d rest hall hmax
  cases d with
  | nil => exact absurd rfl hd
  | cons x d =>
    have hx := hall x (by simp)
    simp only [List.cons_append] at ht hdr ⊢
    unfold ParseNumber
    simp only [hx, Bool.not_true, Bool.false_eq_true, if_false, ht, hdr, stoi]
    cases rest with
    | nil =>
      simp only [List.head?_nil, false_and, exists_false, if_false]
      by_cases hv : decimalValue (x :: d) ≤ 2147483647 <;> simp [hv]
    | cons c r =>
      simp only [List.head?_cons, Option.some.injEq, exists_eq_left']
      by_cases hb : c ≠ ' ' ∧ c ≠ '\n' ∧ c ≠ '\xff' ∧ T.special_symbols c = false
      · rw [if_pos hb, if_pos hb]
      · rw [if_neg hb, if_neg hb]
        by_cases hv : decimalValue (x :: d) ≤ 2147483647 <;> simp [hv]

/-- The outcome of `setCurrent` on an error. -/
theorem setCurrent_error (s : Lexer) (e : LexerError) : setCurrent s (.error e) = .error e := rfl

/-- The outcome of `setCurrent` on a token. -/
theorem setCurrent_okay (s : Lexer) (t : Token) (r : List Char) :
    setCurrent s (.ok (t, r)) = .ok (t, { s with input_ := r, current_token_ := t }) := rfl

/-- The dispatch of `NextToken` at a comparison lead in front of `=`. -/
theorem scan_comparison (T : Tables) (c : Char) (rest : List Char) (t : Token) (m d : Int)
    (hc : c = '=' ∨ c = '!' ∨ c = '<' ∨ c = '>') (hcmp : T.comparison_symbols c = true) :
    scan T ⟨c :: '=' :: rest, t, m, d⟩ =
      setCurrent ⟨c :: '=' :: rest, t, m, d⟩ (ParseComparisonOperator (c :: '=' :: rest)) := by
  have h := scan_chain T 0 c ('=' :: rest) t m d (by rcases hc with rfl | rfl | rfl | rfl <;> decide)
  simp only [List.replicate, List.nil_append] at h
  rw [h, if_neg (by rcases hc with rfl | rfl | rfl | rfl <;> decide),
    if_neg (by rcases hc with rfl | rfl | rfl | rfl <;> decide),
    if_neg (by rcases hc with rfl | rfl | rfl | rfl <;> decide),
    if_neg (by rcases hc with rfl | rfl | rfl | rfl <;> decide),
    if_neg (by rcases hc with rfl | rfl | rfl | rfl <;> decide),
    if_neg (by simp), if_pos ⟨hcmp, rfl⟩]

/-- The dispatch of `NextToken` at `<` or `>` that is not followed by `=`. -/
theorem scan_angle (T : Tables) (c : Char) (rest : List Char) (t : Token) (m d : Int)
    (hc : c = '<' ∨ c = '>') (hr : rest.head? ≠ some '=') :
    scan T ⟨c :: rest, t, m, d⟩ =
      if T.special_symbols c = true then .ok (.Char c, ⟨rest, .Char c, m, d⟩)
      else .error .parsing_error := by
  have h := scan_chain T 0 c rest t m d (by rcases hc with rfl | rfl <;> decide)
  simp only [List.replicate, List.nil_append] at h
  rw [h, if_neg (by rcases hc with rfl | rfl <;> decide),
    if_neg (by rcases hc with rfl | rfl <;> decide),
    if_neg (by rcases hc with rfl | rfl <;> decide),
    if_neg (by rcases hc with rfl | rfl <;> decide),
    if_neg (by rcases hc with rfl | rfl <;> decide),
    if_neg (by rcases hc with rfl | rfl <;> simp),
    if_neg (by simp [hr])]
  by_cases hs : T.special_symbols c = true
  · rw [if_pos hs, if_pos hs]
  · rw [if_neg hs, if_neg hs, if_neg (by rcases hc with rfl | rfl <;> decide)]

/-- The failures of `ParseNumber` at a digit. -/
theorem ParseNumber_error (T : Tables) (c : Char) (r : List Char) (e : LexerError)
    (hc : c.isDigit = true) (h : ParseNumber T (c :: r) = .error e) :
    e = .expected_terminator ∨ e = .stoi_out_of_range := by
  unfold ParseNumber at h
  simp only [hc, Bool.not_true, Bool.false_eq_true, if_false, stoi] at h
  split at h
  · split at h
    · next h2 =>
      split at h2
      · cases h2
      · cases h2
        cases h
        exact Or.inr rfl
    · cases h
  · split at h
    · cases h
      exact Or.inl rfl
    · split at h
      · next h2 =>
        split at h2
        · cases h2
        · cases h2
          cases h
          exact Or.inr rfl
      · cases h

/-- The failure of `ParseStringConstant` at a quote. -/
theorem ParseStringConstant_error (c : Char) (r : List Char) (e : LexerError)
    (hc : c = '\'' ∨ c = '\"') (h : ParseStringConstant (c :: r) = .error e) :
    e = .expected_closing_quote := by
  rw [ParseStringConstant_quote c hc] at h
  rcases loop_result c (quote_ne_backslash c hc) r.length r (Nat.le_refl _) [] with
    ⟨he, _⟩ | ⟨b1, rest, _, _, hok⟩
  · rw [he] at h
    cases h
    rfl
  · rw [hok] at h
    cases h

/-- `ParseName` at a letter or underscore does not fail. -/
theorem ParseName_no_error (c : Char) (r : List Char) (e : LexerError)
    (hc : c.isAlpha = true ∨ c = '_') : ParseName (c :: r) ≠ .error e := by
  have hcond : ¬ ((!c.isAlpha) = true ∧ c ≠ '_') := by
    rcases hc with hc | hc <;> simp [hc]
  simp only [ParseName, hcond, if_false]
  cases keyword_to_token (c :: r.takeWhile isNameChar) <;> simp

/-- `ParseComparisonOperator` at `=`, `!`, `<` or `>` in front of `=` does not fail. -/
theorem ParseComparisonOperator_no_error (c : Char) (r : List Char) (e : LexerError)
    (hc : c = '=' ∨ c = '!' ∨ c = '<' ∨ c = '>') (hr : r.head? = some '=') :
    ParseComparisonOperator (c :: r) ≠ .error e := by
  cases r with
  | nil => simp at hr
  | cons b r =>
    have hb : b = '=' := by simpa using hr
    subst hb
    rcases hc with rfl | rfl | rfl | rfl <;> simp [ParseComparisonOperator]

/-- An error of `setCurrent` is an error of the scan. -/
theorem setCurrent_error_iff (s : Lexer) (r : Except LexerError (Token × List Char))
    (e : LexerError) (h : setCurrent s r = .error e) : r = .error e := by
  unfold setCurrent at h
  split at h
  · cases h
    rfl
  · cases h

/-- The errors the dispatch of `NextToken` can raise. -/
theorem scan_error (T : Tables)
    (hcmp : ∀ c, T.comparison_symbols c = true → c = '=' ∨ c = '!' ∨ c = '<' ∨ c = '>')
    (s : Lexer) (e : LexerError) (h : scan T s = .error e) :
    e = .invalid_indent ∨ e = .expected_terminator ∨ e = .expected_closing_quote ∨
      e = .parsing_error ∨ e = .stoi_out_of_range := by
  unfold scan at h
  split at h
  · split at h <;> cases h
  · next c r hd =>
    split at h
    · next hdig =>
      rcases ParseNumber_error T c r e hdig (setCurrent_error_iff _ _ _ h) with h1 | h1
      · exact Or.inr (Or.inl h1)
      · exact Or.inr (Or.inr (Or.inr (Or.inr h1)))
    · split at h
      · next hq =>
        exact Or.inr (Or.inr (Or.inl
          (ParseStringConstant_error c r e hq (setCurrent_error_iff _ _ _ h))))
      · split at h
        · cases h
        · split at h
          · split at h <;> cases h
          · split at h
            · split at h
              · next e2 hs =>
                cases h
                exact Or.inl (Skip_error _ _ hs)
              · split at h <;> cases h
            · split at h
              · cases h
              · split at h
                · next hc =>
                  exact absurd (setCurrent_error_iff _ _ _ h)
                    (ParseComparisonOperator_no_error c r e (hcmp c hc.1) hc.2)
                · split at h
                  · cases h
                  · split at h
                    · next hname =>
                      exact absurd (setCurrent_error_iff _ _ _ h) (ParseName_no_error c r e hname)
                    · cases h
                      exact Or.inr (Or.inr (Or.inr (Or.inl rfl)))

/-- `SkipSpaces` does nothing in front of a character that is no space. -/
theorem SkipSpaces_id (input : List Char) (h : input.head? ≠ some ' ') :
    SkipSpaces input = input := by
  cases input with
  | nil => rfl
  | cons c r =>
    have hc : c ≠ ' ' := by simpa using h
    simp [SkipSpaces, List.dropWhile_cons, hc]

/-- `SkipEmptyLinesAndComments` leaves the current token alone. -/
theorem Skip_current (s s2 : Lexer) (h : SkipEmptyLinesAndComments s = .ok s2) :
    s2.current_token_ = s.current_token_ := by
  induction s using SkipEmptyLinesAndComments.induct with
  | case1 s hd ih =>
    rw [Skip_blank s hd] at h
    exact ih h
  | case2 s hd1 hd ih =>
    rw [Skip_comment s hd] at h
    exact ih h
  | case3 s hd1 hd hodd =>
    rw [Skip_content s hd1 hd] at h
    simp only [hodd, if_true] at h
    cases h
  | case4 s hd1 hd hodd =>
    rw [Skip_content s hd1 hd] at h
    simp only [hodd, if_false] at h
    cases h
    rfl

/-- What the dispatch of `NextToken` returns: `Eof`, or a `Newline` (after a
content token, or at a newline or `#`), or a content token, which leaves the
owed indentation alone. -/
theorem scan_shape (T : Tables) (s s1 : Lexer) (t : Token) (h : scan T s = .ok (t, s1)) :
    t = .Eof ∨
      (t = .Newline ∧ ((s.current_token_ ≠ .Newline ∧ s.current_token_ ≠ .Indent ∧
          s.current_token_ ≠ .Dedent) ∨
        (SkipSpaces s.input_).head? = some '\n' ∨ (SkipSpaces s.input_).head? = some '#')) ∨
      (rank t = 2 ∧
        s1.difference_previous_current_indents_ = s.difference_previous_current_indents_) := by
  cases hsp : SkipSpaces s.input_ with
  | nil =>
    unfold scan at h
    simp only [hsp] at h
    split at h
    · cases h
      exact Or.inl rfl
    · next hb =>
      cases h
      refine Or.inr (Or.inl ⟨rfl, Or.inl ⟨?_, ?_, ?_⟩⟩) <;> intro hx <;> exact hb (by simp [hx])
  | cons c r =>
    by_cases hn : c = '\n'
    · subst hn
      unfold scan at h
      simp only [hsp] at h
      rw [if_neg (by decide), if_neg (by decide), if_pos trivial] at h
      cases h
      exact Or.inr (Or.inl ⟨rfl, Or.inr (Or.inl rfl)⟩)
    by_cases hf : c = '\xff'
    · subst hf
      unfold scan at h
      simp only [hsp] at h
      rw [if_neg (by decide), if_neg (by decide), if_neg (by decide), if_pos trivial] at h
      split at h
      · cases h
        exact Or.inl rfl
      · next hb =>
        cases h
        refine Or.inr (Or.inl ⟨rfl, Or.inl ⟨?_, ?_, ?_⟩⟩) <;> intro hx <;>
          exact hb (by simp [hx])
    by_cases hh : c = '#'
    · subst hh
      unfold scan at h
      simp only [hsp] at h
      rw [if_neg (by decide), if_neg (by decide), if_neg (by decide), if_neg (by decide),
        if_pos trivial] at h
      split at h
      · cases h
      · split at h
        · cases h
          exact Or.inl rfl
        · cases h
          exact Or.inr (Or.inl ⟨rfl, Or.inr (Or.inr rfl)⟩)
    have hc : c ≠ ' ' := by
      have := SkipSpaces_head s.input_
      rw [hsp] at this
      simpa using this
    have hsame : scan T s = scan T ⟨c :: r, s.current_token_, s.current_indent_,
        s.difference_previous_current_indents_⟩ := by
      have h2 : SkipSpaces (c :: r) = c :: r := SkipSpaces_id _ (by simpa using hc)
      have hset : ∀ X, setCurrent s X = setCurrent ⟨c :: r, s.current_token_, s.current_indent_,
          s.difference_previous_current_indents_⟩ X := by
        intro X
        rcases X with _ | ⟨_, _⟩ <;> rfl
      simp only [scan, hsp, h2, hset]
    rw [hsame] at h
    obtain ⟨h1, _, _, _, h5⟩ := scan_content T c r _ _ _ hc hn hh hf t s1 h
    exact Or.inr (Or.inr ⟨h1, h5⟩)

/-- A token of rank 2 is no line-boundary token. -/
theorem rank_two (t : Token) (h : rank t = 2) :
    t ≠ .Newline ∧ t ≠ .Indent ∧ t ≠ .Dedent ∧ t ≠ .Eof := by
  refine ⟨?_, ?_, ?_, ?_⟩ <;> intro hx <;> subst hx <;> simp [rank] at h

/-- One call of `NextToken` keeps the owed indentation in agreement with the
current token, and its result fits the token before it. -/
theorem NextToken_shape (T : Tables) (s s1 : Lexer) (t : Token)
    (h : NextToken T s = .ok (t, s1)) (hinv : owedAgrees s) :
    owedAgrees s1 ∧ boundaryShape s.current_token_ t := by
  have hcur := NextToken_current T s s1 t h
  have hEof : t = .Eof → s.current_token_ ≠ .Eof →
      owedAgrees s1 ∧ boundaryShape s.current_token_ t := by
    intro ht _
    subst ht
    refine ⟨⟨?_, ?_, ?_⟩, ?_, ?_, ?_⟩ <;> intro hx <;> simp [hcur, rank] at hx
  have hcontent : rank t = 2 → s1.difference_previous_current_indents_ = 0 →
      owedAgrees s1 ∧ boundaryShape s.current_token_ t := by
    intro hr hd
    obtain ⟨h1, h2, h3, _⟩ := rank_two t hr
    refine ⟨⟨fun _ => by omega, fun _ => by omega, fun _ => hd⟩, ?_, ?_, ?_⟩ <;>
      intro hx <;> contradiction
  have hpid : ∀ s0 : Lexer, s0.difference_previous_current_indents_ ≠ 0 →
      (match ParseIndentOrDedent s0 with
        | .error e => .error e
        | .ok (t, s2) => .ok (t, { s2 with current_token_ := t })) =
          (.ok (t, s1) : Except LexerError (Token × Lexer)) →
      (t = .Indent ∧ 0 < s0.difference_previous_current_indents_ ∨
        t = .Dedent ∧ s0.difference_previous_current_indents_ < 0) ∧ owedAgrees s1 := by
    intro s0 hd h0
    unfold ParseIndentOrDedent at h0
    split at h0
    · cases h0
    · next t2 s2 hp =>
      split at hp
      · next hpos =>
        cases hp
        cases h0
        refine ⟨Or.inl ⟨rfl, hpos⟩, ?_, ?_, ?_⟩
        · intro _
          show 0 ≤ s0.difference_previous_current_indents_ - 1
          omega
        · intro hx
          simp at hx
        · intro hx
          simp [rank] at hx
      · split at hp
        · next hneg =>
          cases hp
          cases h0
          refine ⟨Or.inr ⟨rfl, hneg⟩, ?_, ?_, ?_⟩
          · intro hx
            simp at hx
          · intro _
            show s0.difference_previous_current_indents_ + 1 ≤ 0
            omega
          · intro hx
            simp [rank] at hx
        · cases hp
  rw [NextToken_eq] at h
  split at h
  · next he =>
    cases h
    refine ⟨hinv, ?_, ?_, ?_⟩ <;> intro hx <;> cases hx
  · next he =>
    split at h
    · next hn =>
      split at h
      · cases h
      · next s2 hs2 =>
        have hc2 := Skip_current _ _ hs2
        obtain ⟨g1, g2, g3⟩ := Skip_head _ _ hs2
        unfold afterIndent at h
        split at h
        · next hd =>
          obtain ⟨hk, hi⟩ := hpid s2 hd h
          refine ⟨hi, ?_, ?_, ?_⟩
          · intro hx
            rcases hk with ⟨hk, _⟩ | ⟨hk, _⟩ <;> rw [hk] at hx <;> cases hx
          · intro _
            exact Or.inl hn
          · intro _
            exact Or.inl hn
        · next hd =>
          rcases scan_shape T s2 s1 t h with ht | ⟨_, hb⟩ | ⟨hr, hdd⟩
          · exact hEof ht he
          · rw [SkipSpaces_id _ g1, hc2] at hb
            rcases hb with ⟨hb, _⟩ | hb | hb
            · exact absurd hn hb
            · exact absurd hb g2
            · exact absurd hb g3
          · exact hcontent hr (by rw [hdd]; simpa using hd)
    · next hn =>
      unfold afterIndent at h
      split at h
      · next hd =>
        obtain ⟨hk, hi⟩ := hpid s hd h
        obtain ⟨i1, i2, i3⟩ := hinv
        have hr : rank s.current_token_ ≠ 2 := fun hx => hd (i3 hx)
        refine ⟨hi, ?_, ?_, ?_⟩
        · intro hx
          rcases hk with ⟨hk, _⟩ | ⟨hk, _⟩ <;> rw [hk] at hx <;> cases hx
        · intro hx
          rcases hk with ⟨_, hk⟩ | ⟨hk, _⟩
          · right
            cases hcs : s.current_token_ <;> simp only [hcs, rank] at hr he hn i2 <;>
              first
                | rfl
                | contradiction
                | (exfalso; have := i2 trivial; omega)
          · rw [hk] at hx
            cases hx
        · intro hx
          rcases hk with ⟨hk, _⟩ | ⟨_, hk⟩
          · rw [hk] at hx
            cases hx
          · right
            cases hcs : s.current_token_ <;> simp only [hcs, rank] at hr he hn i1 <;>
              first
                | rfl
                | contradiction
                | (exfalso; have := i1 trivial; omega)
      · next hd =>
        rcases scan_shape T s s1 t h with ht | ⟨ht, hb⟩ | ⟨hr, hdd⟩
        · exact hEof ht he
        · subst ht
          refine ⟨⟨?_, ?_, ?_⟩, fun _ => hn, ?_, ?_⟩ <;> intro hx <;>
            simp [hcur, rank] at hx
        · exact hcontent hr (by rw [hdd]; simpa using hd)

/-- The lexer the constructor returns: its current token is no `Newline`, and
its owed indentation agrees with the current token. -/
theorem new_shape (T : Tables) (input : List Char) (s0 : Lexer)
    (h : Lexer.new T input = .ok s0) :
    owedAgrees s0 ∧ s0.current_token_ ≠ .Newline := by
  unfold Lexer.new at h
  split at h
  · cases h
  · next t s hs =>
    cases h
    have hcur := NextToken_current T _ s t hs
    have hsame : ({ s with current_token_ := t } : Lexer) = s := by
      cases s
      simp only at hcur
      simp [hcur]
    rw [hsame]
    have h0 : owedAgrees ⟨skipLeadingComments input, .Newline, 0, 0⟩ := by
      refine ⟨?_, ?_, ?_⟩ <;> intro hx <;> simp [rank] at hx
    obtain ⟨hi, hb⟩ := NextToken_shape T _ s t hs h0
    rw [hcur]
    exact ⟨hi, fun hx => hb.1 hx rfl⟩

/-- The results of successive calls of `NextToken` fit together at the line
boundaries. -/
theorem calls_shape (T : Tables) : ∀ (n : Nat) (s s1 : Lexer) (ts : List Token),
    owedAgrees s → calls T n s = .ok (ts, s1) →
      List.Chain boundaryShape s.current_token_ ts := by
  intro n
  induction n with
  | zero =>
    intro s s1 ts _ h
    simp only [calls] at h
    cases h
    exact List.Chain.nil
  | succ n ih =>
    intro s s1 ts hinv h
    simp only [calls] at h
    split at h
    · cases h
    · next t s2 hs =>
      split at h
      · cases h
      · next ts2 s3 hc =>
        cases h
        obtain ⟨hi, hb⟩ := NextToken_shape T s s2 t hs hinv
        have := ih s2 _ ts2 hi hc
        rw [NextToken_current T s s2 t hs] at this
        exact List.Chain.cons hb this

/-- The tokens of the consumer loop fit together at the line boundaries. -/
theorem drain_shape (T : Tables) : ∀ (n : Nat) (s : Lexer) (ts : List Token),
    owedAgrees s → drain T n s = .ok ts →
      ts.head? = some s.current_token_ ∧ List.Chain' boundaryShape ts := by
  intro n
  induction n with
  | zero =>
    intro s ts _ h
    simp only [drain] at h
    cases h
    exact ⟨rfl, List.chain'_singleton _⟩
  | succ n ih =>
    intro s ts hinv h
    simp only [drain] at h
    split at h
    · next he =>
      cases h
      exact ⟨by rw [he]; rfl, List.chain'_singleton _⟩
    · split at h
      · cases h
      · next t s2 hs =>
        split at h
        · cases h
        · next ts2 hc =>
          cases h
          obtain ⟨hi, hb⟩ := NextToken_shape T s s2 t hs hinv
          obtain ⟨h1, h2⟩ := ih s2 ts2 hi hc
          rw [NextToken_current T s s2 t hs] at h1
          refine ⟨rfl, ?_⟩
          rw [List.chain'_cons']
          refine ⟨?_, h2⟩
          intro y hy
          rw [h1] at hy
          cases hy
          exact hb

/-- The balance of a sequence with one more token in front. -/
theorem balance_cons (t : Token) (ts : List Token) : balance (t :: ts) = shift t + balance ts := by
  cases t <;> simp [balance, shift, List.count_cons] <;> omega

/-- The balance of the empty sequence. -/
theorem balance_nil : balance [] = 0 := by
  simp [balance]

/-- A text in which no newline is followed by spaces only keeps the property
when read from a later position. -/
theorem noSpacesAfterNewline_suffix (a b : List Char) (h : noSpacesAfterNewline a)
    (hb : b <:+ a) : noSpacesAfterNewline b := by
  obtain ⟨t, rfl⟩ := hb
  intro pre n hpre hl
  refine h (t ++ pre) n (by rw [hpre, List.append_assoc]) ?_
  simp [List.getLast?_append, hl]

/-- The input splits into its leading spaces and the rest. -/
theorem spaces_append (input : List Char) :
    input = List.replicate (input.takeWhile (fun c => c == ' ')).length ' ' ++ SkipSpaces input := by
  have h1 : input.takeWhile (fun c => c == ' ') =
      List.replicate (input.takeWhile (fun c => c == ' ')).length ' ' := by
    rw [List.eq_replicate_iff]
    refine ⟨rfl, ?_⟩
    intro b hb
    simpa using List.mem_takeWhile_imp hb
  rw [← h1]
  exact (List.takeWhile_append_dropWhile _ _).symm

/-- After a newline that ends a line of the text, the rest is not spaces only. -/
theorem notOnlySpaces_after_newline (a rest : List Char) (h : noSpacesAfterNewline a)
    (hsp : SkipSpaces a = '\n' :: rest) : notOnlySpaces rest := by
  intro n hn
  have ha := spaces_append a
  rw [hsp, hn] at ha
  refine h (List.replicate (a.takeWhile (fun c => c == ' ')).length ' ' ++ ['\n']) n ?_ ?_
  · rw [ha]
    simp
  · simp

/-- `SkipSpaces` returns a later position of the input. -/
theorem SkipSpaces_suffix (input : List Char) : SkipSpaces input <:+ input :=
  List.dropWhile_suffix _

/-- `getline` returns a later position of the input. -/
theorem getline_suffix (input : List Char) : getline input <:+ input :=
  (List.drop_suffix _ _).trans (List.dropWhile_suffix _)

/-- `SkipEmptyLinesAndComments` returns a later position of the input. -/
theorem Skip_suffix (s s2 : Lexer) (h : SkipEmptyLinesAndComments s = .ok s2) :
    s2.input_ <:+ s.input_ := by
  induction s using SkipEmptyLinesAndComments.induct with
  | case1 s hd ih =>
    rw [Skip_blank s hd] at h
    exact (ih h).trans ((List.tail_suffix _).trans (SkipSpaces_suffix _))
  | case2 s hd1 hd ih =>
    rw [Skip_comment s hd] at h
    exact (ih h).trans ((getline_suffix _).trans (SkipSpaces_suffix _))
  | case3 s hd1 hd hodd =>
    rw [Skip_content s hd1 hd] at h
    simp only [hodd, if_true] at h
    cases h
  | case4 s hd1 hd hodd =>
    rw [Skip_content s hd1 hd] at h
    simp only [hodd, if_false] at h
    cases h
    exact SkipSpaces_suffix _

/-- What `SkipEmptyLinesAndComments` measures on an input without `#` that is
not spaces only: the level is not negative, the owed indentation is the change
of level, and at the end of input the level is `0`. -/
theorem Skip_closing (s s2 : Lexer) (h : SkipEmptyLinesAndComments s = .ok s2)
    (hR : noSpacesAfterNewline s.input_) (hQ : notOnlySpaces s.input_)
    (hh : '#' ∉ s.input_) :
    0 ≤ s2.current_indent_ ∧
      s2.difference_previous_current_indents_ = s2.current_indent_ - s.current_indent_ ∧
      (s2.input_ = [] → s2.current_indent_ = 0) := by
  induction s using SkipEmptyLinesAndComments.induct with
  | case1 s hd ih =>
    rw [Skip_blank s hd] at h
    cases hsp : SkipSpaces s.input_ with
    | nil => simp [hsp] at hd
    | cons c rest =>
      have hc : c = '\n' := by simpa [hsp] using hd
      subst hc
      have hsuf : rest <:+ s.input_ := by
        have := SkipSpaces_suffix s.input_
        rw [hsp] at this
        exact (List.suffix_cons _ _).trans this
      simp only [hsp, List.tail_cons] at ih h
      exact ih h (noSpacesAfterNewline_suffix _ _ hR hsuf)
        (notOnlySpaces_after_newline _ _ hR hsp) (fun hx => hh (hsuf.subset hx))
  | case2 s hd1 hd ih =>
    exfalso
    apply hh
    apply (SkipSpaces_suffix s.input_).subset
    cases hsp : SkipSpaces s.input_ with
    | nil => simp [hsp] at hd
    | cons c rest =>
      have hc : c = '#' := by simpa [hsp] using hd
      simp [hc]
  | case3 s hd1 hd hodd =>
    rw [Skip_content s hd1 hd] at h
    simp only [hodd, if_true] at h
    cases h
  | case4 s hd1 hd hodd =>
    rw [Skip_content s hd1 hd] at h
    simp only [hodd, if_false] at h
    cases h
    refine ⟨Int.natCast_nonneg _, rfl, ?_⟩
    intro he
    simp only at he
    have ha := spaces_append s.input_
    rw [he, List.append_nil] at ha
    have := hQ _ ha
    show ((_ / 2 : Nat) : Int) = 0
    rw [this]
    rfl

/-- `ParseNumber` returns a later position of the input. -/
theorem ParseNumber_suffix (T : Tables) (input r2 : List Char) (t : Token)
    (h : ParseNumber T input = .ok (t, r2)) : r2 <:+ input := by
  have hl : input.dropWhile Char.isDigit <:+ input := List.dropWhile_suffix _
  unfold ParseNumber at h
  split at h
  · cases h
  · split at h
    · cases h
    · split at h
      · simp only at h
        split at h
        · cases h
        · cases h
          exact List.nil_suffix
      · next c2 rest hd =>
        rw [hd] at hl
        split at h
        · cases h
        · simp only at h
          split at h
          · cases h
          · cases h
            exact hl

/-- The loop of `ParseStringConstant` returns a later position of the input. -/
theorem loop_suffix (q : Char) : ∀ (n : Nat) (b str r2 : List Char) (t : Token), b.length ≤ n →
    ParseStringConstant.loop q b str = .ok (t, r2) → r2 <:+ b := by
  intro n
  induction n with
  | zero =>
    intro b str r2 t hb h
    have : b = [] := List.length_eq_zero.mp (Nat.le_zero.mp hb)
    subst this
    simp [ParseStringConstant.loop] at h
  | succ k ih =>
    intro b str r2 t hb h
    match b, hb, h with
    | [], _, h => simp [ParseStringConstant.loop] at h
    | c :: b2, hb, h =>
      rw [loop_cons] at h
      simp only [List.length_cons] at hb
      split at h
      · exact (ih b2 _ r2 t (by omega) h).trans (List.suffix_cons _ _)
      · split at h
        · split at h
          · cases h
          · next e b3 =>
            simp only [List.length_cons] at hb
            exact (ih b3 _ r2 t (by omega) h).trans
              ((List.suffix_cons _ _).trans (List.suffix_cons _ _))
        · cases h
          exact List.suffix_cons _ _

/-- `ParseStringConstant` returns a later position of the input. -/
theorem ParseStringConstant_suffix (input r2 : List Char) (t : Token)
    (h : ParseStringConstant input = .ok (t, r2)) : r2 <:+ input := by
  unfold ParseStringConstant at h
  split at h
  · cases h
  · next q rest =>
    split at h
    · cases h
    · exact (loop_suffix q rest.length rest [] r2 t (Nat.le_refl _) h).trans
        (List.suffix_cons _ _)

/-- `ParseName` returns a later position of the input. -/
theorem ParseName_suffix (input r2 : List Char) (t : Token)
    (h : ParseName input = .ok (t, r2)) : r2 <:+ input := by
  unfold ParseName at h
  split at h
  · cases h
  · next c rest =>
    have hl : rest.dropWhile isNameChar <:+ c :: rest :=
      (List.dropWhile_suffix _).trans (List.suffix_cons _ _)
    split at h
    · cases h
    · simp only at h
      split at h
      · cases h
        exact hl
      · cases h
        exact hl

/-- `ParseComparisonOperator` returns a later position of the input. -/
theorem ParseComparisonOperator_suffix (input r2 : List Char) (t : Token)
    (h : ParseComparisonOperator input = .ok (t, r2)) : r2 <:+ input := by
  unfold ParseComparisonOperator at h
  split at h
  · next a b rest =>
    have hl : rest <:+ a :: b :: rest := (List.suffix_cons _ _).trans (List.suffix_cons _ _)
    split_ifs at h <;> cases h <;> exact hl
  · cases h

/-- The dispatch of `NextToken` on an input without `#` and without the byte
`0xFF`: the indentation counters stay, the position moves on, and the token is
`Eof` at the end of input after a line-boundary token, `Newline` at the end of
input after a content token or at a newline, and a content token otherwise. -/
theorem scan_plain (T : Tables) (s s1 : Lexer) (t : Token) (h : scan T s = .ok (t, s1))
    (hh : '#' ∉ s.input_) (hf : '\xff' ∉ s.input_) :
    s1.current_indent_ = s.current_indent_ ∧
      s1.difference_previous_current_indents_ = s.difference_previous_current_indents_ ∧
      s1.current_token_ = t ∧ s1.input_ <:+ s.input_ ∧
      ((t = .Eof ∧ SkipSpaces s.input_ = [] ∧ rank s.current_token_ = 1) ∨
        (t = .Newline ∧ s1.input_ = []) ∨
        (t = .Newline ∧ SkipSpaces s.input_ = '\n' :: s1.input_) ∨ rank t = 2) := by
  cases hsp : SkipSpaces s.input_ with
  | nil =>
    unfold scan at h
    simp only [hsp] at h
    split at h
    · next hb =>
      cases h
      refine ⟨rfl, rfl, rfl, List.nil_suffix, Or.inl ⟨rfl, rfl, ?_⟩⟩
      rcases hb with hb | hb | hb <;> rw [hb] <;> rfl
    · cases h
      exact ⟨rfl, rfl, rfl, List.nil_suffix, Or.inr (Or.inl ⟨rfl, rfl⟩)⟩
  | cons c r =>
    have hsuf : c :: r <:+ s.input_ := by
      have := SkipSpaces_suffix s.input_
      rwa [hsp] at this
    have hr : r <:+ s.input_ := (List.suffix_cons _ _).trans hsuf
    by_cases hn : c = '\n'
    · subst hn
      unfold scan at h
      simp only [hsp] at h
      rw [if_neg (by decide), if_neg (by decide), if_pos trivial] at h
      cases h
      exact ⟨rfl, rfl, rfl, hr, Or.inr (Or.inr (Or.inl ⟨rfl, rfl⟩))⟩
    have hhash : c ≠ '#' := by
      intro hx
      apply hh
      apply hsuf.subset
      simp [hx]
    have hbyte : c ≠ '\xff' := by
      intro hx
      apply hf
      apply hsuf.subset
      simp [hx]
    have hc : c ≠ ' ' := by
      have := SkipSpaces_head s.input_
      rw [hsp] at this
      simpa using this
    have hsame : scan T s = scan T ⟨c :: r, s.current_token_, s.current_indent_,
        s.difference_previous_current_indents_⟩ := by
      have h2 : SkipSpaces (c :: r) = c :: r := SkipSpaces_id _ (by simpa using hc)
      have hset : ∀ X, setCurrent s X = setCurrent ⟨c :: r, s.current_token_, s.current_indent_,
          s.difference_previous_current_indents_⟩ X := by
        intro X
        rcases X with _ | ⟨_, _⟩ <;> rfl
      simp only [scan, hsp, h2, hset]
    rw [hsame] at h
    obtain ⟨h1, _, h3, h4, h5⟩ := scan_content T c r _ _ _ hc hn hhash hbyte t s1 h
    refine ⟨h4, h5, h3, ?_, Or.inr (Or.inr (Or.inr h1))⟩
    have hsp2 : SkipSpaces (c :: r) = c :: r := SkipSpaces_id _ (by simpa using hc)
    unfold scan at h
    simp only [hsp2, hn, hhash, hbyte, if_false] at h
    repeat' split at h
    all_goals first
      | (cases h; done)
      | (cases h; exact hr)
      | (obtain ⟨hr2, _⟩ := setCurrent_ok _ _ _ _ h
         first
           | exact (ParseNumber_suffix T _ _ _ hr2).trans hsuf
           | exact (ParseStringConstant_suffix _ _ _ hr2).trans hsuf
           | exact (ParseName_suffix _ _ _ hr2).trans hsuf
           | exact (ParseComparisonOperator_suffix _ _ _ hr2).trans hsuf)

/-- A token of rank 1 is `Newline`, `Indent` or `Dedent`. -/
theorem rank_one (t : Token) (h : rank t = 1) : t = .Newline ∨ t = .Indent ∨ t = .Dedent := by
  cases t <;> simp [rank] at h ⊢

/-- The part of `NextToken` after indentation measurement, on an input without
`#`, without the byte `0xFF` and without a final line of spaces: the level
reached changes by the token returned. -/
theorem afterIndent_closing (T : Tables) (s s1 : Lexer) (t : Token) (hm : Measured s)
    (h : afterIndent T s = .ok (t, s1)) : Closing s1 ∧ reached s1 = reached s + shift t := by
  have hrank : s.difference_previous_current_indents_ ≠ 0 → rank s.current_token_ = 1 := by
    intro hd
    have h2 : rank s.current_token_ ≠ 2 := fun hx => hd (hm.content hx)
    have h0 := rank_pos _ hm.live
    have h3 : rank s.current_token_ ≤ 2 := by cases s.current_token_ <;> simp [rank]
    omega
  unfold afterIndent at h
  split at h
  · next hd =>
    have hb := hm.boundary (hrank hd)
    unfold ParseIndentOrDedent at h
    split at h
    · cases h
    · next t2 s2 hp =>
      split at hp
      · next hpos =>
        cases hp
        cases h
        refine ⟨⟨hm.spaces, hm.hash, hm.level, ?_, ?_, fun _ => hb, ?_, ?_, hm.byte⟩, ?_⟩
        · show s.difference_previous_current_indents_ - 1 ≤ s.current_indent_
          have := hm.owed
          omega
        · intro hx
          cases hx
        · intro hx
          simp [rank] at hx
        · intro hx
          cases hx
        · show s.current_indent_ - (s.difference_previous_current_indents_ - 1) =
            s.current_indent_ - s.difference_previous_current_indents_ + 1
          omega
      · split at hp
        · next hneg =>
          cases hp
          cases h
          refine ⟨⟨hm.spaces, hm.hash, hm.level, ?_, ?_, fun _ => hb, ?_, ?_, hm.byte⟩, ?_⟩
          · show s.difference_previous_current_indents_ + 1 ≤ s.current_indent_
            have := hm.level
            omega
          · intro hx
            cases hx
          · intro hx
            simp [rank] at hx
          · intro hx
            cases hx
          · show s.current_indent_ - (s.difference_previous_current_indents_ + 1) =
              s.current_indent_ - s.difference_previous_current_indents_ + -1
            omega
        · cases hp
  · next hd =>
    have hd0 : s.difference_previous_current_indents_ = 0 := by simpa using hd
    obtain ⟨h1, h2, h3, h4, h5⟩ := scan_plain T s s1 t h hm.hash hm.byte
    have hbyte : '\xff' ∉ s1.input_ := fun hx => hm.byte (h4.subset hx)
    have hsp := noSpacesAfterNewline_suffix _ _ hm.spaces h4
    have hhash : '#' ∉ s1.input_ := fun hx => hm.hash (h4.subset hx)
    have hreach : reached s1 = reached s := by
      simp only [reached, h1, h2]
    rcases h5 with ⟨ht, hnil, hr⟩ | ⟨ht, hnil⟩ | ⟨ht, hnl⟩ | hr
    · subst ht
      obtain ⟨hb1, hb2⟩ := hm.boundary hr
      have hin : s.input_ = [] := by
        rw [← SkipSpaces_id _ hb1]
        exact hnil
      refine ⟨⟨hsp, hhash, by rw [h1]; exact hm.level, by rw [h1, h2]; exact hm.owed, ?_, ?_, ?_,
        ?_, hbyte⟩, by simp [hreach, shift]⟩
      · intro hx
        rw [h3] at hx
        cases hx
      · intro hx
        rw [h3] at hx
        rcases hx with hx | hx <;> cases hx
      · intro hx
        rw [h3] at hx
        simp [rank] at hx
      · intro _
        rw [hreach]
        simp only [reached, hd0, hb2 hin]
        rfl
    · subst ht
      refine ⟨⟨hsp, hhash, by rw [h1]; exact hm.level, by rw [h1, h2]; exact hm.owed, ?_, ?_, ?_,
        ?_, hbyte⟩, by simp [hreach, shift]⟩
      · intro _
        refine ⟨by rw [h2]; exact hd0, ?_⟩
        rw [hnil]
        intro n hn
        cases n with
        | zero => rfl
        | succ n => simp [List.replicate_succ] at hn
      · intro hx
        rw [h3] at hx
        rcases hx with hx | hx <;> cases hx
      · intro hx
        rw [h3] at hx
        simp [rank] at hx
      · intro hx
        rw [h3] at hx
        cases hx
    · subst ht
      refine ⟨⟨hsp, hhash, by rw [h1]; exact hm.level, by rw [h1, h2]; exact hm.owed, ?_, ?_, ?_,
        ?_, hbyte⟩, by simp [hreach, shift]⟩
      · intro _
        exact ⟨by rw [h2]; exact hd0, notOnlySpaces_after_newline _ _ hm.spaces hnl⟩
      · intro hx
        rw [h3] at hx
        rcases hx with hx | hx <;> cases hx
      · intro hx
        rw [h3] at hx
        simp [rank] at hx
      · intro hx
        rw [h3] at hx
        cases hx
    · obtain ⟨r1, r2, r3, r4⟩ := rank_two t hr
      have hs : shift t = 0 := by
        cases t <;> simp [shift] at r2 r3 ⊢
      refine ⟨⟨hsp, hhash, by rw [h1]; exact hm.level, by rw [h1, h2]; exact hm.owed, ?_, ?_, ?_,
        ?_, hbyte⟩, by simp [hreach, hs]⟩
      · intro hx
        rw [h3] at hx
        exact absurd hx r1
      · intro hx
        rw [h3] at hx
        rcases hx with hx | hx
        · exact absurd hx r2
        · exact absurd hx r3
      · intro _
        rw [h2]
        exact hd0
      · intro hx
        rw [h3] at hx
        exact absurd hx r4

/-- One call of `NextToken` on an input without `#`, without the byte `0xFF` and
without a final line of spaces: the level reached changes by the token returned. -/
theorem NextToken_closing (T : Tables) (s s1 : Lexer) (t : Token) (hc : Closing s)
    (h : NextToken T s = .ok (t, s1)) : Closing s1 ∧ reached s1 = reached s + shift t := by
  rw [NextToken_eq] at h
  split at h
  · cases h
    exact ⟨hc, by simp [shift]⟩
  · next he =>
    split at h
    · next hn =>
      split at h
      · cases h
      · next s2 hs2 =>
        obtain ⟨hd0, hQ⟩ := hc.newline hn
        obtain ⟨k1, k2, k3⟩ := Skip_closing s s2 hs2 hc.spaces hQ hc.hash
        have hsuf := Skip_suffix s s2 hs2
        have hcur := Skip_current s s2 hs2
        obtain ⟨g1, _, _⟩ := Skip_head s s2 hs2
        have hm : Measured s2 := by
          refine ⟨noSpacesAfterNewline_suffix _ _ hc.spaces hsuf,
            fun hx => hc.hash (hsuf.subset hx), k1, ?_, fun _ => ⟨g1, k3⟩, ?_, ?_,
            fun hx => hc.byte (hsuf.subset hx)⟩
          · rw [k2]
            have := hc.level
            omega
          · intro hx
            rw [hcur, hn] at hx
            simp [rank] at hx
          · rw [hcur]
            exact he
        obtain ⟨r1, r2⟩ := afterIndent_closing T s2 s1 t hm h
        refine ⟨r1, ?_⟩
        rw [r2]
        simp only [reached, k2, hd0]
        omega
    · next hn =>
      have hm : Measured s := by
        refine ⟨hc.spaces, hc.hash, hc.level, hc.owed, ?_, hc.content, he, hc.byte⟩
        intro hr
        rcases rank_one _ hr with hx | hx | hx
        · exact absurd hx hn
        · exact hc.boundary (Or.inl hx)
        · exact hc.boundary (Or.inr hx)
      exact afterIndent_closing T s s1 t hm h

/-- The lexer the constructor returns on an input without `#`, without the byte
`0xFF` and without a final line of spaces. -/
theorem new_closing (T : Tables) (input : List Char) (s0 : Lexer) (hh : '#' ∉ input)
    (hf : '\xff' ∉ input) (hend : ¬ endsWithIndentOnly input)
    (h : Lexer.new T input = .ok s0) :
    Closing s0 ∧ reached s0 = shift s0.current_token_ := by
  have hhead : input.head? ≠ some '#' := by
    intro hx
    apply hh
    cases input with
    | nil => cases hx
    | cons c r =>
      simp only [List.head?_cons, Option.some.injEq] at hx
      simp [hx]
  unfold Lexer.new at h
  rw [skipLeadingComments_of_ne input hhead] at h
  split at h
  · cases h
  · next t s hs =>
    cases h
    have hcur := NextToken_current T _ s t hs
    have hsame : ({ s with current_token_ := t } : Lexer) = s := by
      cases s
      simp only at hcur
      simp [hcur]
    rw [hsame]
    have h0 : Closing ⟨input, .Newline, 0, 0⟩ := by
      refine ⟨?_, hh, Int.le_refl _, Int.le_refl _, fun _ => ⟨rfl, ?_⟩, ?_, ?_, ?_, hf⟩
      · intro pre n hpre hl
        cases n with
        | zero => rfl
        | succ n => exact absurd ⟨pre, n, hpre, Or.inr hl⟩ hend
      · intro n hn
        cases n with
        | zero => rfl
        | succ n => exact absurd ⟨[], n, by simpa using hn, Or.inl rfl⟩ hend
      · intro hx
        rcases hx with hx | hx <;> cases hx
      · intro hx
        simp [rank] at hx
      · intro hx
        cases hx
    obtain ⟨r1, r2⟩ := NextToken_closing T _ s t h0 hs
    refine ⟨r1, ?_⟩
    rw [r2, hcur]
    simp [reached]

/-- The tokens of the consumer loop, on an input without `#`, without the byte
`0xFF` and without a final line of spaces: they bring the level reached back to `0`, and never below. -/
theorem drain_closing (T : Tables) : ∀ (n : Nat) (s : Lexer) (ts : List Token),
    Closing s → budget s ≤ n → drain T n s = .ok ts →
      balance ts = shift s.current_token_ - reached s ∧
        ∀ k, 0 < k → shift s.current_token_ - reached s ≤ balance (ts.take k) := by
  intro n
  induction n with
  | zero =>
    intro s ts hc hb h
    have he := budget_zero s (by omega)
    simp only [drain] at h
    cases h
    have hr := hc.eof he
    refine ⟨by rw [balance_cons, balance_nil, hr]; omega, ?_⟩
    intro k hk
    obtain ⟨j, rfl⟩ : ∃ j, k = j + 1 := ⟨k - 1, by omega⟩
    simp only [List.take_succ_cons, List.take_nil, balance_cons, balance_nil, hr]
    omega
  | succ n ih =>
    intro s ts hc hb h
    simp only [drain] at h
    split at h
    · next he =>
      cases h
      have hr := hc.eof he
      rw [he]
      refine ⟨by rw [balance_cons, balance_nil, hr]; omega, ?_⟩
      intro k hk
      obtain ⟨j, rfl⟩ : ∃ j, k = j + 1 := ⟨k - 1, by omega⟩
      simp only [List.take_succ_cons, List.take_nil, balance_cons, balance_nil, hr]
      omega
    · next he =>
      split at h
      · cases h
      · next t s2 hs =>
        split at h
        · cases h
        · next ts2 hd =>
          cases h
          obtain ⟨r1, r2⟩ := NextToken_closing T s s2 t hc hs
          have hcur := NextToken_current T s s2 t hs
          have hbud := NextToken_budget T s s2 t hs he
          obtain ⟨i1, i2⟩ := ih s2 ts2 r1 (by omega) hd
          rw [hcur, r2] at i1 i2
          have hnn : 0 ≤ reached s := by
            have := hc.owed
            simp only [reached]
            omega
          refine ⟨by rw [balance_cons, i1]; omega, ?_⟩
          intro k hk
          obtain ⟨j, rfl⟩ : ∃ j, k = j + 1 := ⟨k - 1, by omega⟩
          rw [List.take_succ_cons, balance_cons]
          cases j with
          | zero =>
            simp only [List.take_zero, balance_nil]
            omega
          | succ j =>
            have := i2 (j + 1) (by omega)
            omega

/-- The last character that is no space, of two texts in a row. -/
theorem lastNonSpace_append (p b : List Char) :
    lastNonSpace (p ++ b) =
      match lastNonSpace b with
      | some d => some d
      | none => lastNonSpace p := by
  induction p with
  | nil =>
    rw [List.nil_append]
    cases lastNonSpace b <;> rfl
  | cons x p ih =>
    rw [List.cons_append, lastNonSpace, ih]
    cases lastNonSpace b <;> rfl

/-- A text has no last character other than a space exactly when it is spaces only. -/
theorem lastNonSpace_none (b : List Char) : lastNonSpace b = none ↔ ∀ y ∈ b, y = ' ' := by
  induction b with
  | nil => simp [lastNonSpace]
  | cons c r ih =>
    simp only [lastNonSpace, List.mem_cons, forall_eq_or_imp]
    cases h : lastNonSpace r with
    | none =>
      have := ih.mp h
      by_cases hc : c = ' '
      · simpa [hc] using this
      · simp [hc]
    | some d =>
      have : ¬ ∀ y ∈ r, y = ' ' := fun hx => by
        rw [ih.mpr hx] at h
        cases h
      simp [this]

/-- A text that ends with content is not spaces only. -/
theorem endsWithContent_not_spaces (a : List Char) (h : endsWithContent a = true) :
    ¬ ∀ y ∈ a, y = ' ' := by
  intro hx
  rw [endsWithContent, (lastNonSpace_none a).mpr hx] at h
  cases h

/-- A later position of a text that ends with content: the rest ends with
content or is spaces only. -/
theorem endsWithContent_suffix (a b : List Char) (h : endsWithContent a = true)
    (hb : b <:+ a) : endsWithContent b = true ∨ ∀ y ∈ b, y = ' ' := by
  obtain ⟨p, rfl⟩ := hb
  cases hl : lastNonSpace b with
  | none => exact Or.inr ((lastNonSpace_none b).mp hl)
  | some d =>
    left
    rw [endsWithContent, lastNonSpace_append, hl] at h
    rw [endsWithContent, hl]
    exact h

/-- In a text that ends with content, what follows a newline ends with content. -/
theorem endsWithContent_after_newline (p r : List Char)
    (h : endsWithContent (p ++ '\n' :: r) = true) : endsWithContent r = true := by
  rw [endsWithContent, lastNonSpace_append, lastNonSpace] at h
  rw [endsWithContent]
  cases hl : lastNonSpace r with
  | none =>
    rw [hl] at h
    simp at h
  | some d =>
    rw [hl] at h
    exact h

/-- In a text that ends with content, what follows a byte `0xFF` ends with content. -/
theorem endsWithContent_after_byte (p r : List Char)
    (h : endsWithContent (p ++ '\xff' :: r) = true) : endsWithContent r = true := by
  rw [endsWithContent, lastNonSpace_append, lastNonSpace] at h
  rw [endsWithContent]
  cases hl : lastNonSpace r with
  | none =>
    rw [hl] at h
    simp at h
  | some d =>
    rw [hl] at h
    exact h

/-- A text that ends with content still does after its leading spaces. -/
theorem endsWithContent_SkipSpaces (a : List Char) (h : endsWithContent a = true) :
    endsWithContent (SkipSpaces a) = true := by
  rcases endsWithContent_suffix a _ h (SkipSpaces_suffix a) with h1 | h1
  · exact h1
  · exfalso
    apply endsWithContent_not_spaces a h
    intro y hy
    rw [spaces_append a] at hy
    rcases List.mem_append.mp hy with hy | hy
    · exact List.eq_of_mem_replicate hy
    · exact h1 y hy

/-- A loop that stops at a newline reads the same characters when a newline is
added at the end of the input. -/
theorem while_snoc (p : Char → Bool) (hp : p '\n' = false) (x : List Char) :
    (x ++ ['\n']).takeWhile p = x.takeWhile p ∧
      (x ++ ['\n']).dropWhile p = x.dropWhile p ++ ['\n'] := by
  induction x with
  | nil => simp [hp]
  | cons c r ih =>
    by_cases hc : p c = true
    · simp [List.takeWhile_cons, List.dropWhile_cons, hc, ih.1, ih.2]
    · simp [List.takeWhile_cons, List.dropWhile_cons, hc]

/-- A loop that stops inside the text reads the same characters whatever
follows the text. -/
theorem while_append (p : Char → Bool) (x y : List Char) (h : ¬ ∀ c ∈ x, p c = true) :
    (x ++ y).takeWhile p = x.takeWhile p ∧ (x ++ y).dropWhile p = x.dropWhile p ++ y := by
  induction x with
  | nil => simp at h
  | cons c r ih =>
    by_cases hc : p c = true
    · have hr : ¬ ∀ c ∈ r, p c = true := by
        intro hx
        apply h
        intro z hz
        rcases List.mem_cons.mp hz with rfl | hz
        · exact hc
        · exact hx z hz
      simp [List.takeWhile_cons, List.dropWhile_cons, hc, (ih hr).1, (ih hr).2]
    · simp [List.takeWhile_cons, List.dropWhile_cons, hc]

/-- The leading spaces of a text that ends with content are the same when a
newline is added at the end. -/
theorem SkipSpaces_snoc (a : List Char) (h : endsWithContent a = true) :
    (a ++ ['\n']).takeWhile (fun c => c == ' ') = a.takeWhile (fun c => c == ' ') ∧
      SkipSpaces (a ++ ['\n']) = SkipSpaces a ++ ['\n'] := by
  apply while_append
  intro hx
  apply endsWithContent_not_spaces a h
  intro y hy
  simpa using hx y hy

/-- The first character after a newline is added at the end. -/
theorem head_snoc (r : List Char) (c : Char) (hc : c ≠ '\n') :
    (r ++ ['\n']).head? = some c ↔ r.head? = some c := by
  cases r with
  | nil =>
    simp only [List.nil_append, List.head?_cons, Option.some.injEq, List.head?_nil]
    constructor
    · intro h
      exact absurd h.symm hc
    · intro h
      cases h
  | cons x r => simp

/-- The call `getline` with a newline added at the end of the input: the line
read is the same, or the input holds no newline and all of it is read. -/
theorem getline_snoc (x : List Char) :
    (getline (x ++ ['\n']) = getline x ++ ['\n'] ∧ ∃ l, x = l ++ '\n' :: getline x) ∨
      (getline (x ++ ['\n']) = [] ∧ getline x = []) := by
  induction x with
  | nil =>
    right
    simp [getline]
  | cons c r ih =>
    by_cases hc : c = '\n'
    · subst hc
      left
      exact ⟨by simp [getline], [], by simp [getline]⟩
    · have e1 : getline (c :: r ++ ['\n']) = getline (r ++ ['\n']) := by
        simp [getline, List.dropWhile_cons, hc]
      have e2 : getline (c :: r) = getline r := by
        simp [getline, List.dropWhile_cons, hc]
      rw [e1, e2]
      rcases ih with ⟨h1, l, h2⟩ | ⟨h1, h2⟩
      · left
        refine ⟨h1, c :: l, ?_⟩
        rw [List.cons_append, ← h2]
      · right
        exact ⟨h1, h2⟩

/-- `ParseNumber` with a newline added at the end of the input. -/
theorem ParseNumber_snoc (T : Tables) (c : Char) (r : List Char) :
    ParseNumber T (c :: r ++ ['\n']) = withNewline (ParseNumber T (c :: r)) := by
  obtain ⟨h1, h2⟩ := while_snoc Char.isDigit (by decide) (c :: r)
  unfold ParseNumber
  by_cases hc : c.isDigit = true
  · simp only [List.cons_append, hc, Bool.not_true, Bool.false_eq_true, if_false]
    rw [← List.cons_append, h1, h2]
    cases hd : (c :: r).dropWhile Char.isDigit with
    | nil =>
      simp only [List.nil_append]
      rw [if_neg (by simp)]
      cases stoi ((c :: r).takeWhile Char.isDigit) <;> rfl
    | cons c2 rest =>
      simp only [List.cons_append]
      by_cases hterm : c2 ≠ ' ' ∧ c2 ≠ '\n' ∧ c2 ≠ '\xff' ∧ T.special_symbols c2 = false
      · rw [if_pos hterm, if_pos hterm]
        rfl
      · rw [if_neg hterm, if_neg hterm]
        cases stoi ((c :: r).takeWhile Char.isDigit) <;> rfl
  · simp [hc, withNewline]

/-- The loop of `ParseStringConstant` with a newline added at the end of the input. -/
theorem loop_snoc (q : Char) (hq : q ≠ '\n') : ∀ (n : Nat) (b str : List Char), b.length ≤ n →
    ParseStringConstant.loop q (b ++ ['\n']) str =
      withNewline (ParseStringConstant.loop q b str) := by
  intro n
  induction n with
  | zero =>
    intro b str hb
    have : b = [] := List.length_eq_zero.mp (Nat.le_zero.mp hb)
    subst this
    have h1 : ('\n' : Char) ≠ q ∧ ('\n' : Char) ≠ '\\' := ⟨fun e => hq e.symm, by decide⟩
    simp [ParseStringConstant.loop, withNewline, h1]
  | succ k ih =>
    intro b str hb
    match b, hb with
    | [], _ =>
      have h1 : ('\n' : Char) ≠ q ∧ ('\n' : Char) ≠ '\\' := ⟨fun e => hq e.symm, by decide⟩
      simp [ParseStringConstant.loop, withNewline, h1]
    | c :: b2, hb =>
      simp only [List.length_cons] at hb
      rw [List.cons_append, loop_cons, loop_cons]
      by_cases h1 : c ≠ q ∧ c ≠ '\\'
      · rw [if_pos h1, if_pos h1]
        exact ih b2 _ (by omega)
      · rw [if_neg h1, if_neg h1]
        by_cases h2 : c = '\\'
        · rw [if_pos h2, if_pos h2]
          match b2, hb with
          | [], _ =>
            simp [ParseStringConstant.loop, withNewline]
          | e :: b3, hb =>
            simp only [List.length_cons] at hb
            simp only [List.cons_append]
            exact ih b3 _ (by omega)
        · rw [if_neg h2, if_neg h2]
          rfl

/-- `ParseStringConstant` with a newline added at the end of the input. -/
theorem ParseStringConstant_snoc (c : Char) (r : List Char) :
    ParseStringConstant (c :: r ++ ['\n']) = withNewline (ParseStringConstant (c :: r)) := by
  simp only [ParseStringConstant, List.cons_append]
  by_cases hq : c ≠ '\'' ∧ c ≠ '\"'
  · rw [if_pos hq, if_pos hq]
    rfl
  · rw [if_neg hq, if_neg hq]
    have hq2 : c ≠ '\n' := by
      intro hx
      apply hq
      subst hx
      decide
    exact loop_snoc c hq2 r.length r [] (Nat.le_refl _)

/-- `ParseName` with a newline added at the end of the input. -/
theorem ParseName_snoc (c : Char) (r : List Char) :
    ParseName (c :: r ++ ['\n']) = withNewline (ParseName (c :: r)) := by
  obtain ⟨h1, h2⟩ := while_snoc isNameChar (by decide) r
  simp only [ParseName, List.cons_append, h1, h2]
  by_cases hc : (!c.isAlpha) = true ∧ c ≠ '_'
  · rw [if_pos hc, if_pos hc]
    rfl
  · rw [if_neg hc, if_neg hc]
    cases keyword_to_token (c :: r.takeWhile isNameChar) <;> rfl

/-- `ParseComparisonOperator` with a newline added at the end of the input. -/
theorem ParseComparisonOperator_snoc (c : Char) (r : List Char) :
    ParseComparisonOperator (c :: r ++ ['\n']) =
      withNewline (ParseComparisonOperator (c :: r)) := by
  cases r with
  | nil => simp [ParseComparisonOperator, withNewline]
  | cons b rest =>
    simp only [ParseComparisonOperator, List.cons_append]
    split_ifs <;> rfl

/-- Indentation measurement with a newline added at the end of an input that
ends with content: the same error, the same lexer, or the same lexer but for
the added newline. -/
theorem Skip_ends (t : Token) (m d : Int) : ∀ (n : Nat) (a : List Char), a.length ≤ n →
    endsWithContent a = true →
      (∃ e, SkipEmptyLinesAndComments ⟨a, t, m, d⟩ = .error e ∧
        SkipEmptyLinesAndComments ⟨a ++ ['\n'], t, m, d⟩ = .error e) ∨
      (∃ s1, SkipEmptyLinesAndComments ⟨a, t, m, d⟩ = .ok s1 ∧
        SkipEmptyLinesAndComments ⟨a ++ ['\n'], t, m, d⟩ = .ok s1) ∨
      (∃ a1 m1 d1, SkipEmptyLinesAndComments ⟨a, t, m, d⟩ = .ok ⟨a1, t, m1, d1⟩ ∧
        SkipEmptyLinesAndComments ⟨a ++ ['\n'], t, m, d⟩ = .ok ⟨a1 ++ ['\n'], t, m1, d1⟩ ∧
        endsWithContent a1 = true) := by
  intro n
  induction n with
  | zero =>
    intro a ha h
    have : a = [] := List.length_eq_zero.mp (Nat.le_zero.mp ha)
    subst this
    cases h
  | succ n ih =>
    intro a ha h
    obtain ⟨hs1, hs2⟩ := SkipSpaces_snoc a h
    have hss := endsWithContent_SkipSpaces a h
    have hlen := (SkipSpaces_suffix a).length_le
    cases hsp : SkipSpaces a with
    | nil =>
      rw [hsp] at hss
      cases hss
    | cons c r =>
      rw [hsp] at hss hlen hs2
      simp only [List.length_cons] at hlen
      by_cases hn : c = '\n'
      · subst hn
        have e1 := Skip_blank ⟨a, t, m, d⟩ (by simp [hsp])
        have e2 := Skip_blank ⟨a ++ ['\n'], t, m, d⟩ (by simp [hs2])
        simp only [hsp, hs2, List.tail_cons, List.cons_append] at e1 e2
        rw [e1, e2]
        exact ih r (by omega) (endsWithContent_after_newline [] r hss)
      by_cases hh : c = '#'
      · subst hh
        have e1 := Skip_comment ⟨a, t, m, d⟩ (by simp [hsp])
        have e2 := Skip_comment ⟨a ++ ['\n'], t, m, d⟩ (by simp [hs2])
        have g1 : getline ('#' :: r) = getline r := by
          simp [getline, List.dropWhile_cons]
        have g2 : getline ('#' :: (r ++ ['\n'])) = getline (r ++ ['\n']) := by
          simp [getline, List.dropWhile_cons]
        simp only [hsp, hs2, List.cons_append, g1, g2] at e1 e2
        rw [e1, e2]
        rcases getline_snoc r with ⟨h1, l, h2⟩ | ⟨h1, h2⟩
        · rw [h1]
          have hl := getline_length_le r
          refine ih (getline r) (by omega) ?_
          rw [h2, ← List.cons_append] at hss
          exact endsWithContent_after_newline _ _ hss
        · rw [h1, h2]
          cases hres : SkipEmptyLinesAndComments ⟨[], t, m, d⟩ with
          | error e => exact Or.inl ⟨e, rfl, rfl⟩
          | ok s1 => exact Or.inr (Or.inl ⟨s1, rfl, rfl⟩)
      · have e1 := Skip_content ⟨a, t, m, d⟩ (by simp [hsp, hn]) (by simp [hsp, hh])
        have e2 := Skip_content ⟨a ++ ['\n'], t, m, d⟩ (by simp [hs2, hn]) (by simp [hs2, hh])
        simp only [hsp, hs1, hs2, List.cons_append] at e1 e2
        rw [e1, e2]
        by_cases hodd : (a.takeWhile (fun c => c == ' ')).length % 2 = 1
        · simp only [if_pos hodd]
          exact Or.inl ⟨_, rfl, rfl⟩
        · simp only [if_neg hodd]
          exact Or.inr (Or.inr ⟨_, _, _, rfl, rfl, hss⟩)

/-- The two lexers of `Ends` have the same current token. -/
theorem Ends_current (s1 s2 : Lexer) (h : Ends s1 s2) :
    s1.current_token_ = s2.current_token_ := by
  rcases h with rfl | ⟨rfl, _⟩ <;> rfl

/-- Two equal results agree. -/
theorem Ends_refl (r : Except LexerError (Token × Lexer)) :
    (∃ e, r = .error e ∧ r = .error e) ∨
      ∃ tk s1 s2, r = .ok (tk, s1) ∧ r = .ok (tk, s2) ∧ Ends s1 s2 := by
  cases r with
  | error e => exact Or.inl ⟨e, rfl, rfl⟩
  | ok p => exact Or.inr ⟨p.1, p.2, p.2, rfl, rfl, Or.inl rfl⟩

/-- Recording a content token whose scan saw a newline added at the end of the input. -/
theorem setCurrent_ends (a b : List Char) (t : Token) (m : Int)
    (X : Except LexerError (Token × List Char))
    (hok : ∀ tk rest, X = .ok (tk, rest) →
      rank tk = 2 ∧ (endsWithContent rest = true ∨ ∀ y ∈ rest, y = ' ')) :
    (∃ e, setCurrent ⟨a, t, m, 0⟩ X = .error e ∧
        setCurrent ⟨b, t, m, 0⟩ (withNewline X) = .error e) ∨
      ∃ tk s1 s2, setCurrent ⟨a, t, m, 0⟩ X = .ok (tk, s1) ∧
        setCurrent ⟨b, t, m, 0⟩ (withNewline X) = .ok (tk, s2) ∧ Ends s1 s2 := by
  rcases X with e | ⟨tk, rest⟩
  · exact Or.inl ⟨e, rfl, rfl⟩
  · obtain ⟨h1, h2⟩ := hok tk rest rfl
    refine Or.inr ⟨tk, ⟨rest, tk, m, 0⟩, ⟨rest ++ ['\n'], tk, m, 0⟩, rfl, rfl, Or.inr ⟨rfl, ?_⟩⟩
    rcases h2 with h2 | h2
    · exact Or.inl h2
    · exact Or.inr ⟨h2, h1, rfl⟩

/-- The dispatch of `NextToken` with a newline added at the end of an input
that ends with content. -/
theorem scan_ends (T : Tables) (a : List Char) (t : Token) (m : Int)
    (h : endsWithContent a = true) :
    (∃ e, scan T ⟨a, t, m, 0⟩ = .error e ∧ scan T ⟨a ++ ['\n'], t, m, 0⟩ = .error e) ∨
      ∃ tk s1 s2, scan T ⟨a, t, m, 0⟩ = .ok (tk, s1) ∧
        scan T ⟨a ++ ['\n'], t, m, 0⟩ = .ok (tk, s2) ∧ Ends s1 s2 := by
  have hss := endsWithContent_SkipSpaces a h
  have ha := spaces_append a
  cases hsp : SkipSpaces a with
  | nil =>
    rw [hsp] at hss
    cases hss
  | cons c r =>
    rw [hsp] at hss ha
    have hc : c ≠ ' ' := by
      have := SkipSpaces_head a
      rw [hsp] at this
      simpa using this
    have ha2 : a ++ ['\n'] =
        List.replicate (a.takeWhile (fun c => c == ' ')).length ' ' ++ c :: (r ++ ['\n']) := by
      conv_lhs => rw [ha]
      simp
    have hrest : ∀ rest : List Char, rest <:+ c :: r →
        endsWithContent rest = true ∨ ∀ y ∈ rest, y = ' ' :=
      fun rest hr => endsWithContent_suffix _ _ hss hr
    have hr : endsWithContent r = true ∨ ∀ y ∈ r, y = ' ' := hrest r (List.suffix_cons _ _)
    have hchar : ∀ x : Char,
        (∃ e, (.ok (.Char x, ⟨r, .Char x, m, 0⟩) : Except LexerError (Token × Lexer)) =
            .error e ∧
          (.ok (.Char x, ⟨r ++ ['\n'], .Char x, m, 0⟩) : Except LexerError (Token × Lexer)) =
            .error e) ∨
        ∃ tk s1 s2, (.ok (.Char x, ⟨r, .Char x, m, 0⟩) : Except LexerError (Token × Lexer)) =
            .ok (tk, s1) ∧
          (.ok (.Char x, ⟨r ++ ['\n'], .Char x, m, 0⟩) : Except LexerError (Token × Lexer)) =
            .ok (tk, s2) ∧ Ends s1 s2 := by
      intro x
      refine Or.inr ⟨_, _, _, rfl, rfl, Or.inr ⟨rfl, ?_⟩⟩
      rcases hr with hr | hr
      · exact Or.inl hr
      · exact Or.inr ⟨hr, rfl, rfl⟩
    rw [ha2, scan_chain T _ c (r ++ ['\n']) t m 0 hc]
    conv =>
      enter [1, 1, e, 1, 1]
      rw [ha, scan_chain T _ c r t m 0 hc]
    conv =>
      enter [2, 1, tk, 1, s1, 1, s2, 1, 1]
      rw [ha, scan_chain T _ c r t m 0 hc]
    have hne : (r ++ ['\n']).head? ≠ some '=' ↔ r.head? ≠ some '=' :=
      not_congr (head_snoc r '=' (by decide))
    simp only [head_snoc r '=' (by decide), hne]
    by_cases h1 : c.isDigit = true
    · simp only [if_pos h1]
      rw [← List.cons_append, ParseNumber_snoc]
      apply setCurrent_ends
      intro tk rest hX
      exact ⟨(ParseNumber_ok T c r rest tk hX).1, hrest rest (ParseNumber_suffix T _ _ _ hX)⟩
    simp only [if_neg h1]
    by_cases h2 : c = '\'' ∨ c = '\"'
    · simp only [if_pos h2]
      rw [← List.cons_append, ParseStringConstant_snoc]
      apply setCurrent_ends
      intro tk rest hX
      exact ⟨(ParseStringConstant_ok c r rest tk hX).1,
        hrest rest (ParseStringConstant_suffix _ _ _ hX)⟩
    simp only [if_neg h2]
    by_cases h3 : c = '\n'
    · simp only [if_pos h3]
      refine Or.inr ⟨_, _, _, rfl, rfl, Or.inr ⟨rfl, Or.inl ?_⟩⟩
      rw [h3] at hss
      exact endsWithContent_after_newline [] r hss
    simp only [if_neg h3]
    by_cases h3b : c = '\xff'
    · simp only [if_pos h3b]
      rw [h3b] at hss
      have hr2 := endsWithContent_after_byte [] r hss
      by_cases hb : t = .Newline ∨ t = .Indent ∨ t = .Dedent
      · simp only [if_pos hb]
        exact Or.inr ⟨_, _, _, rfl, rfl, Or.inr ⟨rfl, Or.inl hr2⟩⟩
      · simp only [if_neg hb]
        exact Or.inr ⟨_, _, _, rfl, rfl, Or.inr ⟨rfl, Or.inl hr2⟩⟩
    simp only [if_neg h3b]
    by_cases h4 : c = '#'
    · simp only [if_pos h4]
      rcases getline_snoc r with ⟨g1, l, g2⟩ | ⟨g1, g2⟩
      · rw [g1]
        have hg : endsWithContent (getline r) = true := by
          rw [g2, ← List.cons_append] at hss
          exact endsWithContent_after_newline _ _ hss
        rcases Skip_ends t m 0 _ (getline r) (Nat.le_refl _) hg with
          ⟨e, k1, k2⟩ | ⟨s1, k1, k2⟩ | ⟨a1, m1, d1, k1, k2, k3⟩
        · rw [k1, k2]
          exact Or.inl ⟨e, rfl, rfl⟩
        · rw [k1, k2]
          exact Ends_refl _
        · rw [k1, k2]
          have n1 : a1 ≠ [] := by
            rintro rfl
            cases k3
          have n2 : a1.head? ≠ none := by
            cases a1 with
            | nil => exact absurd rfl n1
            | cons x y => simp
          have n3 : (a1 ++ ['\n']).head? = a1.head? := by
            cases a1 with
            | nil => exact absurd rfl n1
            | cons x y => rfl
          simp only [commentEnd, n3]
          by_cases hx : a1.head? = none ∨ a1.head? = some '\xff'
          · simp only [if_pos hx]
            exact Or.inr ⟨_, _, _, rfl, rfl, Or.inr ⟨rfl, Or.inl k3⟩⟩
          · simp only [if_neg hx]
            exact Or.inr ⟨_, _, _, rfl, rfl, Or.inr ⟨rfl, Or.inl k3⟩⟩
      · rw [g1, g2]
        exact Ends_refl _
    simp only [if_neg h4]
    by_cases h5 : c = '=' ∧ r.head? ≠ some '='
    · simp only [if_pos h5]
      exact hchar '='
    simp only [if_neg h5]
    by_cases h6 : T.comparison_symbols c = true ∧ r.head? = some '='
    · simp only [if_pos h6]
      rw [← List.cons_append, ParseComparisonOperator_snoc]
      apply setCurrent_ends
      intro tk rest hX
      exact ⟨(ParseComparisonOperator_ok c r rest tk hX).1,
        hrest rest (ParseComparisonOperator_suffix _ _ _ hX)⟩
    simp only [if_neg h6]
    by_cases h7 : T.special_symbols c = true
    · simp only [if_pos h7]
      exact hchar c
    simp only [if_neg h7]
    by_cases h8 : c.isAlpha = true ∨ c = '_'
    · simp only [if_pos h8]
      rw [← List.cons_append, ParseName_snoc]
      apply setCurrent_ends
      intro tk rest hX
      exact ⟨(ParseName_ok c r rest tk hX).1, hrest rest (ParseName_suffix _ _ _ hX)⟩
    simp only [if_neg h8]
    exact Or.inl ⟨_, rfl, rfl⟩

/-- The part of `NextToken` after indentation measurement, with a newline added
at the end of an input that ends with content. -/
theorem afterIndent_ends (T : Tables) (a : List Char) (t : Token) (m d : Int)
    (h : endsWithContent a = true) :
    (∃ e, afterIndent T ⟨a, t, m, d⟩ = .error e ∧
        afterIndent T ⟨a ++ ['\n'], t, m, d⟩ = .error e) ∨
      ∃ tk s1 s2, afterIndent T ⟨a, t, m, d⟩ = .ok (tk, s1) ∧
        afterIndent T ⟨a ++ ['\n'], t, m, d⟩ = .ok (tk, s2) ∧ Ends s1 s2 := by
  by_cases hd : d = 0
  · subst hd
    have e : ∀ x : List Char, afterIndent T ⟨x, t, m, 0⟩ = scan T ⟨x, t, m, 0⟩ := by
      intro x
      simp [afterIndent]
    rw [e, e]
    exact scan_ends T a t m h
  · by_cases hpos : 0 < d
    · have e : ∀ x : List Char, afterIndent T ⟨x, t, m, d⟩ =
          .ok (.Indent, ⟨x, .Indent, m, d - 1⟩) := by
        intro x
        simp [afterIndent, hd, ParseIndentOrDedent, hpos]
      rw [e, e]
      exact Or.inr ⟨_, _, _, rfl, rfl, Or.inr ⟨rfl, Or.inl h⟩⟩
    · have hneg : d < 0 := by omega
      have e : ∀ x : List Char, afterIndent T ⟨x, t, m, d⟩ =
          .ok (.Dedent, ⟨x, .Dedent, m, d + 1⟩) := by
        intro x
        simp [afterIndent, hd, ParseIndentOrDedent, hpos, hneg]
      rw [e, e]
      exact Or.inr ⟨_, _, _, rfl, rfl, Or.inr ⟨rfl, Or.inl h⟩⟩

/-- A text of spaces only is a run of spaces. -/
theorem spaces_replicate (a : List Char) (h : ∀ y ∈ a, y = ' ') :
    a = List.replicate a.length ' ' := by
  rw [List.eq_replicate_iff]
  exact ⟨rfl, h⟩

/-- A call of `NextToken` on lexers that differ by a newline added at the end of
the input gives the same error, or the same token and such lexers again. -/
theorem NextToken_ends (T : Tables) (s1 s2 : Lexer) (h : Ends s1 s2) :
    (∃ e, NextToken T s1 = .error e ∧ NextToken T s2 = .error e) ∨
      ∃ tk s3 s4, NextToken T s1 = .ok (tk, s3) ∧ NextToken T s2 = .ok (tk, s4) ∧
        Ends s3 s4 := by
  rcases h with rfl | ⟨rfl, hA | ⟨hsp, hr, hd⟩⟩
  · exact Ends_refl _
  · obtain ⟨a, t, m, d⟩ := s1
    simp only at hA ⊢
    rw [NextToken_eq, NextToken_eq]
    by_cases he : t = .Eof
    · simp only [he, if_true]
      exact Or.inr ⟨_, _, _, rfl, rfl, Or.inr ⟨rfl, Or.inl hA⟩⟩
    simp only [he, if_false]
    by_cases hn : t = .Newline
    · simp only [hn, if_true]
      rcases Skip_ends .Newline m d _ a (Nat.le_refl _) hA with
        ⟨e, k1, k2⟩ | ⟨s1, k1, k2⟩ | ⟨a1, m1, d1, k1, k2, k3⟩
      · rw [k1, k2]
        exact Or.inl ⟨e, rfl, rfl⟩
      · rw [k1, k2]
        exact Ends_refl _
      · rw [k1, k2]
        exact afterIndent_ends T a1 .Newline m1 d1 k3
    · simp only [hn, if_false]
      exact afterIndent_ends T a t m d hA
  · obtain ⟨a, t, m, d⟩ := s1
    simp only at hsp hr hd ⊢
    subst hd
    have he : t ≠ .Eof := by
      rintro rfl
      simp [rank] at hr
    have hn : t ≠ .Newline ∧ t ≠ .Indent ∧ t ≠ .Dedent := by
      refine ⟨?_, ?_, ?_⟩ <;> rintro rfl <;> simp [rank] at hr
    rw [NextToken_scan T _ he hn.1 rfl, NextToken_scan T _ he hn.1 rfl]
    rw [spaces_replicate a hsp, scan_end, scan_chain T _ '\n' [] t m 0 (by decide)]
    have hb : ¬ (t = .Newline ∨ t = .Indent ∨ t = .Dedent) := by
      rintro (hx | hx | hx)
      · exact hn.1 hx
      · exact hn.2.1 hx
      · exact hn.2.2 hx
    rw [if_neg hb, if_neg (by decide), if_neg (by decide), if_pos rfl]
    exact Or.inr ⟨_, _, _, rfl, rfl, Or.inl rfl⟩

/-- The consumer loop gives the same result on lexers that differ by a newline
added at the end of the input. -/
theorem drain_Ends (T : Tables) : ∀ (n : Nat) (s1 s2 : Lexer), Ends s1 s2 →
    drain T n s1 = drain T n s2 := by
  intro n
  induction n with
  | zero =>
    intro s1 s2 h
    simp only [drain, Ends_current _ _ h]
  | succ n ih =>
    intro s1 s2 h
    have hc := Ends_current _ _ h
    rcases NextToken_ends T s1 s2 h with ⟨e, h1, h2⟩ | ⟨tk, s3, s4, h1, h2, hr⟩
    · simp only [drain, hc, h1, h2]
    · simp only [drain, hc, h1, h2, ih s3 s4 hr]

/-- The part of `NextToken` after indentation measurement hands out a `Dedent`
when the owed number is negative. -/
theorem afterIndent_neg (T : Tables) (x : List Char) (t : Token) (m d : Int) (hneg : d < 0) :
    afterIndent T ⟨x, t, m, d⟩ = .ok (.Dedent, ⟨x, .Dedent, m, d + 1⟩) := by
  have hd : d ≠ 0 := by omega
  have hpos : ¬ 0 < d := by omega
  simp [afterIndent, hd, ParseIndentOrDedent, hpos, hneg]

/-- At the end of input after a `Newline`, inside a block: the first `Dedent`. -/
theorem NextToken_close (T : Tables) (m d : Int) (hm : 0 < m) :
    NextToken T ⟨[], .Newline, m, d⟩ = .ok (.Dedent, ⟨[], .Dedent, 0, 1 - m⟩) := by
  have hsk : SkipEmptyLinesAndComments ⟨[], .Newline, m, d⟩ = .ok ⟨[], .Newline, 0, 0 - m⟩ := by
    rw [Skip_content _ (by simp [SkipSpaces]) (by simp [SkipSpaces])]
    simp [SkipSpaces]
  rw [NextToken_newline, hsk]
  show afterIndent T ⟨[], .Newline, 0, 0 - m⟩ = _
  rw [afterIndent_neg T _ _ _ _ (by omega)]
  have e : 0 - m + 1 = 1 - m := by omega
  rw [e]

/-- At the end of input, after a line-boundary token at level `0`, the owed
`Dedent` tokens are followed by `Eof`. -/
theorem dedent_run (T : Tables) : ∀ (j : Nat) (t : Token), t = .Newline ∨ t = .Indent ∨
    t = .Dedent → (t = .Newline → j = 0) →
      calls T (j + 1) ⟨[], t, 0, -(j : Int)⟩ =
        .ok (List.replicate j .Dedent ++ [.Eof], ⟨[], .Eof, 0, 0⟩) := by
  intro j
  induction j with
  | zero =>
    intro t ht _
    have h1 : NextToken T ⟨[], t, 0, 0⟩ = .ok (.Eof, ⟨[], .Eof, 0, 0⟩) := by
      rcases ht with rfl | rfl | rfl <;>
        simp [NextToken_eq, afterIndent, scan, Skip_content, SkipSpaces]
    simp only [Nat.cast_zero, neg_zero, Nat.zero_add]
    simp [calls, h1]
  | succ j ih =>
    intro t ht hnl
    have hne : t ≠ .Newline := fun hx => by
      have := hnl hx
      omega
    have hte : t ≠ .Eof := by
      rcases ht with rfl | rfl | rfl <;> decide
    have h1 := NextToken_dedent T [] t 0 (-((j + 1 : Nat) : Int)) hte hne (by omega)
    have e : (-((j + 1 : Nat) : Int)) + 1 = -(j : Int) := by omega
    rw [e] at h1
    rw [calls, h1]
    simp only
    rw [ih .Dedent (Or.inr (Or.inr rfl)) (by intro hx; cases hx)]
    simp [List.replicate_succ]

/-- The recursion of `SkipEmptyLinesAndComments` is one level deeper for a blank
or comment-only line in front. -/
theorem SkipDepth_line (l : SkippedLine) (hl : l.wellFormed) (rest : List Char) (t : Token)
    (m d : Int) :
    SkipDepth ⟨l.chars ++ rest, t, m, d⟩ = SkipDepth ⟨rest, t, m, d⟩ + 1 := by
  cases l with
  | blank n =>
    have e : (SkippedLine.blank n).chars ++ rest = List.replicate n ' ' ++ '\n' :: rest := by
      simp [SkippedLine.chars]
    rw [e, SkipDepth]
    simp only [SkipSpaces_replicate n ('\n' :: rest) (by simp), List.head?_cons, if_true,
      List.tail_cons]
  | comment n text =>
    have e : (SkippedLine.comment n text).chars ++ rest =
        List.replicate n ' ' ++ '#' :: (text ++ '\n' :: rest) := by
      simp [SkippedLine.chars]
    have hg : getline ('#' :: (text ++ '\n' :: rest)) = rest := by
      have := getline_line ('#' :: text) rest (by
        simp only [List.mem_cons, not_or]
        exact ⟨by decide, hl⟩)
      simpa using this
    rw [e, SkipDepth]
    simp only [SkipSpaces_replicate n ('#' :: (text ++ '\n' :: rest)) (by simp), List.head?_cons,
      hg]
    simp

/-- The depth of the recursion of `SkipEmptyLinesAndComments` is the number of
blank and comment-only lines it passes, plus one. -/
theorem SkipDepth_lines (ls : List SkippedLine) (hls : ∀ l ∈ ls, l.wellFormed) (n : Nat)
    (r : List Char) (t : Token) (m d : Int) (h1 : r.head? ≠ some ' ')
    (h2 : r.head? ≠ some '\n') (h3 : r.head? ≠ some '#') :
    SkipDepth ⟨skippedLines ls ++ (List.replicate n ' ' ++ r), t, m, d⟩ = ls.length + 1 := by
  induction ls with
  | nil =>
    rw [SkipDepth]
    simp only [skippedLines, List.map_nil, List.flatten_nil, List.nil_append,
      SkipSpaces_replicate n r h1, h2, h3, if_false, List.length_nil]
  | cons l ls ih =>
    have e : skippedLines (l :: ls) ++ (List.replicate n ' ' ++ r) =
        l.chars ++ (skippedLines ls ++ (List.replicate n ' ' ++ r)) := by
      simp [skippedLines]
    rw [e, SkipDepth_line l (hls l (by simp)), ih (fun x hx => hls x (by simp [hx]))]
    simp

/-- On an input without `#` and without the byte `0xFF` that does not end with
a run of one or more spaces beginning at a line start, and that tokenizes
without error, the complete token sequence ends with `Eof`, holds as many
`Dedent` as `Indent` tokens, and each of its initial segments holds at least as
many `Indent` as `Dedent` tokens. -/
theorem closed_at_end_plain (T : Tables) (input : List Char) (ts : List Token)
    (hhash : '#' ∉ input) (hbyte : '\xff' ∉ input) (hend : ¬ endsWithIndentOnly input)
    (hok : Tokenize T input = .ok ts) :
    ts.getLast? = some .Eof ∧ ts.count .Dedent = ts.count .Indent ∧ balance ts = 0 ∧
      (∀ k, (ts.take k).count .Dedent ≤ (ts.take k).count .Indent) ∧
      (∀ k, 0 ≤ balance (ts.take k)) := by
  unfold Tokenize at hok
  split at hok
  · cases hok
  · next s0 hnew =>
    obtain ⟨hc, hr⟩ := new_closing T input s0 hhash hbyte hend hnew
    obtain ⟨h1, h2⟩ := drain_closing T _ s0 ts hc (Nat.le_refl _) hok
    rw [hr, sub_self] at h1 h2
    have hpre : ∀ k, 0 ≤ balance (ts.take k) := by
      intro k
      cases k with
      | zero => simp [balance]
      | succ k => exact h2 (k + 1) (by omega)
    have hlast : ts.getLast? = some .Eof := by
      rcases drain_ends T _ s0 (Nat.le_refl _) with ⟨e, he⟩ | ⟨ts2, he, _⟩
      · rw [he] at hok
        cases hok
      · rw [he] at hok
        cases hok
        simp
    refine ⟨hlast, ?_, h1, ?_, hpre⟩
    · simp only [balance] at h1
      omega
    · intro k
      have := hpre k
      simp only [balance] at this
      omega

/-! ## The claims -/

/-- C1 (fails on the code): on the input `1 # c`, newline, two spaces, `2`, newline,
the constructor returns `Number 1` and the next two calls return `Newline` and
`Dedent`; the emitted tokens then hold no `Indent` and one `Dedent` (balance `-1`)
while `current_indent_` is `0` and nothing is owed.  The trailing comment makes
`SkipEmptyLinesAndComments` run twice for the same line. -/
theorem C1_balance_broken_after_trailing_comment (T : Tables) :
    Lexer.new T ['1', ' ', '#', ' ', 'c', '\n', ' ', ' ', '2', '\n'] =
        .ok ⟨[' ', '#', ' ', 'c', '\n', ' ', ' ', '2', '\n'], .Number 1, 0, 0⟩ ∧
      calls T 2 ⟨[' ', '#', ' ', 'c', '\n', ' ', ' ', '2', '\n'], .Number 1, 0, 0⟩ =
        .ok ([.Newline, .Dedent], ⟨['2', '\n'], .Dedent, 0, 0⟩) ∧
      balance [.Number 1, .Newline, .Dedent] = -1 := by
  refine ⟨?_, ?_, ?_⟩
  · simp [Lexer.new, skipLeadingComments, NextToken_eq, afterIndent, scan, Skip_content,
      SkipSpaces, setCurrent, ParseNumber, stoi, decimalValue]
  · simp [calls, NextToken_eq, afterIndent, scan, Skip_blank, Skip_comment, Skip_content,
      SkipSpaces, getline, setCurrent, ParseIndentOrDedent]
  · decide

/-- C2: from a state whose current token is `Newline` at level `m`, in front of
blank and comment-only lines `ls` and a line of `2 * k` spaces followed by a
content character `c`, the next `|k - m|` calls of `NextToken` return that many
`Indent` tokens when `m < k` and `Dedent` tokens otherwise; after each of them
the lexer stands in front of `c`, so the calls after the first read nothing;
the call after them is the dispatch on `c`, which, when it succeeds, returns a
content token and reads `c`, unless `c` is the byte `0xFF`: that byte is read as
the end of input and gives `Eof` there.  From level 0 to level 3 there are three
`Indent`s, from level 2 or 3 to level 0 two or three `Dedent`s. -/
theorem C2_indent_dedent_run (T : Tables) (ls : List SkippedLine) (k : Nat) (c : Char)
    (rest : List Char) (m d : Int) (hls : ∀ l ∈ ls, l.wellFormed)
    (hc1 : c ≠ ' ') (hc2 : c ≠ '\n') (hc3 : c ≠ '#') :
    (∀ i : Nat, 1 ≤ i → i ≤ ((k : Int) - m).natAbs →
        calls T i ⟨skippedLines ls ++ (List.replicate (2 * k) ' ' ++ c :: rest), .Newline, m, d⟩ =
          .ok (List.replicate i (if m < k then Token.Indent else Token.Dedent),
            ⟨c :: rest, if m < k then Token.Indent else Token.Dedent, k,
              if m < k then (k : Int) - m - i else (k : Int) - m + i⟩)) ∧
      calls T (((k : Int) - m).natAbs + 1)
          ⟨skippedLines ls ++ (List.replicate (2 * k) ' ' ++ c :: rest), .Newline, m, d⟩ =
        (match scan T ⟨c :: rest,
            if (k : Int) = m then Token.Newline
            else if m < k then Token.Indent else Token.Dedent, k, 0⟩ with
          | .error e => .error e
          | .ok (t, s2) =>
            .ok (List.replicate ((k : Int) - m).natAbs
              (if m < k then Token.Indent else Token.Dedent) ++ [t], s2)) ∧
      (c ≠ '\xff' → ∀ t0 t s2, scan T ⟨c :: rest, t0, k, 0⟩ = .ok (t, s2) →
        t ≠ .Newline ∧ t ≠ .Indent ∧ t ≠ .Dedent ∧ t ≠ .Eof ∧
          s2.input_.length ≤ rest.length ∧ s2.current_indent_ = k ∧
          s2.difference_previous_current_indents_ = 0) ∧
      (∀ t0, t0 = .Newline ∨ t0 = .Indent ∨ t0 = .Dedent →
        scan T ⟨'\xff' :: rest, t0, k, 0⟩ = .ok (.Eof, ⟨rest, .Eof, k, 0⟩)) ∧
      calls T 3 ⟨[' ', ' ', ' ', ' ', ' ', ' ', '1'], .Newline, 0, 0⟩ =
        .ok ([.Indent, .Indent, .Indent], ⟨['1'], .Indent, 3, 0⟩) ∧
      calls T 2 ⟨['1'], .Newline, 2, 0⟩ = .ok ([.Dedent, .Dedent], ⟨['1'], .Dedent, 0, 0⟩) ∧
      calls T 3 ⟨['1'], .Newline, 3, 0⟩ =
        .ok ([.Dedent, .Dedent, .Dedent], ⟨['1'], .Dedent, 0, 0⟩) := by
  have hstart := NextToken_line_start T ls (2 * k) (c :: rest) m d hls (by simpa using hc1)
    (by simpa using hc2) (by simpa using hc3) (by omega)
  have hk : 2 * k / 2 = k := by omega
  rw [hk] at hstart
  -- the first call, when the level changes
  have hup : m < k → NextToken T
      ⟨skippedLines ls ++ (List.replicate (2 * k) ' ' ++ c :: rest), .Newline, m, d⟩ =
      .ok (.Indent, ⟨c :: rest, .Indent, k, (k : Int) - m - 1⟩) := by
    intro h
    have h0 : (k : Int) - m ≠ 0 := by omega
    have h1 : 0 < (k : Int) - m := by omega
    rw [hstart]
    simp [afterIndent, h0, ParseIndentOrDedent, h1]
  have hdown : (k : Int) < m → NextToken T
      ⟨skippedLines ls ++ (List.replicate (2 * k) ' ' ++ c :: rest), .Newline, m, d⟩ =
      .ok (.Dedent, ⟨c :: rest, .Dedent, k, (k : Int) - m + 1⟩) := by
    intro h
    have h0 : (k : Int) - m ≠ 0 := by omega
    have h1 : ¬ 0 < (k : Int) - m := by omega
    have h2 : (k : Int) - m < 0 := by omega
    rw [hstart]
    simp [afterIndent, h0, ParseIndentOrDedent, h1, h2]
  have hsame : (k : Int) = m → NextToken T
      ⟨skippedLines ls ++ (List.replicate (2 * k) ' ' ++ c :: rest), .Newline, m, d⟩ =
      scan T ⟨c :: rest, .Newline, k, 0⟩ := by
    intro h
    rw [hstart]
    simp [afterIndent, h]
  -- the first `i` calls, for `1 ≤ i ≤ |k - m|`
  have hrun : ∀ i : Nat, 1 ≤ i → i ≤ ((k : Int) - m).natAbs →
      calls T i ⟨skippedLines ls ++ (List.replicate (2 * k) ' ' ++ c :: rest), .Newline, m, d⟩ =
        .ok (List.replicate i (if m < k then Token.Indent else Token.Dedent),
          ⟨c :: rest, if m < k then Token.Indent else Token.Dedent, k,
            if m < k then (k : Int) - m - i else (k : Int) - m + i⟩) := by
    intro i hi1 hi2
    obtain ⟨j, rfl⟩ : ∃ j, i = j + 1 := ⟨i - 1, by omega⟩
    by_cases hlt : m < k
    · rw [calls, hup hlt]
      simp only
      rw [calls_indent T (c :: rest) k j .Indent _ (by decide) (by decide) (by omega)]
      have e : (k : Int) - m - 1 - j = (k : Int) - m - ((j + 1 : Nat) : Int) := by omega
      by_cases hj : j = 0 <;> simp [hj, hlt, List.replicate_succ, e]
    · have hgt : (k : Int) < m := by omega
      rw [calls, hdown hgt]
      simp only
      rw [calls_dedent T (c :: rest) k j .Dedent _ (by decide) (by decide) (by omega)]
      have e : (k : Int) - m + 1 + j = (k : Int) - m + ((j + 1 : Nat) : Int) := by omega
      by_cases hj : j = 0 <;> simp [hj, hlt, List.replicate_succ, e]
  refine ⟨hrun, ?_, ?_, ?_, ?_, ?_, ?_⟩
  · by_cases hkm : (k : Int) = m
    · have h0 : ((k : Int) - m).natAbs = 0 := by omega
      rw [h0]
      simp only [Nat.zero_add, calls, hsame hkm, hkm, if_true, List.replicate_zero,
        List.nil_append]
    · rw [calls_succ_last, hrun _ (by omega) (Nat.le_refl _)]
      simp only [hkm, if_false]
      have hz : (if m < k then (k : Int) - m - (((k : Int) - m).natAbs : Int)
          else (k : Int) - m + (((k : Int) - m).natAbs : Int)) = 0 := by
        split <;> omega
      rw [hz]
      by_cases hlt : m < k
      · simp only [hlt, if_true]
        rw [NextToken_scan T _ (by simp) (by simp) rfl]
      · simp only [hlt, if_false]
        rw [NextToken_scan T _ (by simp) (by simp) rfl]
  · intro hc4 t0 t s2 h
    obtain ⟨hr, hl, _, hi, hd⟩ := scan_content T c rest t0 k 0 hc1 hc2 hc3 hc4 t s2 h
    refine ⟨?_, ?_, ?_, ?_, hl, hi, hd⟩ <;> (rintro rfl; simp [rank] at hr)
  · intro t0 ht0
    have h := scan_chain T 0 '\xff' rest t0 k 0 (by decide)
    simp only [List.replicate, List.nil_append] at h
    rw [h]
    simp [ht0]
  · simp [calls, NextToken_eq, afterIndent, Skip_content, SkipSpaces, ParseIndentOrDedent]
  · simp [calls, NextToken_eq, afterIndent, Skip_content, SkipSpaces, ParseIndentOrDedent]
  · simp [calls, NextToken_eq, afterIndent, Skip_content, SkipSpaces, ParseIndentOrDedent]

/-- C2 at level 0 in front of a blank line and a line of six spaces and `x`:
three calls return three `Indent` tokens and stop in front of `x`. -/
theorem C2_indent_dedent_run_witness :
    (∀ l ∈ [SkippedLine.blank 1], l.wellFormed) ∧ 'x' ≠ ' ' ∧ 'x' ≠ '\n' ∧ 'x' ≠ '#' ∧
      calls sampleTables 3
          ⟨skippedLines [SkippedLine.blank 1] ++ (List.replicate (2 * 3) ' ' ++ ['x']),
            .Newline, 0, 0⟩ =
        .ok ([.Indent, .Indent, .Indent], ⟨['x'], .Indent, 3, 0⟩) :=
  have hls : ∀ l ∈ [SkippedLine.blank 1], l.wellFormed := by
    intro l hl
    simp only [List.mem_singleton] at hl
    subst hl
    trivial
  ⟨hls, by decide, by decide, by decide, by
    have h := (C2_indent_dedent_run sampleTables [SkippedLine.blank 1] 3 'x' [] 0 0 hls
      (by decide) (by decide) (by decide)).1 3 (by decide) (by decide)
    simpa using h⟩

/-- C3: a blank line (any number of spaces and a newline) or a comment-only line
(any number of spaces, `#`, a text without newline, and a newline), inserted at
the start of a logical line of the input, leaves the complete result of
tokenization unchanged.  The start of a logical line is the start of the input
or the position after a newline that is not inside a string literal. -/
theorem C3_skipped_line_transparent (T : Tables) (a b : List Char) (l : SkippedLine)
    (hl : l.wellFormed) (ha : lineStart a) :
    Tokenize T (a ++ l.chars ++ b) = Tokenize T (a ++ b) := by
  have hrel : Rel l.chars b ⟨a ++ b, .Newline, 0, 0⟩ ⟨a ++ (l.chars ++ b), .Newline, 0, 0⟩ := by
    refine Or.inr ⟨a, .Newline, 0, 0, ?_, rfl, rfl⟩
    rcases ha with rfl | ha
    · exact Or.inr ⟨rfl, rfl⟩
    · exact Or.inl ha
  have hnew : ∀ x, NextToken T ⟨skipLeadingComments x, .Newline, 0, 0⟩ =
      NextToken T ⟨x, .Newline, 0, 0⟩ := by
    intro x
    simp only [NextToken_newline, Skip_skipLeadingComments .Newline 0 0 x.length x (Nat.le_refl _)]
  have hset : ∀ (tk : Token) (s1 : Lexer) (s0 : Lexer), NextToken T s0 = .ok (tk, s1) →
      ({ s1 with current_token_ := tk } : Lexer) = s1 := by
    intro tk s1 s0 h
    have := NextToken_current T s0 s1 tk h
    subst this
    rfl
  simp only [Tokenize, Lexer.new, List.append_assoc, hnew]
  rcases NextToken_Rel T l hl b _ _ hrel with ⟨e, h1, h2⟩ | ⟨tk, s1, s3, h1, h2, hr⟩
  · rw [h1, h2]
  · rw [h1, h2]
    simp only [hset tk s1 _ h1, hset tk s3 _ h2]
    have f1 := drain_fuel T (budget s1) s1 (Nat.le_refl _) (max (budget s1) (budget s3))
      (Nat.le_max_left _ _)
    have f3 := drain_fuel T (budget s3) s3 (Nat.le_refl _) (max (budget s1) (budget s3))
      (Nat.le_max_right _ _)
    rw [← f1, ← f3]
    exact (drain_Rel T l hl b _ s1 s3 hr).symm

/-- C3 at the input `x`, newline, `y`, newline, with a comment line indented by
three spaces inserted in front of `y`. -/
theorem C3_skipped_line_transparent_witness :
    (SkippedLine.comment 3 ['c', ' ', '\'']).wellFormed ∧ lineStart ['x', '\n'] ∧
      Tokenize sampleTables
          (['x', '\n'] ++ (SkippedLine.comment 3 ['c', ' ', '\'']).chars ++ ['y', '\n']) =
        Tokenize sampleTables (['x', '\n'] ++ ['y', '\n']) :=
  have hl : (SkippedLine.comment 3 ['c', ' ', '\'']).wellFormed := by
    simp [SkippedLine.wellFormed]
  have ha : lineStart ['x', '\n'] := Or.inr ⟨['x'], rfl, Or.inl (by decide)⟩
  ⟨hl, ha, C3_skipped_line_transparent sampleTables ['x', '\n'] ['y', '\n']
    (SkippedLine.comment 3 ['c', ' ', '\'']) hl ha⟩

/-- C4 (as stated, refuted): whatever the punctuation and comparison sets are,
the example input does not yield `If, Id x, Char ':', Newline, Indent, Id pass,
Newline, Dedent, Eof`. -/
theorem C4_example_not_one_indent :
    ¬ ∃ T : Tables, Tokenize T exampleSource =
      .ok [.If, .Id ['x'], .Char ':', .Newline, .Indent, .Id ['p', 'a', 's', 's'],
        .Newline, .Dedent, .Eof] := by
  rintro ⟨T, h⟩
  unfold Tokenize at h
  cases hnew : Lexer.new T exampleSource with
  | error e =>
    rw [hnew] at h
    cases h
  | ok s0 =>
    rw [hnew] at h
    simp only at h
    have h0 := drain_head _ _ _ _ _ h
    obtain ⟨t1, s1, hn1, h⟩ := drain_step _ _ _ _ _ _ h
    have h1 := drain_head _ _ _ _ _ h
    obtain ⟨t2, s2, hn2, h⟩ := drain_step _ _ _ _ _ _ h
    have h2 := drain_head _ _ _ _ _ h
    obtain ⟨t3, s3, hn3, h⟩ := drain_step _ _ _ _ _ _ h
    obtain ⟨t4, s4, hn4, h⟩ := drain_step _ _ _ _ _ _ h
    obtain ⟨t5, s5, hn5, h⟩ := drain_step _ _ _ _ _ _ h
    have h5 := drain_head _ _ _ _ _ h
    -- the constructor
    cases hi : T.special_symbols 'i' <;>
      simp [exampleSource, Lexer.new, skipLeadingComments_of_ne, NextToken_eq, afterIndent, scan,
        Skip_content, SkipSpaces, setCurrent, ParseName, isNameChar, keyword_to_token, hi]
        at hnew
    swap
    · rw [← hnew] at h0
      cases h0
    subst hnew
    -- the identifier
    cases hx : T.special_symbols 'x' <;>
      simp [NextToken_eq, afterIndent, scan, SkipSpaces, setCurrent, ParseName, isNameChar,
        keyword_to_token, hx] at hn1
    swap
    · rw [← hn1.2] at h1
      cases h1
    obtain ⟨-, rfl⟩ := hn1
    -- the colon
    cases hc : T.special_symbols ':' <;>
      simp [NextToken_eq, afterIndent, scan, SkipSpaces, setCurrent, hc] at hn2
    obtain ⟨-, rfl⟩ := hn2
    -- the newline, the first `Indent` and the second
    simp [NextToken_eq, afterIndent, scan, SkipSpaces] at hn3
    obtain ⟨-, rfl⟩ := hn3
    simp [NextToken_eq, afterIndent, Skip_blank, Skip_comment, Skip_content, SkipSpaces, getline,
      ParseIndentOrDedent] at hn4
    obtain ⟨-, rfl⟩ := hn4
    simp [NextToken_eq, afterIndent, ParseIndentOrDedent] at hn5
    rw [← hn5.2] at h5
    cases h5

/-- C4 (as amended): when `:` is a punctuation character and no letter is one,
the example input yields `If, Id x, Char ':', Newline, Indent, Indent, Id pass,
Newline, Dedent, Dedent, Eof`: four spaces are two indentation units. -/
theorem C4_example_two_indents (T : Tables) (hcolon : T.special_symbols ':' = true)
    (hletter : ∀ c : Char, c.isAlpha = true → T.special_symbols c = false) :
    Tokenize T exampleSource =
      .ok [.If, .Id ['x'], .Char ':', .Newline, .Indent, .Indent, .Id ['p', 'a', 's', 's'],
        .Newline, .Dedent, .Dedent, .Eof] := by
  have hi := hletter 'i' (by decide)
  have hx := hletter 'x' (by decide)
  have hp := hletter 'p' (by decide)
  simp [Tokenize, exampleSource, Lexer.new, skipLeadingComments_of_ne, NextToken_eq, afterIndent,
    scan, Skip_blank, Skip_comment, Skip_content, SkipSpaces, getline, setCurrent, ParseName,
    isNameChar, keyword_to_token, ParseIndentOrDedent, hcolon, hi, hx, hp, budget, rank, drain]

/-- C4 (as amended) for the sample tables. -/
theorem C4_example_two_indents_witness :
    sampleTables.special_symbols ':' = true ∧
      (∀ c : Char, c.isAlpha = true → sampleTables.special_symbols c = false) ∧
      Tokenize sampleTables exampleSource =
        .ok [.If, .Id ['x'], .Char ':', .Newline, .Indent, .Indent, .Id ['p', 'a', 's', 's'],
          .Newline, .Dedent, .Dedent, .Eof] :=
  ⟨by decide, sampleTables_letter,
    C4_example_two_indents sampleTables (by decide) sampleTables_letter⟩

/-- C5: indentation measurement, run at a line start in front of any blank and
comment-only lines `ls` followed by a line of `n` spaces and then `r`, where `r`
starts with content or is the end of input, raises `invalid indent` exactly when
`n` is odd; it raises no other error, and for even `n` it stops in front of `r`
with level `n / 2` and owes `n / 2` minus the previous level.  The blank and
comment-only lines raise nothing whatever their number of spaces.  Constructing
a lexer over one space followed by `x = 1` and a newline raises the error. -/
theorem C5_invalid_indent_iff_odd (T : Tables) (ls : List SkippedLine) (n : Nat)
    (r : List Char) (t : Token) (m d : Int) (hls : ∀ l ∈ ls, l.wellFormed)
    (h1 : r.head? ≠ some ' ') (h2 : r.head? ≠ some '\n') (h3 : r.head? ≠ some '#') :
    (SkipEmptyLinesAndComments ⟨skippedLines ls ++ (List.replicate n ' ' ++ r), t, m, d⟩ =
        .error .invalid_indent ↔ n % 2 = 1) ∧
      (∀ e, SkipEmptyLinesAndComments
          ⟨skippedLines ls ++ (List.replicate n ' ' ++ r), t, m, d⟩ = .error e →
        e = .invalid_indent) ∧
      (n % 2 = 0 →
        SkipEmptyLinesAndComments ⟨skippedLines ls ++ (List.replicate n ' ' ++ r), t, m, d⟩ =
          .ok ⟨r, t, (n / 2 : Nat), (n / 2 : Nat) - m⟩) ∧
      Lexer.new T [' ', 'x', ' ', '=', ' ', '1', '\n'] = .error .invalid_indent := by
  rw [Skip_lines ls hls, Skip_measure n r t m d h1 h2 h3]
  refine ⟨?_, ?_, ?_, ?_⟩
  · by_cases hn : n % 2 = 1 <;> simp [hn]
  · intro e he
    by_cases hn : n % 2 = 1
    · simp only [hn, if_true] at he
      cases he
      rfl
    · simp [hn] at he
  · intro hn
    have : ¬ n % 2 = 1 := by omega
    simp [this]
  · have hs : skipLeadingComments [' ', 'x', ' ', '=', ' ', '1', '\n'] =
        [' ', 'x', ' ', '=', ' ', '1', '\n'] := by
      rw [skipLeadingComments]
      simp
    have := Skip_measure 1 ['x', ' ', '=', ' ', '1', '\n'] .Newline 0 0
      (by simp) (by simp) (by simp)
    simp only [List.replicate, List.cons_append, List.nil_append] at this
    simp [Lexer.new, hs, NextToken_eq, this]

/-- C5 at a concrete input: a blank line of three spaces, a comment line, then
four spaces and `pass`. -/
theorem C5_invalid_indent_iff_odd_witness :
    (∀ l ∈ [SkippedLine.blank 3, SkippedLine.comment 2 ['n', 'o', 't', 'e']], l.wellFormed) ∧
      ((SkipEmptyLinesAndComments
          ⟨skippedLines [SkippedLine.blank 3, SkippedLine.comment 2 ['n', 'o', 't', 'e']] ++
            (List.replicate 4 ' ' ++ ['p', 'a', 's', 's']), .Newline, 0, 0⟩ =
          .error .invalid_indent ↔ 4 % 2 = 1) ∧
        (∀ e, SkipEmptyLinesAndComments
          ⟨skippedLines [SkippedLine.blank 3, SkippedLine.comment 2 ['n', 'o', 't', 'e']] ++
            (List.replicate 4 ' ' ++ ['p', 'a', 's', 's']), .Newline, 0, 0⟩ = .error e →
          e = .invalid_indent) ∧
        (4 % 2 = 0 →
          SkipEmptyLinesAndComments
            ⟨skippedLines [SkippedLine.blank 3, SkippedLine.comment 2 ['n', 'o', 't', 'e']] ++
              (List.replicate 4 ' ' ++ ['p', 'a', 's', 's']), .Newline, 0, 0⟩ =
            .ok ⟨['p', 'a', 's', 's'], .Newline, (4 / 2 : Nat), (4 / 2 : Nat) - 0⟩) ∧
        Lexer.new sampleTables [' ', 'x', ' ', '=', ' ', '1', '\n'] = .error .invalid_indent) :=
  have hls : ∀ l ∈ [SkippedLine.blank 3, SkippedLine.comment 2 ['n', 'o', 't', 'e']],
      l.wellFormed := by
    intro l hl
    simp only [List.mem_cons, List.mem_singleton, List.not_mem_nil, or_false] at hl
    rcases hl with rfl | rfl
    · trivial
    · simp [SkippedLine.wellFormed]
  ⟨hls, C5_invalid_indent_iff_odd sampleTables _ 4 ['p', 'a', 's', 's'] .Newline 0 0 hls
    (by simp) (by simp) (by simp)⟩

/-- C6: in a state whose current token is `Eof`, in particular in the state a
call that returned `Eof` has left, `NextToken` returns `Eof` and leaves the
whole lexer unchanged, so every later call returns `Eof` as well. -/
theorem C6_eof_is_terminal (T : Tables) (s : Lexer)
    (h : s.current_token_ = .Eof ∨ ∃ s0, NextToken T s0 = .ok (.Eof, s)) :
    NextToken T s = .ok (.Eof, s) ∧
      ∀ n, calls T n s = .ok (List.replicate n .Eof, s) := by
  have he : s.current_token_ = .Eof := by
    rcases h with h | ⟨s0, h⟩
    · exact h
    · exact NextToken_current T s0 s .Eof h
  have h1 : NextToken T s = .ok (.Eof, s) := by
    rw [NextToken_eq]
    simp only [he, if_true]
  refine ⟨h1, ?_⟩
  intro n
  induction n with
  | zero => rfl
  | succ k ih => simp only [calls, h1, ih, List.replicate_succ]

/-- C6 at the lexer that has read the whole of an empty input. -/
theorem C6_eof_is_terminal_witness :
    (Lexer.mk [] .Eof 0 0).current_token_ = .Eof ∧
      (NextToken sampleTables (Lexer.mk [] .Eof 0 0) = .ok (.Eof, Lexer.mk [] .Eof 0 0) ∧
        ∀ n, calls sampleTables n (Lexer.mk [] .Eof 0 0) =
          .ok (List.replicate n .Eof, Lexer.mk [] .Eof 0 0)) :=
  ⟨rfl, C6_eof_is_terminal sampleTables (Lexer.mk [] .Eof 0 0) (Or.inl rfl)⟩

/-- C7 (as stated, refuted): whatever the character sets are, the input
`2147483648` ends neither in a `LexerError` nor in `Eof`: `stoi` throws
`std::out_of_range`, in the constructor. -/
theorem C7_out_of_range_is_a_third_outcome :
    (∀ T : Tables, Tokenize T ['2', '1', '4', '7', '4', '8', '3', '6', '4', '8'] =
        .error .stoi_out_of_range) ∧
      LexerError.stoi_out_of_range.lexical = false ∧
      ¬ ∃ T : Tables,
        (∃ e, Tokenize T ['2', '1', '4', '7', '4', '8', '3', '6', '4', '8'] = .error e ∧
          e.lexical = true) ∨
        ∃ ts, Tokenize T ['2', '1', '4', '7', '4', '8', '3', '6', '4', '8'] = .ok ts := by
  have h : ∀ T : Tables, Tokenize T ['2', '1', '4', '7', '4', '8', '3', '6', '4', '8'] =
      .error .stoi_out_of_range := by
    intro T
    simp [Tokenize, Lexer.new, skipLeadingComments_of_ne, NextToken_eq, afterIndent, scan,
      Skip_content, SkipSpaces, setCurrent, ParseNumber, stoi, decimalValue]
  refine ⟨h, rfl, ?_⟩
  rintro ⟨T, ⟨e, he, hl⟩ | ⟨ts, hts⟩⟩
  · rw [h T] at he
    cases he
    cases hl
  · rw [h T] at hts
    cases hts

/-- C7 (as amended): `NextToken` is a total function (its recursion, like that
of `SkipEmptyLinesAndComments`, is on the length of the remaining input), and
every call made before `Eof` lowers the measure `budget`.  Hence from every
lexer state some number of calls, at most `budget s + 1`, ends in an exception
or returns `Eof` for the first time; and the complete tokenization of every
input is an exception or a token sequence with exactly one `Eof`, at its end.
The exception is a `LexerError` or the `std::out_of_range` of `stoi`.  The
recursion of `SkipEmptyLinesAndComments` is as deep as the number of blank and
comment-only lines in a row, plus one, so the call stack it needs is not bounded
independently of the input. -/
theorem C7_tokenization_terminates (T : Tables) (s : Lexer) (input : List Char) :
    (∀ t s1, NextToken T s = .ok (t, s1) → s.current_token_ ≠ .Eof → budget s1 < budget s) ∧
      (∃ n, n ≤ budget s + 1 ∧ ((∃ e, calls T n s = .error e) ∨
        ∃ ts s1, calls T n s = .ok (ts ++ [.Eof], s1) ∧ Token.Eof ∉ ts)) ∧
      ((∃ e, Tokenize T input = .error e) ∨
        ∃ ts, Tokenize T input = .ok (ts ++ [.Eof]) ∧ Token.Eof ∉ ts) ∧
      (∀ e, Tokenize T input = .error e → e.lexical = true ∨ e = .stoi_out_of_range) ∧
      (∀ (ls : List SkippedLine) (n : Nat) (r : List Char) (t : Token) (m d : Int),
        (∀ l ∈ ls, l.wellFormed) → r.head? ≠ some ' ' → r.head? ≠ some '\n' →
          r.head? ≠ some '#' →
            SkipDepth ⟨skippedLines ls ++ (List.replicate n ' ' ++ r), t, m, d⟩ =
              ls.length + 1) := by
  refine ⟨fun t s1 h he => NextToken_budget T s s1 t h he, calls_end T (budget s) s (Nat.le_refl _),
    ?_, ?_, fun ls n r t m d hls h1 h2 h3 => SkipDepth_lines ls hls n r t m d h1 h2 h3⟩
  · unfold Tokenize
    cases h : Lexer.new T input with
    | error e => exact Or.inl ⟨e, rfl⟩
    | ok s0 => exact drain_ends T (budget s0) s0 (Nat.le_refl _)
  · intro e _
    cases e <;> simp [LexerError.lexical]

/-- C8: for a quote `q` and a body `b` in which every `q` is escaped and which
does not end in a lone backslash, scanning `q b q` returns `String (unescape b)`
and stops right after the closing quote, both in `ParseStringConstant` and in a
call of `NextToken` in the middle of a line.  The literal `'a\tb\n'` (with the
two escapes written out) gives `a`, TAB, `b`, LF, and the escape of `q` in a
double-quoted literal gives `q`; the other quote kind is copied. -/
theorem C8_string_literal_unescaped (T : Tables) (q : Char) (b rest : List Char) (t : Token)
    (m : Int) (hq : q = '\'' ∨ q = '\"') (hb : closedBody q b = true)
    (he : t ≠ .Eof) (hn : t ≠ .Newline) :
    ParseStringConstant (q :: (b ++ q :: rest)) = .ok (.String (unescape b), rest) ∧
      NextToken T ⟨q :: (b ++ q :: rest), t, m, 0⟩ =
        .ok (.String (unescape b), ⟨rest, .String (unescape b), m, 0⟩) ∧
      ParseStringConstant ['\'', 'a', '\\', 't', 'b', '\\', 'n', '\''] =
        .ok (.String ['a', '\t', 'b', '\n'], []) ∧
      ParseStringConstant ['\"', '\\', 'q', '\'', '\\', '\"', '\\', '\\', '\"'] =
        .ok (.String ['q', '\'', '\"', '\\'], []) := by
  have hl := loop_closedBody q (quote_ne_backslash q hq) rest b.length b (Nat.le_refl _) hb []
  have h1 : ParseStringConstant (q :: (b ++ q :: rest)) = .ok (.String (unescape b), rest) := by
    rw [ParseStringConstant_quote q hq, hl]
    simp
  refine ⟨h1, ?_, ?_, ?_⟩
  · rw [NextToken_scan T _ he hn rfl, scan_quote T q hq, h1]
    rfl
  · simp [ParseStringConstant, loop_cons, unescapeChar]
  · simp [ParseStringConstant, loop_cons, unescapeChar]

/-- C8 at the literal `'a\tb\n'` followed by a space, after the token `Char '='`. -/
theorem C8_string_literal_unescaped_witness :
    (('\'' : Char) = '\'' ∨ ('\'' : Char) = '\"') ∧
      closedBody '\'' ['a', '\\', 't', 'b', '\\', 'n'] = true ∧
      Token.Char '=' ≠ .Eof ∧ Token.Char '=' ≠ .Newline ∧
      (ParseStringConstant ('\'' :: (['a', '\\', 't', 'b', '\\', 'n'] ++ '\'' :: [' '])) =
          .ok (.String (unescape ['a', '\\', 't', 'b', '\\', 'n']), [' ']) ∧
        NextToken sampleTables
            ⟨'\'' :: (['a', '\\', 't', 'b', '\\', 'n'] ++ '\'' :: [' ']), .Char '=', 1, 0⟩ =
          .ok (.String (unescape ['a', '\\', 't', 'b', '\\', 'n']),
            ⟨[' '], .String (unescape ['a', '\\', 't', 'b', '\\', 'n']), 1, 0⟩) ∧
        ParseStringConstant ['\'', 'a', '\\', 't', 'b', '\\', 'n', '\''] =
          .ok (.String ['a', '\t', 'b', '\n'], []) ∧
        ParseStringConstant ['\"', '\\', 'q', '\'', '\\', '\"', '\\', '\\', '\"'] =
          .ok (.String ['q', '\'', '\"', '\\'], [])) :=
  ⟨Or.inl rfl, by decide, by decide, by decide,
    C8_string_literal_unescaped sampleTables '\'' ['a', '\\', 't', 'b', '\\', 'n'] [' ']
      (.Char '=') 1 (Or.inl rfl) (by decide) (by decide) (by decide)⟩

/-- C9: after an opening quote `q`, `ParseStringConstant` raises `expected
closing quote` exactly when the rest of the input holds no unescaped `q`, that
is when no occurrence of `q` in it is preceded by a body in which every `q` is
escaped; it raises no other error.  A literal opened with `'` is not closed by
`"`, and a literal whose only later quote is escaped is unterminated. -/
theorem C9_unterminated_string_iff (q : Char) (b : List Char) (hq : q = '\'' ∨ q = '\"') :
    (ParseStringConstant (q :: b) = .error .expected_closing_quote ↔
        ∀ b1 rest, b = b1 ++ q :: rest → closedBody q b1 = false) ∧
      (∀ e, ParseStringConstant (q :: b) = .error e → e = .expected_closing_quote) ∧
      ParseStringConstant ['\'', 'a', '\"'] = .error .expected_closing_quote ∧
      ParseStringConstant ['\'', 'a', '\\', '\''] = .error .expected_closing_quote := by
  rw [ParseStringConstant_quote q hq]
  refine ⟨?_, ?_, ?_, ?_⟩
  · rcases loop_result q (quote_ne_backslash q hq) b.length b (Nat.le_refl _) [] with
      ⟨he, hno⟩ | ⟨b1, rest, hd, hc, hok⟩
    · exact ⟨fun _ => hno, fun _ => he⟩
    · constructor
      · intro h
        rw [hok] at h
        cases h
      · intro h
        have := h b1 rest hd
        rw [hc] at this
        cases this
  · intro e h
    rcases loop_result q (quote_ne_backslash q hq) b.length b (Nat.le_refl _) [] with
      ⟨he, _⟩ | ⟨b1, rest, _, _, hok⟩
    · rw [he] at h
      cases h
      rfl
    · rw [hok] at h
      cases h
  · simp [ParseStringConstant, loop_cons, ParseStringConstant.loop]
  · simp [ParseStringConstant, loop_cons, ParseStringConstant.loop]

/-- C9 at the input `"abc` that ends inside a double-quoted literal. -/
theorem C9_unterminated_string_iff_witness :
    (('\"' : Char) = '\'' ∨ ('\"' : Char) = '\"') ∧
      ((ParseStringConstant ('\"' :: ['a', 'b', 'c']) = .error .expected_closing_quote ↔
          ∀ b1 rest, ['a', 'b', 'c'] = b1 ++ '\"' :: rest → closedBody '\"' b1 = false) ∧
        (∀ e, ParseStringConstant ('\"' :: ['a', 'b', 'c']) = .error e →
          e = .expected_closing_quote) ∧
        ParseStringConstant ['\'', 'a', '\"'] = .error .expected_closing_quote ∧
        ParseStringConstant ['\'', 'a', '\\', '\''] = .error .expected_closing_quote) :=
  ⟨Or.inr rfl, C9_unterminated_string_iff '\"' ['a', 'b', 'c'] (Or.inr rfl)⟩

/-- C11 (fails on the code at the byte `0xFF`): at a maximal run `d` of one or
more digits, `ParseNumber` raises a `LexerError` exactly when the character
after the run exists and is neither a space, a newline, a punctuation character
nor the byte `0xFF`; the only other failure is the `out_of_range` of `stoi`,
which is no `LexerError`; and a call of `NextToken` in the middle of a line
raises the error in the same case.  The input `42x`, and a digit run followed by
`_` or by a quote, raises the error when the follower is no punctuation
character.  The byte `0xFF` is no space, newline, end of input or (in the sample
tables) punctuation character, yet `42` followed by it raises no error: the
result is `Number 42, Newline, Eof`. -/
theorem C11_number_terminator_error (T : Tables) (k : Nat) (d rest : List Char) (t : Token)
    (m : Int) (he : t ≠ .Eof) (hn : t ≠ .Newline) (hd : d ≠ [])
    (hall : ∀ c ∈ d, c.isDigit = true)
    (hmax : ∀ c, rest.head? = some c → c.isDigit = false) :
    (ParseNumber T (d ++ rest) = .error .expected_terminator ↔
        ∃ c, rest.head? = some c ∧ c ≠ ' ' ∧ c ≠ '\n' ∧ c ≠ '\xff' ∧
          T.special_symbols c = false) ∧
      (∀ e, ParseNumber T (d ++ rest) = .error e →
        e = .expected_terminator ∨ e = .stoi_out_of_range) ∧
      (NextToken T ⟨List.replicate k ' ' ++ (d ++ rest), t, m, 0⟩ = .error .expected_terminator ↔
        ∃ c, rest.head? = some c ∧ c ≠ ' ' ∧ c ≠ '\n' ∧ c ≠ '\xff' ∧
          T.special_symbols c = false) ∧
      (T.special_symbols 'x' = false →
        Tokenize T ['4', '2', 'x'] = .error .expected_terminator) ∧
      (T.special_symbols '_' = false →
        Tokenize T ['4', '2', '_'] = .error .expected_terminator) ∧
      (T.special_symbols '\'' = false →
        Tokenize T ['4', '2', '\''] = .error .expected_terminator) ∧
      sampleTables.special_symbols '\xff' = false ∧
      ParseNumber T ['4', '2', '\xff'] = .ok (.Number 42, ['\xff']) ∧
      Tokenize T ['4', '2', '\xff'] = .ok [.Number 42, .Newline, .Eof] := by
  have hrun := ParseNumber_run T d rest hd hall hmax
  have hnext : NextToken T ⟨List.replicate k ' ' ++ (d ++ rest), t, m, 0⟩ =
      setCurrent ⟨List.replicate k ' ' ++ (d ++ rest), t, m, 0⟩ (ParseNumber T (d ++ rest)) := by
    rw [NextToken_scan T _ he hn rfl]
    cases d with
    | nil => exact absurd rfl hd
    | cons x d =>
      rw [List.cons_append, scan_digit T k x (d ++ rest) (hall x (by simp))]
  refine ⟨?_, ?_, ?_, ?_, ?_, ?_, by decide, ?_, ?_⟩
  · rw [hrun]
    by_cases hb : ∃ c, rest.head? = some c ∧ c ≠ ' ' ∧ c ≠ '\n' ∧ c ≠ '\xff' ∧
          T.special_symbols c = false
    · simp only [hb, if_true]
    · simp only [hb, if_false, iff_false]
      split <;> simp
  · intro e h
    rw [hrun] at h
    split at h
    · cases h
      exact Or.inl rfl
    · split at h
      · cases h
      · cases h
        exact Or.inr rfl
  · rw [hnext, hrun]
    by_cases hb : ∃ c, rest.head? = some c ∧ c ≠ ' ' ∧ c ≠ '\n' ∧ c ≠ '\xff' ∧
          T.special_symbols c = false
    · simp only [hb, if_true, setCurrent_error]
    · simp only [hb, if_false, iff_false]
      split
      · simp [setCurrent_okay]
      · simp [setCurrent_error]
  · intro hs
    simp [Tokenize, Lexer.new, skipLeadingComments_of_ne, NextToken_eq, afterIndent, scan,
      Skip_content, SkipSpaces, setCurrent, ParseNumber, hs]
  · intro hs
    simp [Tokenize, Lexer.new, skipLeadingComments_of_ne, NextToken_eq, afterIndent, scan,
      Skip_content, SkipSpaces, setCurrent, ParseNumber, hs]
  · intro hs
    simp [Tokenize, Lexer.new, skipLeadingComments_of_ne, NextToken_eq, afterIndent, scan,
      Skip_content, SkipSpaces, setCurrent, ParseNumber, hs]
  · simp [ParseNumber, stoi, decimalValue]
  · simp [Tokenize, Lexer.new, skipLeadingComments_of_ne, NextToken_eq, afterIndent, scan,
      Skip_blank, Skip_comment, Skip_content, SkipSpaces, getline, setCurrent, ParseNumber, stoi,
      decimalValue, ParseIndentOrDedent, budget, rank, drain]

/-- C11 at the input `42x` read after the token `Char '('`. -/
theorem C11_number_terminator_error_witness :
    Token.Char '(' ≠ .Eof ∧ Token.Char '(' ≠ .Newline ∧ ['4', '2'] ≠ [] ∧
      (∀ c ∈ ['4', '2'], c.isDigit = true) ∧
      (∀ c, ['x'].head? = some c → c.isDigit = false) ∧
      NextToken sampleTables ⟨List.replicate 0 ' ' ++ (['4', '2'] ++ ['x']), .Char '(', 0, 0⟩ =
        .error .expected_terminator :=
  have h1 : ∀ c ∈ ['4', '2'], c.isDigit = true := by
    intro c hc
    simp only [List.mem_cons, List.mem_singleton, List.not_mem_nil, or_false] at hc
    rcases hc with rfl | rfl <;> decide
  have h2 : ∀ c, ['x'].head? = some c → c.isDigit = false := by
    intro c hc
    simp only [List.head?_cons, Option.some.injEq] at hc
    subst hc
    decide
  ⟨by decide, by decide, by decide, h1, h2,
    (C11_number_terminator_error sampleTables 0 ['4', '2'] ['x'] (.Char '(') 0
      (by decide) (by decide) (by decide) h1 h2).2.2.1.mpr
      ⟨'x', rfl, by decide, by decide, by decide, by decide⟩⟩

/-- C13: in the middle of a line with nothing owed, when `=`, `!`, `<` and `>`
are comparison leads, the two characters `==`, `!=`, `<=`, `>=` are read
together and give `Eq`, `NotEq`, `LessOrEq`, `GreaterOrEq`; an `=` whose next
character is not `=` gives `Char '='` and reads one character; `===` gives `Eq`
and then `Char '='`; and `<` or `>` not followed by `=` gives `Char` of it when
it is a punctuation character and a parsing error otherwise, never a
comparison token. -/
theorem C13_operator_dispatch (T : Tables) (rest : List Char) (t : Token) (m : Int)
    (he : t ≠ .Eof) (hn : t ≠ .Newline)
    (hcmp : T.comparison_symbols '=' = true ∧ T.comparison_symbols '!' = true ∧
      T.comparison_symbols '<' = true ∧ T.comparison_symbols '>' = true) :
    NextToken T ⟨'=' :: '=' :: rest, t, m, 0⟩ = .ok (.Eq, ⟨rest, .Eq, m, 0⟩) ∧
      NextToken T ⟨'!' :: '=' :: rest, t, m, 0⟩ = .ok (.NotEq, ⟨rest, .NotEq, m, 0⟩) ∧
      NextToken T ⟨'<' :: '=' :: rest, t, m, 0⟩ = .ok (.LessOrEq, ⟨rest, .LessOrEq, m, 0⟩) ∧
      NextToken T ⟨'>' :: '=' :: rest, t, m, 0⟩ =
        .ok (.GreaterOrEq, ⟨rest, .GreaterOrEq, m, 0⟩) ∧
      (rest.head? ≠ some '=' →
        NextToken T ⟨'=' :: rest, t, m, 0⟩ = .ok (.Char '=', ⟨rest, .Char '=', m, 0⟩)) ∧
      calls T 2 ⟨['=', '=', '='], t, m, 0⟩ = .ok ([.Eq, .Char '='], ⟨[], .Char '=', m, 0⟩) ∧
      (∀ c, c = '<' ∨ c = '>' → rest.head? ≠ some '=' →
        NextToken T ⟨c :: rest, t, m, 0⟩ =
          if T.special_symbols c = true then .ok (.Char c, ⟨rest, .Char c, m, 0⟩)
          else .error .parsing_error) := by
  obtain ⟨c1, c2, c3, c4⟩ := hcmp
  have hassign : ∀ (r : List Char) (t0 : Token), t0 ≠ .Eof → t0 ≠ .Newline →
      r.head? ≠ some '=' →
      NextToken T ⟨'=' :: r, t0, m, 0⟩ = .ok (.Char '=', ⟨r, .Char '=', m, 0⟩) := by
    intro r t0 h0 h1 hr
    have h := scan_chain T 0 '=' r t0 m 0 (by decide)
    simp only [List.replicate, List.nil_append] at h
    rw [NextToken_scan T _ h0 h1 rfl, h, if_neg (by decide), if_neg (by decide),
      if_neg (by decide), if_neg (by decide), if_neg (by decide), if_pos ⟨trivial, hr⟩]
  have heq : ∀ r : List Char,
      NextToken T ⟨'=' :: '=' :: r, t, m, 0⟩ = .ok (.Eq, ⟨r, .Eq, m, 0⟩) := by
    intro r
    rw [NextToken_scan T _ he hn rfl, scan_comparison T '=' r t m 0 (by simp) c1]
    simp [ParseComparisonOperator, setCurrent]
  refine ⟨heq rest, ?_, ?_, ?_, hassign rest t he hn, ?_, ?_⟩
  · rw [NextToken_scan T _ he hn rfl, scan_comparison T '!' rest t m 0 (by simp) c2]
    simp [ParseComparisonOperator, setCurrent]
  · rw [NextToken_scan T _ he hn rfl, scan_comparison T '<' rest t m 0 (by simp) c3]
    simp [ParseComparisonOperator, setCurrent]
  · rw [NextToken_scan T _ he hn rfl, scan_comparison T '>' rest t m 0 (by simp) c4]
    simp [ParseComparisonOperator, setCurrent]
  · simp only [calls, heq ['='], hassign [] .Eq (by decide) (by decide) (by simp)]
  · intro c hc hr
    rw [NextToken_scan T _ he hn rfl, scan_angle T c rest t m 0 hc hr]

/-- C13 for the sample tables, after the token `Id x` and in front of a space. -/
theorem C13_operator_dispatch_witness :
    Token.Id ['x'] ≠ .Eof ∧ Token.Id ['x'] ≠ .Newline ∧
      (sampleTables.comparison_symbols '=' = true ∧ sampleTables.comparison_symbols '!' = true ∧
        sampleTables.comparison_symbols '<' = true ∧
        sampleTables.comparison_symbols '>' = true) ∧
      NextToken sampleTables ⟨'<' :: '=' :: [' '], .Id ['x'], 0, 0⟩ =
        .ok (.LessOrEq, ⟨[' '], .LessOrEq, 0, 0⟩) :=
  ⟨by decide, by decide, by decide,
    (C13_operator_dispatch sampleTables [' '] (.Id ['x']) 0 (by decide) (by decide)
      (by decide)).2.2.1⟩

/-- C14: for an input `s` whose last character other than a space exists and is
neither a newline nor the byte `0xFF`, tokenizing `s` followed by a newline
gives the same result as tokenizing `s`.  After the last content token, one
`Newline` is returned at the end of input, then the owed `Dedent` tokens, then
`Eof`.  At the end of input after `Indent` or `Dedent`, and after `Newline` at
level `0`, `Eof` is returned with no `Newline`; and when the input ends inside a
comment after a content token, `Eof` is returned at once.  The byte `0xFF` is
shut out because the code reads it as the end of the line: `1`, byte `0xFF`, two
spaces gives `Number 1, Newline, Indent, Eof`, and with a newline added
`Number 1, Newline, Eof`. -/
theorem C14_end_of_input (T : Tables) (s : List Char) (hs : endsWithContent s = true) :
    Tokenize T (s ++ ['\n']) = Tokenize T s ∧
      (∀ (k m : Nat) (t : Token), rank t = 2 →
        calls T (m + 2) ⟨List.replicate k ' ', t, (m : Int), 0⟩ =
          .ok (.Newline :: List.replicate m .Dedent ++ [.Eof], ⟨[], .Eof, 0, 0⟩)) ∧
      (∀ (k : Nat) (m : Int) (t : Token), t = .Indent ∨ t = .Dedent →
        NextToken T ⟨List.replicate k ' ', t, m, 0⟩ = .ok (.Eof, ⟨[], .Eof, m, 0⟩)) ∧
      (∀ d : Int, NextToken T ⟨[], .Newline, 0, d⟩ = .ok (.Eof, ⟨[], .Eof, 0, 0⟩)) ∧
      (∀ (k : Nat) (m : Int) (t : Token) (text : List Char), rank t = 2 → '\n' ∉ text →
        NextToken T ⟨List.replicate k ' ' ++ '#' :: text, t, m, 0⟩ =
          .ok (.Eof, ⟨[], .Eof, 0, -m⟩)) ∧
      Tokenize T ['1', '\xff', ' ', ' '] = .ok [.Number 1, .Newline, .Indent, .Eof] ∧
      Tokenize T (['1', '\xff', ' ', ' '] ++ ['\n']) = .ok [.Number 1, .Newline, .Eof] := by
  refine ⟨?_, ?_, ?_, ?_, ?_, ?_, ?_⟩
  · have hnew : ∀ x : List Char,
        NextToken T ⟨skipLeadingComments x, .Newline, 0, 0⟩ = NextToken T ⟨x, .Newline, 0, 0⟩ := by
      intro x
      simp only [NextToken_newline,
        Skip_skipLeadingComments .Newline 0 0 x.length x (Nat.le_refl _)]
    have hset : ∀ (tk : Token) (s1 : Lexer) (s0 : Lexer), NextToken T s0 = .ok (tk, s1) →
        ({ s1 with current_token_ := tk } : Lexer) = s1 := by
      intro tk s1 s0 h
      have := NextToken_current T s0 s1 tk h
      subst this
      rfl
    simp only [Tokenize, Lexer.new, hnew]
    rcases NextToken_ends T ⟨s, .Newline, 0, 0⟩ ⟨s ++ ['\n'], .Newline, 0, 0⟩
      (Or.inr ⟨rfl, Or.inl hs⟩) with ⟨e, h1, h2⟩ | ⟨tk, s1, s3, h1, h2, hr⟩
    · rw [h1, h2]
    · rw [h1, h2]
      simp only [hset tk s1 _ h1, hset tk s3 _ h2]
      have f1 := drain_fuel T (budget s1) s1 (Nat.le_refl _) (max (budget s1) (budget s3))
        (Nat.le_max_left _ _)
      have f3 := drain_fuel T (budget s3) s3 (Nat.le_refl _) (max (budget s1) (budget s3))
        (Nat.le_max_right _ _)
      rw [← f1, ← f3]
      exact (drain_Ends T _ s1 s3 hr).symm
  · intro k m t hr
    obtain ⟨r1, r2, r3, r4⟩ := rank_two t hr
    have h1 : NextToken T ⟨List.replicate k ' ', t, (m : Int), 0⟩ =
        .ok (.Newline, ⟨[], .Newline, m, 0⟩) := by
      rw [NextToken_scan T _ r4 r1 rfl, scan_end, if_neg]
      rintro (hx | hx | hx)
      · exact r1 hx
      · exact r2 hx
      · exact r3 hx
    rw [calls, h1]
    simp only
    cases m with
    | zero =>
      have h2 := dedent_run T 0 .Newline (Or.inl rfl) (fun _ => rfl)
      simp only [Nat.cast_zero, neg_zero, Nat.zero_add] at h2 ⊢
      rw [h2]
      rfl
    | succ j =>
      have h2 := NextToken_close T ((j + 1 : Nat) : Int) 0 (by omega)
      have e : (1 : Int) - ((j + 1 : Nat) : Int) = -(j : Int) := by omega
      rw [e] at h2
      rw [calls, h2]
      simp only
      rw [dedent_run T j .Dedent (Or.inr (Or.inr rfl)) (by intro hx; cases hx)]
      simp [List.replicate_succ]
  · intro k m t ht
    have he : t ≠ .Eof := by
      rcases ht with rfl | rfl <;> decide
    have hn : t ≠ .Newline := by
      rcases ht with rfl | rfl <;> decide
    rw [NextToken_scan T _ he hn rfl, scan_end, if_pos (Or.inr ht)]
  · intro d
    simp [NextToken_eq, afterIndent, scan, Skip_content, SkipSpaces]
  · intro k m t text hr htext
    obtain ⟨r1, _, _, r4⟩ := rank_two t hr
    have hg : getline text = [] := by
      have := getline_snoc text
      rcases this with ⟨_, l, h2⟩ | ⟨_, h2⟩
      · exfalso
        apply htext
        rw [h2]
        simp
      · exact h2
    rw [NextToken_scan T _ r4 r1 rfl, scan_chain T k '#' text t m 0 (by decide)]
    rw [if_neg (by decide), if_neg (by decide), if_neg (by decide), if_pos rfl, hg]
    simp [commentEnd, Skip_content, SkipSpaces]
  · simp [Tokenize, Lexer.new, skipLeadingComments_of_ne, NextToken_eq, afterIndent, scan,
      Skip_blank, Skip_comment, Skip_content, SkipSpaces, getline, setCurrent, ParseNumber, stoi,
      decimalValue, ParseIndentOrDedent, budget, rank, drain]
  · simp [Tokenize, Lexer.new, skipLeadingComments_of_ne, NextToken_eq, afterIndent, scan,
      Skip_blank, Skip_comment, Skip_content, SkipSpaces, getline, setCurrent, ParseNumber, stoi,
      decimalValue, ParseIndentOrDedent, budget, rank, drain]

/-- C14 on the input `1`, newline, two spaces, `2`, two spaces: the last line
has no newline. -/
theorem C14_end_of_input_witness :
    endsWithContent ['1', '\n', ' ', ' ', '2', ' ', ' '] = true ∧
      Tokenize sampleTables ['1', '\n', ' ', ' ', '2', ' ', ' '] =
        .ok [.Number 1, .Newline, .Indent, .Number 2, .Newline, .Dedent, .Eof] ∧
      Tokenize sampleTables (['1', '\n', ' ', ' ', '2', ' ', ' '] ++ ['\n']) =
        Tokenize sampleTables ['1', '\n', ' ', ' ', '2', ' ', ' '] :=
  ⟨by decide, by
    simp [Tokenize, Lexer.new, skipLeadingComments_of_ne, NextToken_eq, afterIndent, scan,
      Skip_blank, Skip_comment, Skip_content, SkipSpaces, getline, setCurrent, ParseNumber, stoi,
      decimalValue, ParseIndentOrDedent, budget, rank, drain, sampleTables],
    (C14_end_of_input sampleTables ['1', '\n', ' ', ' ', '2', ' ', ' '] (by decide)).1⟩

/-- C15: `operator==` holds exactly for tokens of the same variant with the same
payload, which is equality of tokens; it is reflexive, symmetric and
transitive; two tokens of the same variant without a value are equal; and
`operator!=` is its negation. -/
theorem C15_token_equality_structural (a b c : Token) :
    (operator_eq a b = true ↔ a.index = b.index ∧ payload a = payload b) ∧
      (operator_eq a b = true ↔ a = b) ∧
      operator_eq a a = true ∧
      (operator_eq a b = true → operator_eq b a = true) ∧
      (operator_eq a b = true → operator_eq b c = true → operator_eq a c = true) ∧
      (a.index = b.index → payload a = none → operator_eq a b = true) ∧
      operator_ne a b = !(operator_eq a b) ∧
      (operator_ne a b = true ↔ ¬ operator_eq a b = true) := by
  refine ⟨?_, ?_, ?_, ?_, ?_, ?_, ?_, ?_⟩
  · cases a <;> cases b <;> simp [operator_eq, Token.index, payload]
  · simp [operator_eq_eq_decide]
  · simp [operator_eq_eq_decide]
  · simp only [operator_eq_eq_decide, decide_eq_true_eq]
    exact fun h => h.symm
  · simp only [operator_eq_eq_decide, decide_eq_true_eq]
    exact fun h1 h2 => h1.trans h2
  · cases a <;> cases b <;> simp [operator_eq, Token.index, payload]
  · rfl
  · simp [operator_ne]

/-- C16 (fails on the code at the byte `0xFF`): the input `1`, newline, two
spaces, byte `0xFF` holds no `#`, does not end with a run of spaces beginning at
a line start, and tokenizes without error as `Number 1, Newline, Indent, Eof`:
one `Indent` and no `Dedent`, because the byte is read as the end of input when
the level is 1.  With the sample tables the input `a`, newline, two spaces, byte
`0xFF` gives `Id a, Newline, Indent, Eof`.  On every input that also holds no
byte `0xFF` the claim holds: the complete token sequence ends with `Eof`, holds
as many `Dedent` as `Indent` tokens, and each of its initial segments holds at
least as many `Indent` as `Dedent` tokens. -/
theorem C16_indentation_open_at_byte_255 (T : Tables) :
    '#' ∉ ['1', '\n', ' ', ' ', '\xff'] ∧
      ¬ endsWithIndentOnly ['1', '\n', ' ', ' ', '\xff'] ∧
      Tokenize T ['1', '\n', ' ', ' ', '\xff'] = .ok [.Number 1, .Newline, .Indent, .Eof] ∧
      balance [.Number 1, .Newline, .Indent, .Eof] = 1 ∧
      Tokenize sampleTables ['a', '\n', ' ', ' ', '\xff'] =
        .ok [.Id ['a'], .Newline, .Indent, .Eof] ∧
      (∀ (input : List Char) (ts : List Token), '#' ∉ input → '\xff' ∉ input →
        ¬ endsWithIndentOnly input → Tokenize T input = .ok ts →
          ts.getLast? = some .Eof ∧ ts.count .Dedent = ts.count .Indent ∧ balance ts = 0 ∧
            (∀ k, (ts.take k).count .Dedent ≤ (ts.take k).count .Indent) ∧
            (∀ k, 0 ≤ balance (ts.take k))) := by
  refine ⟨by decide, ?_, ?_, by decide, ?_, closed_at_end_plain T⟩
  · rintro ⟨pre, n, h, _⟩
    have := congrArg List.getLast? h
    simp [List.getLast?_append, List.replicate_succ'] at this
  · simp [Tokenize, Lexer.new, skipLeadingComments_of_ne, NextToken_eq, afterIndent, scan,
      Skip_blank, Skip_comment, Skip_content, SkipSpaces, getline, setCurrent, ParseNumber, stoi,
      decimalValue, ParseIndentOrDedent, budget, rank, drain]
  · simp [Tokenize, Lexer.new, skipLeadingComments_of_ne, NextToken_eq, afterIndent, scan,
      Skip_blank, Skip_comment, Skip_content, SkipSpaces, getline, setCurrent, ParseName,
      isNameChar, keyword_to_token, ParseIndentOrDedent, budget, rank, drain, sampleTables]

/-- C16 without the byte `0xFF`, on the input `1`, newline, two spaces, `2`: the
input ends inside a block, and a `Dedent` is returned before `Eof`. -/
theorem C16_indentation_open_at_byte_255_witness :
    Tokenize sampleTables ['1', '\n', ' ', ' ', '2'] =
        .ok [.Number 1, .Newline, .Indent, .Number 2, .Newline, .Dedent, .Eof] ∧
      balance [.Number 1, .Newline, .Indent, .Number 2, .Newline, .Dedent, .Eof] = 0 :=
  have hok : Tokenize sampleTables ['1', '\n', ' ', ' ', '2'] =
      .ok [.Number 1, .Newline, .Indent, .Number 2, .Newline, .Dedent, .Eof] := by
    simp [Tokenize, Lexer.new, skipLeadingComments_of_ne, NextToken_eq, afterIndent, scan,
      Skip_blank, Skip_comment, Skip_content, SkipSpaces, getline, setCurrent, ParseNumber, stoi,
      decimalValue, ParseIndentOrDedent, budget, rank, drain, sampleTables]
  have hend : ¬ endsWithIndentOnly ['1', '\n', ' ', ' ', '2'] := by
    rintro ⟨pre, n, h, _⟩
    have := congrArg List.getLast? h
    simp [List.getLast?_append, List.replicate_succ'] at this
  ⟨hok, ((C16_indentation_open_at_byte_255 sampleTables).2.2.2.2.2 _ _ (by decide) (by decide)
    hend hok).2.2.1⟩

/-- C17 (fails on the code): with the line `1`, the comment text `c` and the
rest made of two spaces, `2` and a newline, the input with the trailing comment
yields `Number 1, Newline, Dedent, Number 2, Newline, Eof`, while the input with
the comment removed yields `Number 1, Newline, Indent, Number 2, Newline,
Dedent, Eof`.  With the sample tables, the input `if x: # c`, newline, two
spaces, `y`, newline has a `Dedent` and no `Indent` in front of `Id y`. -/
theorem C17_trailing_comment_changes_tokens (T : Tables) :
    Tokenize T (['1'] ++ [' ', '#'] ++ ['c'] ++ ['\n'] ++ [' ', ' ', '2', '\n']) =
        .ok [.Number 1, .Newline, .Dedent, .Number 2, .Newline, .Eof] ∧
      Tokenize T (['1'] ++ ['\n'] ++ [' ', ' ', '2', '\n']) =
        .ok [.Number 1, .Newline, .Indent, .Number 2, .Newline, .Dedent, .Eof] ∧
      Tokenize sampleTables
          ['i', 'f', ' ', 'x', ':', ' ', '#', ' ', 'c', '\n', ' ', ' ', 'y', '\n'] =
        .ok [.If, .Id ['x'], .Char ':', .Newline, .Dedent, .Id ['y'], .Newline, .Eof] := by
  refine ⟨?_, ?_, ?_⟩
  · simp [Tokenize, Lexer.new, skipLeadingComments_of_ne, NextToken_eq, afterIndent, scan,
      Skip_blank, Skip_comment, Skip_content, SkipSpaces, getline, setCurrent, ParseNumber, stoi,
      decimalValue, ParseIndentOrDedent, budget, rank, drain]
  · simp [Tokenize, Lexer.new, skipLeadingComments_of_ne, NextToken_eq, afterIndent, scan,
      Skip_blank, Skip_comment, Skip_content, SkipSpaces, getline, setCurrent, ParseNumber, stoi,
      decimalValue, ParseIndentOrDedent, budget, rank, drain]
  · simp [Tokenize, Lexer.new, skipLeadingComments_of_ne, NextToken_eq, afterIndent, scan,
      Skip_blank, Skip_comment, Skip_content, SkipSpaces, getline, setCurrent, ParseName,
      isNameChar, keyword_to_token, ParseIndentOrDedent, budget, rank, drain, sampleTables]

/-- C18 (fails on the code): the input `1`, newline, two spaces yields
`Number 1, Newline, Indent, Eof`, while `1`, newline yields `Number 1, Newline,
Eof`; and the input `1`, newline, one space raises `invalid indent`.  With the
sample tables, the input `x`, newline, two spaces yields `Id x, Newline, Indent,
Eof`. -/
theorem C18_final_spaces_line_not_blank (T : Tables) :
    Tokenize T (['1', '\n'] ++ List.replicate 2 ' ') =
        .ok [.Number 1, .Newline, .Indent, .Eof] ∧
      Tokenize T ['1', '\n'] = .ok [.Number 1, .Newline, .Eof] ∧
      Tokenize T (['1', '\n'] ++ List.replicate 1 ' ') = .error .invalid_indent ∧
      Tokenize sampleTables (['x', '\n'] ++ List.replicate 2 ' ') =
        .ok [.Id ['x'], .Newline, .Indent, .Eof] := by
  refine ⟨?_, ?_, ?_, ?_⟩
  · simp [Tokenize, Lexer.new, skipLeadingComments_of_ne, NextToken_eq, afterIndent, scan,
      Skip_blank, Skip_comment, Skip_content, SkipSpaces, getline, setCurrent, ParseNumber, stoi,
      decimalValue, ParseIndentOrDedent, budget, rank, drain, List.replicate]
  · simp [Tokenize, Lexer.new, skipLeadingComments_of_ne, NextToken_eq, afterIndent, scan,
      Skip_blank, Skip_comment, Skip_content, SkipSpaces, getline, setCurrent, ParseNumber, stoi,
      decimalValue, ParseIndentOrDedent, budget, rank, drain]
  · simp [Tokenize, Lexer.new, skipLeadingComments_of_ne, NextToken_eq, afterIndent, scan,
      Skip_blank, Skip_comment, Skip_content, SkipSpaces, getline, setCurrent, ParseNumber, stoi,
      decimalValue, ParseIndentOrDedent, budget, rank, drain, List.replicate]
  · simp [Tokenize, Lexer.new, skipLeadingComments_of_ne, NextToken_eq, afterIndent, scan,
      Skip_blank, Skip_comment, Skip_content, SkipSpaces, getline, setCurrent, ParseName,
      isNameChar, keyword_to_token, ParseIndentOrDedent, budget, rank, drain, List.replicate,
      sampleTables]

/-- C19: the token of the constructor followed by the results of any number of
successive calls of `NextToken` does not start with `Newline`; no `Newline` in
it follows a `Newline`; every `Indent` follows a `Newline` or an `Indent` and
every `Dedent` follows a `Newline` or a `Dedent` (or is the first token), so no
`Indent` is next to a `Dedent`.  The same holds for the complete token
sequence up to `Eof`. -/
theorem C19_line_boundary_shape (T : Tables) (input : List Char) (s0 s1 : Lexer) (n : Nat)
    (ts : List Token) (hnew : Lexer.new T input = .ok s0)
    (hcalls : calls T n s0 = .ok (ts, s1)) :
    (s0.current_token_ :: ts).head? ≠ some .Newline ∧
      List.Chain' boundaryShape (s0.current_token_ :: ts) ∧
      List.Chain' (fun p t => ¬ (p = .Indent ∧ t = .Dedent) ∧ ¬ (p = .Dedent ∧ t = .Indent))
        (s0.current_token_ :: ts) ∧
      (∀ all, Tokenize T input = .ok all →
        all.head? ≠ some .Newline ∧ List.Chain' boundaryShape all) := by
  obtain ⟨hinv, hne⟩ := new_shape T input s0 hnew
  have hch := calls_shape T n s0 s1 ts hinv hcalls
  refine ⟨by simpa using hne, hch, ?_, ?_⟩
  · refine List.Chain'.imp ?_ hch
    intro p t ⟨_, h2, h3⟩
    constructor
    · rintro ⟨hp, ht⟩
      rcases h3 ht with hx | hx <;> rw [hp] at hx <;> cases hx
    · rintro ⟨hp, ht⟩
      rcases h2 ht with hx | hx <;> rw [hp] at hx <;> cases hx
  · intro all hall
    unfold Tokenize at hall
    rw [hnew] at hall
    obtain ⟨h1, h2⟩ := drain_shape T _ s0 all hinv hall
    refine ⟨?_, h2⟩
    rw [h1]
    simpa using hne

/-- C19 on the input `1`, newline, two spaces, `2`, newline, with five calls
after the constructor. -/
theorem C19_line_boundary_shape_witness :
    Lexer.new sampleTables ['1', '\n', ' ', ' ', '2', '\n'] = .ok ⟨['\n', ' ', ' ', '2', '\n'], .Number 1, 0, 0⟩ ∧
      calls sampleTables 5 ⟨['\n', ' ', ' ', '2', '\n'], .Number 1, 0, 0⟩ =
        .ok ([.Newline, .Indent, .Number 2, .Newline, .Dedent], ⟨[], .Dedent, 0, 0⟩) ∧
      List.Chain' boundaryShape
        [.Number 1, .Newline, .Indent, .Number 2, .Newline, .Dedent] :=
  have hnew : Lexer.new sampleTables ['1', '\n', ' ', ' ', '2', '\n'] =
      .ok ⟨['\n', ' ', ' ', '2', '\n'], .Number 1, 0, 0⟩ := by
    simp [Lexer.new, skipLeadingComments_of_ne, NextToken_eq, afterIndent, scan, Skip_blank,
      Skip_comment, Skip_content, SkipSpaces, getline, setCurrent, ParseNumber, stoi,
      decimalValue, ParseIndentOrDedent, sampleTables]
  have hcalls : calls sampleTables 5 ⟨['\n', ' ', ' ', '2', '\n'], .Number 1, 0, 0⟩ =
      .ok ([.Newline, .Indent, .Number 2, .Newline, .Dedent], ⟨[], .Dedent, 0, 0⟩) := by
    simp [calls, NextToken_eq, afterIndent, scan, Skip_blank,
      Skip_comment, Skip_content, SkipSpaces, getline, setCurrent, ParseNumber, stoi,
      decimalValue, ParseIndentOrDedent, sampleTables]
  ⟨hnew, hcalls, (C19_line_boundary_shape sampleTables _ _ _ 5 _ hnew hcalls).2.1⟩

/-- C20: when the comparison leads are among `=`, `!`, `<` and `>`, a call of
`NextToken` in any lexer state raises no error other than `invalid indent`, the
number-terminator error, `expected closing quote`, `parsing error` and the
`out_of_range` of `stoi`; so `expected number`, `expected opening quote`,
`invalid symbol/id`, `no indent/dedent` and `expected comparison operation` are
never raised.  After `SkipEmptyLinesAndComments` has returned, the next
character is never `#`, so the recursive call of the `#` branch is never made. -/
theorem C20_defensive_errors_unreachable (T : Tables)
    (hcmp : ∀ c, T.comparison_symbols c = true → c = '=' ∨ c = '!' ∨ c = '<' ∨ c = '>')
    (s : Lexer) :
    (∀ e, NextToken T s = .error e →
        e = .invalid_indent ∨ e = .expected_terminator ∨ e = .expected_closing_quote ∨
          e = .parsing_error ∨ e = .stoi_out_of_range) ∧
      (∀ e, NextToken T s = .error e →
        e ≠ .expected_number ∧ e ≠ .expected_opening_quote ∧ e ≠ .invalid_symbol_id ∧
          e ≠ .no_indent_dedent ∧ e ≠ .expected_comparison_operation) ∧
      (∀ s2, SkipEmptyLinesAndComments s = .ok s2 → s2.input_.head? ≠ some '#') := by
  have hafter : ∀ (s1 : Lexer) (e : LexerError), afterIndent T s1 = .error e →
      e = .invalid_indent ∨ e = .expected_terminator ∨ e = .expected_closing_quote ∨
        e = .parsing_error ∨ e = .stoi_out_of_range := by
    intro s1 e h
    unfold afterIndent at h
    split at h
    · next hd =>
      split at h
      · next e2 hp =>
        unfold ParseIndentOrDedent at hp
        split at hp
        · cases hp
        · split at hp
          · cases hp
          · next h1 h2 => exact absurd (by omega) hd
      · cases h
    · exact scan_error T hcmp s1 e h
  have hmain : ∀ e, NextToken T s = .error e →
      e = .invalid_indent ∨ e = .expected_terminator ∨ e = .expected_closing_quote ∨
        e = .parsing_error ∨ e = .stoi_out_of_range := by
    intro e h
    rw [NextToken_eq] at h
    split at h
    · cases h
    · split at h
      · split at h
        · next e2 hs =>
          cases h
          exact Or.inl (Skip_error _ _ hs)
        · exact hafter _ e h
      · exact hafter _ e h
  refine ⟨hmain, ?_, fun s2 h => (Skip_head s s2 h).2.2⟩
  intro e h
  rcases hmain e h with rfl | rfl | rfl | rfl | rfl <;> decide

/-- C20 for the sample tables, at the lexer in front of `$`. -/
theorem C20_defensive_errors_unreachable_witness :
    (∀ c, sampleTables.comparison_symbols c = true → c = '=' ∨ c = '!' ∨ c = '<' ∨ c = '>') ∧
      NextToken sampleTables ⟨['$'], .Newline, 0, 0⟩ = .error .parsing_error ∧
      ((∀ e, NextToken sampleTables ⟨['$'], .Newline, 0, 0⟩ = .error e →
          e = .invalid_indent ∨ e = .expected_terminator ∨ e = .expected_closing_quote ∨
            e = .parsing_error ∨ e = .stoi_out_of_range) ∧
        (∀ e, NextToken sampleTables ⟨['$'], .Newline, 0, 0⟩ = .error e →
          e ≠ .expected_number ∧ e ≠ .expected_opening_quote ∧ e ≠ .invalid_symbol_id ∧
            e ≠ .no_indent_dedent ∧ e ≠ .expected_comparison_operation) ∧
        (∀ s2, SkipEmptyLinesAndComments ⟨['$'], .Newline, 0, 0⟩ = .ok s2 →
          s2.input_.head? ≠ some '#')) :=
  have hc : ∀ c, sampleTables.comparison_symbols c = true →
      c = '=' ∨ c = '!' ∨ c = '<' ∨ c = '>' := by
    intro c h
    simpa [sampleTables] using h
  ⟨hc, by
    simp [NextToken_eq, afterIndent, scan, Skip_content, SkipSpaces, sampleTables],
    C20_defensive_errors_unreachable sampleTables hc ⟨['$'], .Newline, 0, 0⟩⟩

end parse
